import Mathlib

/-!
gh-mysql-conf-diff: a shallow embedding of the reconciliation engine.

The development follows the Go sources

* `cmd/gh-mysql-conf-diff/mysql_config.go` (`NewMySQLConfig`, `readFile`,
  `ComposeForVersion`, `isOptionBlockMatch`, `clean`, `normalize`, `normalizeDataSize`),
* `cmd/gh-mysql-conf-diff/mysql_conn.go` (`applySetting`, `GetVariableKeyFrom`),
* `cmd/mysql-conf-diff/mysql_version.go` (`ParseVersion`),
* `cmd/mysql-conf-diff/cli_config.go` (`parseArgs`),
* `cmd/mysql-conf-diff/main.go` (`runWithReturnCode`, `mysqlConfDiff`, `normalizeKeys`,
  `limitToWatchedOptions`).

Conventions of the embedding.

* A Go `string` is embedded as a Lean `String`, read as the sequence of its runes.  Every
  byte-level operation the program performs (`HasSuffix` with an ASCII suffix, slicing off
  the last byte after such a test, comparing with ASCII literals) cuts the text at an ASCII
  character, where the byte view and the rune view agree.
* Go's `int` and `int64` are embedded as `Int`; the places where the 64-bit width is visible
  (`strconv.ParseInt` range checks, the wrapping product in `normalizeDataSize`) carry the
  bound or the reduction modulo `2^64` explicitly.
* A Go `map[string]T` is embedded as an association list without duplicate keys
  (`AList`).  Go iterates a map in an unspecified order; the embedding iterates the entry
  list, and every statement is quantified over all maps, hence over all entry orders.
* `strings.ToUpper` maps every rune through `unicode.ToUpper`, embedded with the case
  ranges of the Unicode tables: the ASCII letters are only the first of the ranges.
* The libraries outside the sources are parameters (the flag parser of `parseArgs`,
  `os.ReadFile`, the database driver's answer to a statement) or, for the ini parser that
  `NewMySQLConfig` calls, definitions that follow the specification's description.
-/

namespace MysqlConfDiff

/-! ## The fragment of the Go standard library the program uses -/

namespace unicode

/-- Go `unicode.MaxRune`. -/
def MaxRune : Int := 0x10FFFF

/-- Go `unicode.UpperLower`: the delta that marks a range of alternating upper-case and
lower-case letters. -/
def UpperLower : Int := MaxRune + 1

/-- Go `unicode.CaseRange`, with the upper-case component of its `Delta`: the number to add
to a code point of the range `Lo..Hi` to reach its upper case, or `UpperLower`. -/
structure CaseRange where
  Lo : Nat
  Hi : Nat
  Delta : Int
  deriving DecidableEq, Repr

/-- Go `unicode.CaseRanges` (the table of Unicode 15.0.0 that Go 1.21 and later carry),
reduced to what `ToUpper` reads: the ranges in which a code point above ASCII differs from
its upper case, in increasing order. -/
def CaseRanges : List CaseRange :=
  [
    CaseRange.mk 0x00B5 0x00B5 743,
    CaseRange.mk 0x00E0 0x00F6 (-32),
    CaseRange.mk 0x00F8 0x00FE (-32),
    CaseRange.mk 0x00FF 0x00FF 121,
    CaseRange.mk 0x0100 0x012F UpperLower,
    CaseRange.mk 0x0131 0x0131 (-232),
    CaseRange.mk 0x0132 0x0137 UpperLower,
    CaseRange.mk 0x0139 0x0148 UpperLower,
    CaseRange.mk 0x014A 0x0177 UpperLower,
    CaseRange.mk 0x0179 0x017E UpperLower,
    CaseRange.mk 0x017F 0x017F (-300),
    CaseRange.mk 0x0180 0x0180 195,
    CaseRange.mk 0x0182 0x0185 UpperLower,
    CaseRange.mk 0x0188 0x0188 (-1),
    CaseRange.mk 0x018C 0x018C (-1),
    CaseRange.mk 0x0192 0x0192 (-1),
    CaseRange.mk 0x0195 0x0195 97,
    CaseRange.mk 0x0199 0x0199 (-1),
    CaseRange.mk 0x019A 0x019A 163,
    CaseRange.mk 0x019E 0x019E 130,
    CaseRange.mk 0x01A0 0x01A5 UpperLower,
    CaseRange.mk 0x01A8 0x01A8 (-1),
    CaseRange.mk 0x01AD 0x01AD (-1),
    CaseRange.mk 0x01B0 0x01B0 (-1),
    CaseRange.mk 0x01B3 0x01B6 UpperLower,
    CaseRange.mk 0x01B9 0x01B9 (-1),
    CaseRange.mk 0x01BD 0x01BD (-1),
    CaseRange.mk 0x01BF 0x01BF 56,
    CaseRange.mk 0x01C5 0x01C5 (-1),
    CaseRange.mk 0x01C6 0x01C6 (-2),
    CaseRange.mk 0x01C8 0x01C8 (-1),
    CaseRange.mk 0x01C9 0x01C9 (-2),
    CaseRange.mk 0x01CB 0x01CB (-1),
    CaseRange.mk 0x01CC 0x01CC (-2),
    CaseRange.mk 0x01CD 0x01DC UpperLower,
    CaseRange.mk 0x01DD 0x01DD (-79),
    CaseRange.mk 0x01DE 0x01EF UpperLower,
    CaseRange.mk 0x01F2 0x01F2 (-1),
    CaseRange.mk 0x01F3 0x01F3 (-2),
    CaseRange.mk 0x01F5 0x01F5 (-1),
    CaseRange.mk 0x01F8 0x021F UpperLower,
    CaseRange.mk 0x0222 0x0233 UpperLower,
    CaseRange.mk 0x023C 0x023C (-1),
    CaseRange.mk 0x023F 0x0240 10815,
    CaseRange.mk 0x0242 0x0242 (-1),
    CaseRange.mk 0x0246 0x024F UpperLower,
    CaseRange.mk 0x0250 0x0250 10783,
    CaseRange.mk 0x0251 0x0251 10780,
    CaseRange.mk 0x0252 0x0252 10782,
    CaseRange.mk 0x0253 0x0253 (-210),
    CaseRange.mk 0x0254 0x0254 (-206),
    CaseRange.mk 0x0256 0x0257 (-205),
    CaseRange.mk 0x0259 0x0259 (-202),
    CaseRange.mk 0x025B 0x025B (-203),
    CaseRange.mk 0x025C 0x025C 42319,
    CaseRange.mk 0x0260 0x0260 (-205),
    CaseRange.mk 0x0261 0x0261 42315,
    CaseRange.mk 0x0263 0x0263 (-207),
    CaseRange.mk 0x0265 0x0265 42280,
    CaseRange.mk 0x0266 0x0266 42308,
    CaseRange.mk 0x0268 0x0268 (-209),
    CaseRange.mk 0x0269 0x0269 (-211),
    CaseRange.mk 0x026A 0x026A 42308,
    CaseRange.mk 0x026B 0x026B 10743,
    CaseRange.mk 0x026C 0x026C 42305,
    CaseRange.mk 0x026F 0x026F (-211),
    CaseRange.mk 0x0271 0x0271 10749,
    CaseRange.mk 0x0272 0x0272 (-213),
    CaseRange.mk 0x0275 0x0275 (-214),
    CaseRange.mk 0x027D 0x027D 10727,
    CaseRange.mk 0x0280 0x0280 (-218),
    CaseRange.mk 0x0282 0x0282 42307,
    CaseRange.mk 0x0283 0x0283 (-218),
    CaseRange.mk 0x0287 0x0287 42282,
    CaseRange.mk 0x0288 0x0288 (-218),
    CaseRange.mk 0x0289 0x0289 (-69),
    CaseRange.mk 0x028A 0x028B (-217),
    CaseRange.mk 0x028C 0x028C (-71),
    CaseRange.mk 0x0292 0x0292 (-219),
    CaseRange.mk 0x029D 0x029D 42261,
    CaseRange.mk 0x029E 0x029E 42258,
    CaseRange.mk 0x0345 0x0345 84,
    CaseRange.mk 0x0370 0x0373 UpperLower,
    CaseRange.mk 0x0377 0x0377 (-1),
    CaseRange.mk 0x037B 0x037D 130,
    CaseRange.mk 0x03AC 0x03AC (-38),
    CaseRange.mk 0x03AD 0x03AF (-37),
    CaseRange.mk 0x03B1 0x03C1 (-32),
    CaseRange.mk 0x03C2 0x03C2 (-31),
    CaseRange.mk 0x03C3 0x03CB (-32),
    CaseRange.mk 0x03CC 0x03CC (-64),
    CaseRange.mk 0x03CD 0x03CE (-63),
    CaseRange.mk 0x03D0 0x03D0 (-62),
    CaseRange.mk 0x03D1 0x03D1 (-57),
    CaseRange.mk 0x03D5 0x03D5 (-47),
    CaseRange.mk 0x03D6 0x03D6 (-54),
    CaseRange.mk 0x03D7 0x03D7 (-8),
    CaseRange.mk 0x03D8 0x03EF UpperLower,
    CaseRange.mk 0x03F0 0x03F0 (-86),
    CaseRange.mk 0x03F1 0x03F1 (-80),
    CaseRange.mk 0x03F2 0x03F2 7,
    CaseRange.mk 0x03F3 0x03F3 (-116),
    CaseRange.mk 0x03F5 0x03F5 (-96),
    CaseRange.mk 0x03F8 0x03F8 (-1),
    CaseRange.mk 0x03FB 0x03FB (-1),
    CaseRange.mk 0x0430 0x044F (-32),
    CaseRange.mk 0x0450 0x045F (-80),
    CaseRange.mk 0x0460 0x0481 UpperLower,
    CaseRange.mk 0x048A 0x04BF UpperLower,
    CaseRange.mk 0x04C1 0x04CE UpperLower,
    CaseRange.mk 0x04CF 0x04CF (-15),
    CaseRange.mk 0x04D0 0x052F UpperLower,
    CaseRange.mk 0x0561 0x0586 (-48),
    CaseRange.mk 0x10D0 0x10FA 3008,
    CaseRange.mk 0x10FD 0x10FF 3008,
    CaseRange.mk 0x13F8 0x13FD (-8),
    CaseRange.mk 0x1C80 0x1C80 (-6254),
    CaseRange.mk 0x1C81 0x1C81 (-6253),
    CaseRange.mk 0x1C82 0x1C82 (-6244),
    CaseRange.mk 0x1C83 0x1C84 (-6242),
    CaseRange.mk 0x1C85 0x1C85 (-6243),
    CaseRange.mk 0x1C86 0x1C86 (-6236),
    CaseRange.mk 0x1C87 0x1C87 (-6181),
    CaseRange.mk 0x1C88 0x1C88 35266,
    CaseRange.mk 0x1D79 0x1D79 35332,
    CaseRange.mk 0x1D7D 0x1D7D 3814,
    CaseRange.mk 0x1D8E 0x1D8E 35384,
    CaseRange.mk 0x1E00 0x1E95 UpperLower,
    CaseRange.mk 0x1E9B 0x1E9B (-59),
    CaseRange.mk 0x1EA0 0x1EFF UpperLower,
    CaseRange.mk 0x1F00 0x1F07 8,
    CaseRange.mk 0x1F10 0x1F15 8,
    CaseRange.mk 0x1F20 0x1F27 8,
    CaseRange.mk 0x1F30 0x1F37 8,
    CaseRange.mk 0x1F40 0x1F45 8,
    CaseRange.mk 0x1F51 0x1F51 8,
    CaseRange.mk 0x1F53 0x1F53 8,
    CaseRange.mk 0x1F55 0x1F55 8,
    CaseRange.mk 0x1F57 0x1F57 8,
    CaseRange.mk 0x1F60 0x1F67 8,
    CaseRange.mk 0x1F70 0x1F71 74,
    CaseRange.mk 0x1F72 0x1F75 86,
    CaseRange.mk 0x1F76 0x1F77 100,
    CaseRange.mk 0x1F78 0x1F79 128,
    CaseRange.mk 0x1F7A 0x1F7B 112,
    CaseRange.mk 0x1F7C 0x1F7D 126,
    CaseRange.mk 0x1F80 0x1F87 8,
    CaseRange.mk 0x1F90 0x1F97 8,
    CaseRange.mk 0x1FA0 0x1FA7 8,
    CaseRange.mk 0x1FB0 0x1FB1 8,
    CaseRange.mk 0x1FB3 0x1FB3 9,
    CaseRange.mk 0x1FBE 0x1FBE (-7205),
    CaseRange.mk 0x1FC3 0x1FC3 9,
    CaseRange.mk 0x1FD0 0x1FD1 8,
    CaseRange.mk 0x1FE0 0x1FE1 8,
    CaseRange.mk 0x1FE5 0x1FE5 7,
    CaseRange.mk 0x1FF3 0x1FF3 9,
    CaseRange.mk 0x214E 0x214E (-28),
    CaseRange.mk 0x2170 0x217F (-16),
    CaseRange.mk 0x2184 0x2184 (-1),
    CaseRange.mk 0x24D0 0x24E9 (-26),
    CaseRange.mk 0x2C30 0x2C5F (-48),
    CaseRange.mk 0x2C61 0x2C61 (-1),
    CaseRange.mk 0x2C65 0x2C65 (-10795),
    CaseRange.mk 0x2C66 0x2C66 (-10792),
    CaseRange.mk 0x2C67 0x2C6C UpperLower,
    CaseRange.mk 0x2C73 0x2C73 (-1),
    CaseRange.mk 0x2C76 0x2C76 (-1),
    CaseRange.mk 0x2C80 0x2CE3 UpperLower,
    CaseRange.mk 0x2CEB 0x2CEE UpperLower,
    CaseRange.mk 0x2CF3 0x2CF3 (-1),
    CaseRange.mk 0x2D00 0x2D25 (-7264),
    CaseRange.mk 0x2D27 0x2D27 (-7264),
    CaseRange.mk 0x2D2D 0x2D2D (-7264),
    CaseRange.mk 0xA640 0xA66D UpperLower,
    CaseRange.mk 0xA680 0xA69B UpperLower,
    CaseRange.mk 0xA722 0xA72F UpperLower,
    CaseRange.mk 0xA732 0xA76F UpperLower,
    CaseRange.mk 0xA779 0xA77C UpperLower,
    CaseRange.mk 0xA77E 0xA787 UpperLower,
    CaseRange.mk 0xA78C 0xA78C (-1),
    CaseRange.mk 0xA790 0xA793 UpperLower,
    CaseRange.mk 0xA794 0xA794 48,
    CaseRange.mk 0xA796 0xA7A9 UpperLower,
    CaseRange.mk 0xA7B4 0xA7C3 UpperLower,
    CaseRange.mk 0xA7C7 0xA7CA UpperLower,
    CaseRange.mk 0xA7D1 0xA7D1 (-1),
    CaseRange.mk 0xA7D6 0xA7D9 UpperLower,
    CaseRange.mk 0xA7F6 0xA7F6 (-1),
    CaseRange.mk 0xAB53 0xAB53 (-928),
    CaseRange.mk 0xAB70 0xABBF (-38864),
    CaseRange.mk 0xFF41 0xFF5A (-32),
    CaseRange.mk 0x10428 0x1044F (-40),
    CaseRange.mk 0x104D8 0x104FB (-40),
    CaseRange.mk 0x10597 0x105A1 (-39),
    CaseRange.mk 0x105A3 0x105B1 (-39),
    CaseRange.mk 0x105B3 0x105B9 (-39),
    CaseRange.mk 0x105BB 0x105BC (-39),
    CaseRange.mk 0x10CC0 0x10CF2 (-64),
    CaseRange.mk 0x118C0 0x118DF (-32),
    CaseRange.mk 0x16E60 0x16E7F (-32),
    CaseRange.mk 0x1E922 0x1E943 (-34)
  ]

/-- Go `unicode.To(UpperCase, r)`, with its helper `to` unfolded, over the table
`caseRange`: the range that holds the code point decides.
In an `UpperLower` range the letters at even offsets are upper case, so the low bit of the
offset is cleared; otherwise the delta is added.  The ranges being disjoint, the first
range that holds `r` is the one the binary search of the library finds. -/
def To (r : Nat) (caseRange : List CaseRange) : Nat :=
  match caseRange.find? (fun cr => decide (cr.Lo ≤ r) && decide (r ≤ cr.Hi)) with
  | some cr =>
    if cr.Delta > MaxRune then cr.Lo + (r - cr.Lo) / 2 * 2
    else ((r : Int) + cr.Delta).toNat
  | none => r

/-- Go `unicode.ToUpper`: the ASCII letters `a`..`z` are moved by `'a' - 'A'`, the other
ASCII runes are kept, and a rune above ASCII is mapped through `CaseRanges`. -/
def ToUpper (r : Char) : Char :=
  if r.toNat ≤ 0x7F then
    if 97 ≤ r.toNat ∧ r.toNat ≤ 122 then Char.ofNat (r.toNat - 32) else r
  else Char.ofNat (To r.toNat CaseRanges)

end unicode

namespace strings

/-- Go `strings.HasSuffix(s, suffix)`. -/
def HasSuffix (s suffix : String) : Bool :=
  suffix.data.isSuffixOf s.data

/-- Go `strings.HasPrefix(s, prefix)`. -/
def HasPrefix (s pre : String) : Bool :=
  pre.data.isPrefixOf s.data

/-- Go `strings.ToUpper(s)`: every rune is mapped through `unicode.ToUpper` (the loop the
library runs first, for a text that is all ASCII, computes the same text). -/
def ToUpper (s : String) : String :=
  ⟨s.data.map unicode.ToUpper⟩

/-- The scanning loop of `strings.ReplaceAll` for a non-empty `old`: the text is read left
to right, each occurrence of `old` is replaced by `new` and the scan resumes after it.
`skip` counts the characters of the current occurrence still to be passed over. -/
def replaceLoop (old new : List Char) : List Char → Nat → List Char
  | [], _ => []
  | _ :: cs, skip + 1 => replaceLoop old new cs skip
  | c :: cs, 0 =>
    if old.isPrefixOf (c :: cs) then new ++ replaceLoop old new cs (old.length - 1)
    else c :: replaceLoop old new cs 0

/-- Go `strings.ReplaceAll(s, old, new)`.  For an empty `old` Go inserts `new` before every
rune and at the end of the text. -/
def ReplaceAll (s old new : String) : String :=
  if old.data = [] then
    ⟨(s.data.flatMap fun c => new.data ++ [c]) ++ new.data⟩
  else
    ⟨replaceLoop old.data new.data s.data 0⟩

/-- Go slice expression `s[:len(s)-1]` on a non-empty string whose last byte is ASCII. -/
def dropLastByte (s : String) : String :=
  ⟨s.data.dropLast⟩

/-- Go slice expression `s[len(s)-1:]` on a non-empty string whose last byte is ASCII. -/
def lastByte (s : String) : String :=
  ⟨s.data.drop (s.data.length - 1)⟩

/-- Go `unicode.IsSpace`: the runes with the Unicode property White_Space. -/
def isSpace (c : Char) : Bool :=
  (0x09 ≤ c.toNat && c.toNat ≤ 0x0D) || c.toNat = 0x20 || c.toNat = 0x85 ||
    c.toNat = 0xA0 || c.toNat = 0x1680 || (0x2000 ≤ c.toNat && c.toNat ≤ 0x200A) ||
    c.toNat = 0x2028 || c.toNat = 0x2029 || c.toNat = 0x202F || c.toNat = 0x205F ||
    c.toNat = 0x3000

/-- Go `strings.TrimSpace(s)`: the text without its leading and trailing white space. -/
def TrimSpace (s : String) : String :=
  ⟨((s.data.dropWhile isSpace).reverse.dropWhile isSpace).reverse⟩

/-- Go `strings.Contains(s, substr)`: `substr` starts at some position of `s`. -/
def Contains (s substr : String) : Bool :=
  s.data.tails.any (fun t => substr.data.isPrefixOf t)

/-- The loop of `strings.Split` for a non-empty `sep`: the text is read left to right,
`cur` holds (in reverse) the piece being collected, each occurrence of `sep` closes the
piece and the scan resumes after it.  `skip` counts the characters of the current
occurrence still to be passed over. -/
def splitLoop (sep : List Char) : List Char → List Char → Nat → List (List Char)
  | [], cur, _ => [cur.reverse]
  | _ :: cs, cur, skip + 1 => splitLoop sep cs cur skip
  | c :: cs, cur, 0 =>
    if sep.isPrefixOf (c :: cs) then cur.reverse :: splitLoop sep cs [] (sep.length - 1)
    else splitLoop sep cs (c :: cur) 0

/-- Go `strings.Split(s, sep)`.  For an empty `sep` Go returns the runes of `s`, one piece
each. -/
def Split (s sep : String) : List String :=
  if sep.data = [] then s.data.map (fun c => ⟨[c]⟩)
  else (splitLoop sep.data s.data [] 0).map String.mk

/-- Go `strings.Join(elems, sep)`. -/
def Join (elems : List String) (sep : String) : String :=
  match elems with
  | [] => ""
  | e :: es => es.foldl (fun b s => b ++ sep ++ s) e

end strings

namespace strconv

/-- The two error causes of `strconv.NumError`: `ErrSyntax` and `ErrRange`. -/
inductive NumError where
  | errSyntax
  | errRange
  deriving DecidableEq, Repr

deriving instance DecidableEq for Except

/-- Largest `uint64`. -/
def maxUint64 : Nat := 2 ^ 64 - 1

/-- The value of a decimal digit, `c - '0'` when `'0' <= c && c <= '9'`. -/
def digitVal (c : Char) : Option Nat :=
  if 48 ≤ c.toNat ∧ c.toNat ≤ 57 then some (c.toNat - 48) else none

/-- The digit loop of `strconv.ParseUint(s, 10, 64)`: a character that is not a decimal
digit is a syntax error (a letter has a digit value of at least ten, which is rejected for
base ten); an accumulator that cannot take another digit is a range error. -/
def parseUintLoop : List Char → Nat → Except NumError Nat
  | [], n => .ok n
  | c :: cs, n =>
    match digitVal c with
    | none => .error .errSyntax
    | some d =>
      if n ≥ maxUint64 / 10 + 1 then .error .errRange
      else if n * 10 + d > maxUint64 then .error .errRange
      else parseUintLoop cs (n * 10 + d)

/-- Go `strconv.ParseUint(s, 10, 64)`. -/
def ParseUint (s : List Char) : Except NumError Nat :=
  if s = [] then .error .errSyntax else parseUintLoop s 0

/-- The range check and sign application that end `strconv.ParseInt`. -/
def applySign (neg : Bool) (r : Except NumError Nat) : Except NumError Int :=
  match r with
  | .error .errSyntax => .error .errSyntax
  | .error .errRange => .error .errRange
  | .ok un =>
    if !neg && un ≥ 2 ^ 63 then .error .errRange
    else if neg && un > 2 ^ 63 then .error .errRange
    else .ok (if neg then -(un : Int) else (un : Int))

/-- Go `strconv.ParseInt(s, 10, 64)`: an optional sign, then `ParseUint`, then the signed
range check. -/
def ParseInt (s : String) : Except NumError Int :=
  match s.data with
  | [] => .error .errSyntax
  | c :: cs =>
    if c = '+' then applySign false (ParseUint cs)
    else if c = '-' then applySign true (ParseUint cs)
    else applySign false (ParseUint (c :: cs))

/-- Go `strconv.Atoi(s)` with a 64-bit `int`: the fast path for short inputs and the
fallback `ParseInt(s, 10, 0)` compute the same value and fail on the same inputs. -/
def Atoi (s : String) : Except NumError Int :=
  ParseInt s

/-- The digit loop of `strconv.FormatUint(n, 10)`: digits are produced from the least
significant one and pushed in front of the text built so far. -/
def formatBits : Nat → Nat → List Char → List Char
  | 0, _, acc => acc
  | fuel + 1, n, acc =>
    if n < 10 then Nat.digitChar n :: acc
    else formatBits fuel (n / 10) (Nat.digitChar (n % 10) :: acc)

/-- Decimal digits of a natural number, most significant first (`"0"` for zero).  The loop
runs once per digit, so `n + 1` rounds are always enough. -/
def formatUint (n : Nat) : List Char :=
  formatBits (n + 1) n []

/-- Go `strconv.FormatInt(i, 10)`, also the rendering of the verb `%d`. -/
def FormatInt (i : Int) : String :=
  if i < 0 then ⟨'-' :: formatUint i.natAbs⟩ else ⟨formatUint i.natAbs⟩

end strconv

/-- Two's-complement reduction of an integer into the `int64` range: the value Go keeps
after an `int64` operation overflows. -/
def wrapInt64 (x : Int) : Int :=
  (x + 2 ^ 63) % 2 ^ 64 - 2 ^ 63

/-! ## `mysql_config.go`: value normalization -/

/-- The table `sizes` of `normalizeDataSize`. -/
def sizes (suffix : String) : Option Int :=
  if suffix = "K" then some 1024
  else if suffix = "M" then some (1024 * 1024)
  else if suffix = "G" then some (1024 * 1024 * 1024)
  else if suffix = "T" then some (1024 * 1024 * 1024 * 1024)
  else none

/-- The error values `normalizeDataSize` can return. -/
inductive DataSizeError where
  | parse (e : strconv.NumError)
  | invalidSuffix
  | sliceOutOfRange
  deriving DecidableEq, Repr

/-- Go `normalizeDataSize`: split off the last byte, parse the rest as an `int64`, and
multiply (in `int64`, wrapping) by the multiplier of the upper-cased suffix.  On the empty
string the slice expression `value[:len(value)-1]` panics; `normalize` never passes it. -/
def normalizeDataSize (value : String) : Except DataSizeError String :=
  if value.data = [] then .error .sliceOutOfRange
  else
    let magnitudeStr := strings.dropLastByte value
    let suffix := strings.lastByte value
    match strconv.ParseInt magnitudeStr with
    | .error e => .error (.parse e)
    | .ok magnitude =>
      let suffix := strings.ToUpper suffix
      match sizes suffix with
      | some multiplier =>
        let bytesValue := wrapInt64 (magnitude * multiplier)
        .ok (strconv.FormatInt bytesValue)
      | none => .error .invalidSuffix

/-- The body of the `for _, suffix := range sizeSuffixes` loop of `normalize`; the list
argument is the part of `sizeSuffixes` still to be visited. -/
def normalizeLoop (value : String) : List String → String
  | [] => value
  | suffix :: rest =>
    if strings.HasSuffix value suffix then
      match normalizeDataSize value with
      | .error _ => value
      | .ok newValue => newValue
    else normalizeLoop value rest

/-- Go `normalize`. -/
def normalize (value : String) : String :=
  if value = "" then value
  else normalizeLoop value ["K", "M", "G", "T"]

/-! ## Values and maps -/

/-- The dynamic types the program stores behind Go's `any`: the maps built from the
configuration file and from `SHOW VARIABLES` hold strings, the watch map built from the
command line holds `true`. -/
inductive GoAny where
  | str (s : String)
  | bool (b : Bool)
  deriving DecidableEq, Repr

/-- Go `map[string]V`. -/
abbrev GoMap (V : Type) := AList (fun _ : String => V)

/-- The map holding the given entries, written in the order of the assignments
`m[k] = v` that build it. -/
def GoMap.ofList {V : Type} (l : List (String × V)) : GoMap V :=
  l.foldl (fun m kv => m.insert kv.1 kv.2) ∅

/-- Rendering of the verb `%s` applied to an `any`. -/
def fmtS : GoAny → String
  | .str s => s
  | .bool b => "%!s(bool=" ++ (if b then "true" else "false") ++ ")"

/-- Rendering of the verb `%T` applied to an `any`. -/
def fmtT : GoAny → String
  | .str _ => "string"
  | .bool _ => "bool"

/-! ## `mysql_version.go` and `mysql_config.go`: versions and section selection -/

/-- Go `MySQLVersion`. -/
structure MySQLVersion where
  Major : Int
  Minor : Int
  Patch : Int
  deriving DecidableEq, Repr

/-- The errors of `ParseVersion`, one per `fmt.Errorf` call: `"invalid version format"`,
and `"invalid major version: %w"`, `"invalid minor version: %w"`,
`"invalid patch version: %w"` wrapping the error of `strconv.Atoi`. -/
inductive VersionError where
  | invalidFormat
  | invalidMajor (cause : strconv.NumError)
  | invalidMinor (cause : strconv.NumError)
  | invalidPatch (cause : strconv.NumError)
  deriving DecidableEq, Repr

/-- Go `ParseVersion`.  (`strings.Split` with a non-empty separator never returns an empty
slice, so the index expression `[0]` is always defined.) -/
def ParseVersion (version : String) : Except VersionError MySQLVersion :=
  let version :=
    if strings.Contains version "-" then (strings.Split version "-").headD "" else version
  let parts := strings.Split version "."
  match parts with
  | [part0, part1, part2] =>
    match strconv.Atoi part0 with
    | .error err => .error (.invalidMajor err)
    | .ok major =>
      match strconv.Atoi part1 with
      | .error err => .error (.invalidMinor err)
      | .ok minor =>
        match strconv.Atoi part2 with
        | .error err => .error (.invalidPatch err)
        | .ok patch => .ok { Major := major, Minor := minor, Patch := patch }
  | _ => .error .invalidFormat

/-- Go `MySQLConfig`.  The field `cfg` stands for the parsed `*ini.File`, of which the
program only reads `c.cfg.Section(title).KeysHash()`: `cfg title` is that key/value hash. -/
structure MySQLConfig where
  sectionTitles : List String
  cfg : String → GoMap String

/-- Go `fmt.Sprintf("mysqld-%d.%d", major, minor)`. -/
def versionTitle (major minor : Int) : String :=
  "mysqld-" ++ strconv.FormatInt major ++ "." ++ strconv.FormatInt minor

/-- Go `isOptionBlockMatch`. -/
def isOptionBlockMatch (version : MySQLVersion) (sectionTitle : String) : Bool :=
  if sectionTitle = "mysqld" then true
  else if sectionTitle = versionTitle version.Major version.Minor then true
  else false

/-- The inner loop of `ComposeForVersion`:
`for key, value := range settings { allSettings[key] = normalize(value) }`. -/
def composeSection (allSettings : GoMap GoAny) (settings : GoMap String) : GoMap GoAny :=
  settings.entries.foldl (fun acc kv => acc.insert kv.1 (GoAny.str (normalize kv.2)))
    allSettings

/-- Go `(*MySQLConfig).ComposeForVersion`. -/
def ComposeForVersion (c : MySQLConfig) (version : MySQLVersion) : GoMap GoAny :=
  c.sectionTitles.foldl
    (fun allSettings sectionTitle =>
      if !isOptionBlockMatch version sectionTitle then allSettings
      else composeSection allSettings (c.cfg sectionTitle))
    ∅

/-- The body of the loop of `clean`: `newLines` after the line has been looked at. -/
def cleanStep (newLines : List String) (line : String) : List String :=
  let isSection := strings.HasPrefix line "[" && strings.HasSuffix line "]"
  let isEmpty := strings.TrimSpace line = ""
  let hasEquals := strings.Contains line "="
  let isIncludeDirective := strings.HasPrefix line "!include"
  if !isSection && !isEmpty && !hasEquals then newLines
  else if isIncludeDirective then newLines
  else newLines ++ [line]

/-- Go `clean` (the conversions between `[]byte` and `string` are the identity here). -/
def clean (configContents : String) : String :=
  let lines := strings.Split configContents "\n"
  let newLines := lines.foldl cleanStep []
  strings.Join newLines "\n"

/-! ## `mysql_conn.go`: key canonicalization and the setting writer -/

/-- Go `GetVariableKeyFrom`. -/
def GetVariableKeyFrom (optionName : String) : String :=
  let normalizedKey := strings.ToUpper optionName
  let normalizedKey := strings.ReplaceAll normalizedKey "-" "_"
  normalizedKey

/-- The character class `[a-zA-Z0-9_-]`. -/
def isKeyChar (c : Char) : Bool :=
  (97 ≤ c.toNat && c.toNat ≤ 122) || (65 ≤ c.toNat && c.toNat ≤ 90) ||
    (48 ≤ c.toNat && c.toNat ≤ 57) || c = '_' || c = '-'

/-- Go `keyValidator.MatchString(key)` for the pattern `^[a-zA-Z0-9_-]+$`: the whole text
is a non-empty run of characters of the class (in Go's syntax `$` only matches at the very
end of the text). -/
def keyValidator (key : String) : Bool :=
  !key.data.isEmpty && key.data.all isKeyChar

/-- The argument bound to the placeholder of a statement. -/
inductive SqlArg where
  | int (n : Int)
  | str (s : String)
  deriving DecidableEq, Repr

/-- One call of `applySetting`, as an observer of the program sees it: the two arguments
and the returned error (`none` for `nil`). -/
structure ApplyCall where
  key : String
  value : GoAny
  err : Option String
  deriving DecidableEq, Repr

/-- Go `dbConn`, seen from the program: `executed` records the statements passed to
`db.conn.Exec` so far (oldest first), and `answer` is the server's reply to the next one,
given that history: `none` for success, `some msg` for an error.  The field `applied` is
not program state: it is the trace of the calls of `applySetting` made on the connection so
far (oldest first), kept so that properties can speak about them. -/
structure dbConn where
  answer : List (String × SqlArg) → String → SqlArg → Option String
  executed : List (String × SqlArg)
  applied : List ApplyCall

/-- Go `db.conn.Exec(query, arg)`. -/
def dbConn.Exec (db : dbConn) (query : String) (arg : SqlArg) : dbConn × Option String :=
  ({ db with executed := db.executed ++ [(query, arg)] }, db.answer db.executed query arg)

/-- The body of Go `(*dbConn).applySetting`: the connection afterwards and the returned
error (`none` for `nil`). -/
def applySettingBody (db : dbConn) (key : String) (value : GoAny) :
    dbConn × Option String :=
  if !keyValidator key then (db, some ("invalid key: " ++ key))
  else
    match value with
    | .str valueStr =>
      match strconv.Atoi valueStr with
      | .ok valueInt => db.Exec ("SET GLOBAL " ++ key ++ " = ?") (.int valueInt)
      | .error _ => db.Exec ("SET GLOBAL " ++ key ++ " = ?") (.str valueStr)
    | other => (db, some ("invalid value type: " ++ fmtT other))

/-- Go `(*dbConn).applySetting`: the body, after which the call and its result are added to
the trace `applied`. -/
def applySetting (db : dbConn) (key : String) (value : GoAny) : dbConn × Option String :=
  let result := applySettingBody db key value
  ({ result.1 with applied := result.1.applied ++ [⟨key, value, result.2⟩] }, result.2)

/-! ## `main.go`: the diff engine -/

/-- One `fmt.Fprintf` call of `mysqlConfDiff`, with its arguments. -/
inductive Output where
  | notFound (key : String)
  | differenceFound (key : String)
  | myCnf (optionValue : GoAny)
  | mysqld (serverValue : String)
  | failedToSet (err : String)
  | setVariable (key : String) (optionValue : GoAny)
  deriving DecidableEq, Repr

/-- Whether the call writes to `stderr` (otherwise to `stdout`). -/
def Output.toStderr : Output → Bool
  | .notFound _ => true
  | .failedToSet _ => true
  | _ => false

/-- The text the call writes. -/
def Output.text : Output → String
  | .notFound key =>
    "Warning: option '" ++ key ++ "' in configuration file was not found in server variables\n"
  | .differenceFound key => "Difference found for: " ++ key ++ "\n"
  | .myCnf optionValue => "  my.cnf:    " ++ fmtS optionValue ++ "\n"
  | .mysqld serverValue => "  mysqld:    " ++ serverValue ++ "\n"
  | .failedToSet err => "Warning: Failed to SET variable: " ++ err ++ "\n"
  | .setVariable key optionValue => "Set variable:\n  " ++ key ++ " = " ++ fmtS optionValue ++ "\n"

/-- The state `mysqlConfDiff` acts on: the connection and the writes made so far to
`stdout` and `stderr`, in program order. -/
structure World where
  db : dbConn
  out : List Output

/-- Go `serverVariables[key].(string)`: the value and whether the key holds a string. -/
def lookupString (serverVariables : GoMap GoAny) (key : String) : String × Bool :=
  match serverVariables.lookup key with
  | some (.str s) => (s, true)
  | _ => ("", false)

/-- One round of the loop of `mysqlConfDiff`, for the entry `key`, `optionValue`. -/
def diffStep (serverVariables : GoMap GoAny) (applyTheChanges : Bool) (w : World)
    (key : String) (optionValue : GoAny) : World :=
  let (serverValue, keyExists) := lookupString serverVariables key
  if !keyExists then { w with out := w.out ++ [Output.notFound key] }
  else if GoAny.str serverValue = optionValue then w
  else if serverValue = "ON" ∧ optionValue = GoAny.str "1" then w
  else if serverValue = "OFF" ∧ optionValue = GoAny.str "0" then w
  else if strings.HasSuffix serverValue "/" ∧
      GoAny.str (strings.dropLastByte serverValue) = optionValue then w
  else
    let w := { w with out := w.out ++
      [Output.differenceFound key, Output.myCnf optionValue, Output.mysqld serverValue] }
    if applyTheChanges then
      let (db, err) := applySetting w.db key optionValue
      let w := { w with db := db }
      let w := match err with
        | some e => { w with out := w.out ++ [Output.failedToSet e] }
        | none => w
      { w with out := w.out ++ [Output.setVariable key optionValue] }
    else w

/-- Go `mysqlConfDiff`. -/
def mysqlConfDiff (db : dbConn) (confOptions serverVariables : GoMap GoAny)
    (applyTheChanges : Bool) : World :=
  confOptions.entries.foldl
    (fun w kv => diffStep serverVariables applyTheChanges w kv.1 kv.2)
    { db := db, out := [] }

/-- Go `normalizeKeys`. -/
def normalizeKeys (input : GoMap GoAny) : GoMap GoAny :=
  input.entries.foldl (fun result kv => result.insert (GetVariableKeyFrom kv.1) kv.2) ∅

/-- Go `limitToWatchedOptions`. -/
def limitToWatchedOptions (fullOptions watchedOptions : GoMap GoAny) : GoMap GoAny :=
  let fullOptions := normalizeKeys fullOptions
  let watchedOptions := normalizeKeys watchedOptions
  fullOptions.entries.foldl
    (fun limitedOptions kv =>
      if (watchedOptions.lookup kv.1).isSome then limitedOptions.insert kv.1 kv.2
      else limitedOptions)
    ∅

/-- A connection on which every statement succeeds. -/
def okConn : dbConn := { answer := fun _ _ _ => none, executed := [], applied := [] }

/-! ## `cli_config.go`: the command line -/

/-- Go `RunContext`. -/
structure RunContext where
  configPath : String
  serverAndPort : String
  optionKeysToWatch : GoMap GoAny
  applyTheChanges : Bool

/-- What `c.flagset.Parse(args)` of the pflag library leaves behind: the error it returns
(`none` for `nil`), the three flag variables of `InputContext` and `c.flagset.Args()`.
The library is not part of the sources, so the flag parser is a parameter of `parseArgs`
and of the driver. -/
structure FlagParse where
  err : Option String
  optionsToWatchFlag : List String
  executeFlag : Bool
  helpFlag : Bool
  positionals : List String

/-- The errors `parseArgs` returns: the error of the flag parser, `errHelpFlagIsSet`, and
its two `fmt.Errorf` values. -/
inductive CliError where
  | flagError (msg : String)
  | helpFlagIsSet
  | positionalCount
  | watchOptionsRequired
  deriving DecidableEq, Repr

/-- Go `err.Error()` for the errors of `parseArgs`. -/
def CliError.message : CliError → String
  | .flagError msg => msg
  | .helpFlagIsSet => "help flag is set"
  | .positionalCount => "invalid number of positional arguments"
  | .watchOptionsRequired => "--watch-options required when running --apply-changes"

/-- Go `(*InputContext).parseArgs`. -/
def parseArgs (flagsetParse : List String → FlagParse) (args : List String) :
    Except CliError RunContext :=
  let c := flagsetParse args
  match c.err with
  | some err => .error (.flagError err)
  | none =>
    if c.helpFlag then .error .helpFlagIsSet
    else if c.positionals.length ≠ 2 then .error .positionalCount
    else if c.executeFlag && c.optionsToWatchFlag.length == 0 then
      .error .watchOptionsRequired
    else
      let optionsToWatch := c.optionsToWatchFlag.foldl
        (fun optionsToWatch option => optionsToWatch.insert option (GoAny.bool true)) ∅
      .ok { configPath := c.positionals.getD 0 "",
            serverAndPort := c.positionals.getD 1 "",
            optionKeysToWatch := optionsToWatch,
            applyTheChanges := c.executeFlag }

/-- One round of `flagsetExample`: the state is the flag variables so far. -/
def flagsetExampleStep (c : FlagParse) (arg : String) : FlagParse :=
  if c.err.isSome then c
  else if arg = "--apply-changes" then { c with executeFlag := true }
  else if arg = "--help" ∨ arg = "-h" then { c with helpFlag := true }
  else if strings.HasPrefix arg "--watch-options=" then
    { c with optionsToWatchFlag := c.optionsToWatchFlag ++
        strings.Split ⟨arg.data.drop 16⟩ "," }
  else if strings.HasPrefix arg "-" then { c with err := some ("unknown flag: " ++ arg) }
  else { c with positionals := c.positionals ++ [arg] }

/-- A flag parser for the argument forms the test-suite uses: the bare flags
`--apply-changes`, `--help` and `-h`, `--watch-options=a,b` with a non-empty
comma-separated value, and positional arguments; any other argument starting with `-` is
reported as an error.  It is one possible value of the parameter `flagsetParse`. -/
def flagsetExample (args : List String) : FlagParse :=
  args.foldl flagsetExampleStep
    { err := none, optionsToWatchFlag := [], executeFlag := false, helpFlag := false,
      positionals := [] }

/-! ## `mysql_config.go`: loading the file -/

/-- The argument of `NewMySQLConfig`, of Go type `any`: the file contents (`[]byte`), the
path of the file (`string`), or a value of another type. -/
inductive ConfigSource where
  | bytes (contents : String)
  | path (name : String)
  | other
  deriving DecidableEq, Repr

/-- Go `readFile`; `osReadFile` stands for `os.ReadFile`. -/
def readFile (osReadFile : String → Except String String) (config : ConfigSource) :
    Except String String :=
  match config with
  | .bytes c => .ok c
  | .path c =>
    match osReadFile c with
    | .error err => .error err
    | .ok confContents => .ok confContents
  | .other => .error "unknown type given to NewMySQLConfig"

/-- Modelled from the spec: the parsed document of the ini library (`*ini.File` of
go-ini, which is not part of the sources).  The specification's `RawConfigDocument` is "an
ordered sequence of named sections, each section holding a mapping from option key to raw
string value": `sectionList` is what `SectionStrings()` returns and `sections title` what
`Section(title).KeysHash()` returns. -/
structure IniFile where
  sectionList : List String
  sections : String → GoMap String

/-- Modelled from the spec: "A line is a section header if it is bracket-delimited
(`[...]`) spanning the whole line." -/
def isHeaderLine (line : String) : Bool :=
  strings.HasPrefix line "[" && strings.HasSuffix line "]"

/-- Modelled from the spec: the name of a section header, the text between its
brackets. -/
def headerName (line : String) : String :=
  ⟨(line.data.drop 1).dropLast⟩

/-- Modelled from the spec: one line of the structural parser `ini.Load`, with the section
the line belongs to.  A header opens its section (a new name is added after the names seen
so far); a blank line and a comment line (starting with `#` or `;`) are passed over; a
line with `=` is a `key = value` pair of the current section; a header without a name, a
pair without a key and any other line are the "parse failures in the underlying structural
grammar" that "surface as a load error". -/
def iniLine (f : IniFile) (current : String) (line : String) :
    Except String (IniFile × String) :=
  if isHeaderLine line then
    if headerName line = "" then .error "empty section name"
    else if headerName line ∈ f.sectionList then .ok (f, headerName line)
    else .ok ({ f with sectionList := f.sectionList ++ [headerName line] }, headerName line)
  else if strings.TrimSpace line = "" then .ok (f, current)
  else if strings.HasPrefix (strings.TrimSpace line) "#" ||
      strings.HasPrefix (strings.TrimSpace line) ";" then .ok (f, current)
  else if strings.Contains line "=" then
    let key := strings.TrimSpace ⟨line.data.takeWhile (fun c => c ≠ '=')⟩
    let value := strings.TrimSpace ⟨(line.data.dropWhile (fun c => c ≠ '=')).drop 1⟩
    if key = "" then .error "empty key name"
    else
      .ok ({ f with sections := fun title =>
              if title = current then (f.sections title).insert key value
              else f.sections title }, current)
  else .error "key-value delimiter not found"

/-- Modelled from the spec: the lines of a text read in order by `iniLine`. -/
def iniLines : List String → IniFile → String → Except String IniFile
  | [], f, _ => .ok f
  | line :: rest, f, current =>
    match iniLine f current line with
    | .error err => .error err
    | .ok (f2, current2) => iniLines rest f2 current2

/-- Modelled from the spec: `ini.Load` of the go-ini library, which is not part of the
sources.  "Remaining lines are parsed as standard ini-style `key = value` pairs inside a
named section; sections are returned in document order including an implicit leading
default section for any pairs preceding the first header"; "one implicit default section
always exists even if the source text defines no explicit section header". -/
def iniLoad (text : String) : Except String IniFile :=
  iniLines (strings.Split text "\n") { sectionList := ["DEFAULT"], sections := fun _ => ∅ }
    "DEFAULT"

/-- Go `NewMySQLConfig`. -/
def NewMySQLConfig (osReadFile : String → Except String String) (config : ConfigSource) :
    Except String MySQLConfig :=
  match readFile osReadFile config with
  | .error err => .error err
  | .ok confContents =>
    let confContents := clean confContents
    match iniLoad confContents with
    | .error err => .error err
    | .ok cfg =>
      let sectionTitles := cfg.sectionList
      .ok { sectionTitles := sectionTitles, cfg := cfg.sections }

/-! ## `main.go`: the driver -/

/-- The collaborators of `runWithReturnCode` that lie outside the program: the flag parser,
the text of `cli.getHelpMessage()`, `getDB` (environment variables and `sql.Open`) and
`getOptionsFrom` (the two queries and the configuration file), each with the error text it
returns on failure. -/
structure DriverEnv where
  flagsetParse : List String → FlagParse
  helpMessage : String
  getDB : RunContext → Except String dbConn
  getOptionsFrom : String → dbConn → Except String (GoMap GoAny × GoMap GoAny)

/-- What a run of the driver leaves: the return code, the lines the driver itself writes to
`stderr`, and the state left by `mysqlConfDiff` when the run gets that far. -/
structure RunResult where
  code : Int
  stderr : List String
  world : Option World

/-- Go `runWithReturnCode` (the deferred `db.close()` is left out). -/
def runWithReturnCode (env : DriverEnv) (args : List String) : RunResult :=
  match parseArgs env.flagsetParse args with
  | .error err =>
    if err = .helpFlagIsSet then { code := 0, stderr := [env.helpMessage], world := none }
    else
      { code := 1, stderr := ["Failed to parse arguments: " ++ err.message ++ "\n"],
        world := none }
  | .ok context =>
    if context.applyTheChanges && context.optionKeysToWatch.entries.length == 0 then
      { code := 1,
        stderr := ["Fatal: --watch-options is required when using --apply-changes\n"],
        world := none }
    else
      match env.getDB context with
      | .error err => { code := 1, stderr := [err ++ "\n"], world := none }
      | .ok db =>
        match env.getOptionsFrom context.configPath db with
        | .error err => { code := 1, stderr := [err ++ "\n"], world := none }
        | .ok (confOptions, serverVariables) =>
          let confOptions :=
            if context.optionKeysToWatch.entries.length > 0 then
              limitToWatchedOptions confOptions context.optionKeysToWatch
            else limitToWatchedOptions confOptions serverVariables
          { code := 0, stderr := [],
            world := some (mysqlConfDiff db confOptions serverVariables
              context.applyTheChanges) }

/-! ## Definitions used to state the properties -/

/-- The text `k` upper-cased rune by rune (the upper case of a rune being its simple
upper-case mapping, `unicode.ToUpper`), with every `-` then replaced by `_`. -/
def canonicalForm (k : String) : String :=
  ⟨(k.data.map unicode.ToUpper).map (fun c => if c = '-' then '_' else c)⟩

/-- The value fits in Go's `int64`. -/
def fitsInt64 (x : Int) : Prop :=
  -2 ^ 63 ≤ x ∧ x < 2 ^ 63

instance (x : Int) : Decidable (fitsInt64 x) := by
  unfold fitsInt64
  exact inferInstance

/-- The value ends in none of the letters `K`, `M`, `G`, `T`. -/
def noSizeSuffix (value : String) : Prop :=
  strings.HasSuffix value "K" = false ∧ strings.HasSuffix value "M" = false ∧
    strings.HasSuffix value "G" = false ∧ strings.HasSuffix value "T" = false

instance (value : String) : Decidable (noSizeSuffix value) := by
  unfold noSizeSuffix
  exact inferInstance

/-- The recognized size suffixes with their multipliers, as the specification lists them:
`K`, `M`, `G`, `T` for `1024^1`, `1024^2`, `1024^3`, `1024^4`. -/
def sizeSuffixTable : List (String × Int) :=
  [("K", 1024 ^ 1), ("M", 1024 ^ 2), ("G", 1024 ^ 3), ("T", 1024 ^ 4)]

/-- The rune is one of the decimal digits `0`..`9`. -/
def isDigitRune (c : Char) : Bool :=
  48 ≤ c.toNat && c.toNat ≤ 57

/-- The text is a base-10 integer: an optional sign `+` or `-` followed by at least one
decimal digit and nothing else. -/
def isBase10Integer (s : String) : Bool :=
  match s.data with
  | [] => false
  | c :: cs =>
    if c = '+' ∨ c = '-' then !cs.isEmpty && cs.all isDigitRune
    else (c :: cs).all isDigitRune

/-- The equivalence of a file value `f` and a live value `l`, as the specification words
it: equal texts, `1` against `ON`, `0` against `OFF`, or the live value being the file
value followed by one path separator. -/
def valuesEquivalent (f l : String) : Prop :=
  f = l ∨ (f = "1" ∧ l = "ON") ∨ (f = "0" ∧ l = "OFF") ∨ l = f ++ "/"

instance (f l : String) : Decidable (valuesEquivalent f l) := by
  unfold valuesEquivalent
  exact inferInstance

/-- The three writes that make one drift report. -/
def driftReport (key f l : String) : List Output :=
  [Output.differenceFound key, Output.myCnf (GoAny.str f), Output.mysqld l]

/-- The parsed document holding the given sections, in document order, each with its
`key = value` lines; the titles are distinct and the implicit `DEFAULT` section is listed
like the others. -/
def MySQLConfig.ofSections (sections : List (String × List (String × String))) :
    MySQLConfig where
  sectionTitles := sections.map Prod.fst
  cfg := fun title =>
    match sections.lookup title with
    | some settings => GoMap.ofList settings
    | none => ∅

/-- The claim "a `mysqld-M.m` section overrides a `mysqld` section key of the same
canonical name", for one document and version: whenever both sections are present and
define keys `kb` and `ko` with the same canonical name, every entry of the effective map
for that canonical name holds the overlay's (normalized) value. -/
def overlayOverridesBase (c : MySQLConfig) (v : MySQLVersion) : Prop :=
  "mysqld" ∈ c.sectionTitles → versionTitle v.Major v.Minor ∈ c.sectionTitles →
    ∀ kb vb ko vo : String,
      (c.cfg "mysqld").lookup kb = some vb →
      (c.cfg (versionTitle v.Major v.Minor)).lookup ko = some vo →
      GetVariableKeyFrom kb = GetVariableKeyFrom ko →
      ∀ (k : String) (val : GoAny),
        (ComposeForVersion c v).lookup k = some val →
        GetVariableKeyFrom k = GetVariableKeyFrom ko →
        val = GoAny.str (normalize vo)

/-- The document of `TestComposeForVersion57`: `[mysqld]`, then the two overlays. -/
def docBaseFirst : MySQLConfig :=
  MySQLConfig.ofSections
    [("DEFAULT", []), ("mysqld", [("key1", "value1")]), ("mysqld-5.7", [("key1", "value57")]),
      ("mysqld-8.0", [("key1", "value80")])]

/-- The same sections with `[mysqld]` declared after the `5.7` overlay. -/
def docOverlayFirst : MySQLConfig :=
  MySQLConfig.ofSections
    [("DEFAULT", []), ("mysqld-5.7", [("key1", "value57")]), ("mysqld", [("key1", "value1")])]

/-- A base section and an overlay spelling one setting in two ways. -/
def docTwoSpellings : MySQLConfig :=
  MySQLConfig.ofSections
    [("DEFAULT", []), ("mysqld", [("max-connections", "100")]),
      ("mysqld-5.7", [("max_connections", "200")])]

/-- A document whose only explicit section is `[mysqld]`. -/
def docBaseOnly : MySQLConfig :=
  MySQLConfig.ofSections [("DEFAULT", []), ("mysqld", [("key1", "value1"), ("key2", "1K")])]

/-- The text of `s` before its first `-` (all of `s` when it has none). -/
def beforeFirstDash (s : String) : String :=
  ⟨s.data.takeWhile (fun c => c ≠ '-')⟩

/-- The parts of a text split on `.`. -/
def dotParts (s : String) : List String :=
  (s.data.splitOn '.').map String.mk

/-- The parts `ParseVersion` is specified to look at: the text before the first `-`, split
on `.`. -/
def versionParts (s : String) : List String :=
  dotParts (beforeFirstDash s)

/-- The value is a non-negative Go `int` (64 bits). -/
def fitsNonNegInt (x : Int) : Prop :=
  0 ≤ x ∧ x < 2 ^ 63

instance (x : Int) : Decidable (fitsNonNegInt x) := by
  unfold fitsNonNegInt
  exact inferInstance

/-- The lines `clean` is specified to keep: those that start with `[` and end with `]`, or
are empty after trimming white space, or contain `=`, and that do not begin with
`!include`. -/
def keepLine (line : String) : Bool :=
  ((line.data.head? = some '[' && line.data.getLast? = some ']') ||
      line.data.all strings.isSpace || line.data.contains '=') &&
    !("!include".data.isPrefixOf line.data)

/-- The specified result of `clean`: the lines of the text (split on the newline), in
their order, restricted to the kept ones and joined by newlines. -/
def cleanSpec (s : String) : String :=
  ⟨['\n'].intercalate ((((s.data.splitOn '\n').map String.mk).filter keepLine).map
    String.data)⟩

/-- The maps of `TestLimitToWatchedOptions`. -/
def fullOptionsExample : GoMap GoAny :=
  GoMap.ofList [("key1", GoAny.str "1"), ("key2", GoAny.str "2"), ("key3", GoAny.str "3")]

/-- The watch map of `TestLimitToWatchedOptions`. -/
def watchedOptionsExample : GoMap GoAny :=
  GoMap.ofList [("key1", GoAny.bool true), ("key3", GoAny.bool true)]

/-- What the specification says happens to one configuration key: a warning when the live
map has no (string) value for it, nothing when the two values are equivalent, and a drift
against the live value otherwise. -/
inductive KeyOutcome where
  | warning
  | equivalent
  | drift (serverValue : String)
  deriving DecidableEq, Repr

/-- The outcome of the key `key` with file value `optionValue` against the live map. -/
def keyOutcome (serverVariables : GoMap GoAny) (key : String) (optionValue : GoAny) :
    KeyOutcome :=
  match serverVariables.lookup key with
  | some (.str l) =>
    match optionValue with
    | .str f => if valuesEquivalent f l then .equivalent else .drift l
    | _ => .drift l
  | _ => .warning

/-- The writes one key gives rise to when its corrective write, if there is one, succeeds:
the warning, nothing, or the drift report followed in corrective mode by the `Set variable`
line. -/
def keyOutput (serverVariables : GoMap GoAny) (applyTheChanges : Bool) (key : String)
    (optionValue : GoAny) : List Output :=
  match keyOutcome serverVariables key optionValue with
  | .warning => [Output.notFound key]
  | .equivalent => []
  | .drift l =>
    [Output.differenceFound key, Output.myCnf optionValue, Output.mysqld l] ++
      (if applyTheChanges then [Output.setVariable key optionValue] else [])

/-- The arguments of the corrective write one key gives rise to: one call for a drifting
key in corrective mode, none otherwise. -/
def keyCalls (serverVariables : GoMap GoAny) (applyTheChanges : Bool) (key : String)
    (optionValue : GoAny) : List (String × GoAny) :=
  match keyOutcome serverVariables key optionValue with
  | .drift _ => if applyTheChanges then [(key, optionValue)] else []
  | _ => []

/-- The write is a `Failed to SET variable` warning. -/
def Output.isFailedToSet : Output → Bool
  | .failedToSet _ => true
  | _ => false

/-- The error text of a `Failed to SET variable` warning. -/
def Output.failedMessage : Output → Option String
  | .failedToSet e => some e
  | _ => none

/-- The key of a `Difference found` line. -/
def Output.reportedKey : Output → Option String
  | .differenceFound k => some k
  | _ => none

/-- The keys of the drift reports of an output, in order. -/
def reportedKeys (out : List Output) : List String :=
  out.filterMap Output.reportedKey

/-- A connection on which every statement fails. -/
def failingConn : dbConn :=
  { answer := fun _ _ _ => some "Error 1238: read only variable", executed := [],
    applied := [] }

/-- The claim "the diff engine canonicalizes each configuration key before looking it up",
for one pair of maps: whatever the connection and the mode, a key of the configuration gets
no `not found` warning exactly when its canonical form is a key of the live map. -/
def looksUpCanonicalKey (confOptions serverVariables : GoMap GoAny) : Prop :=
  ∀ (db : dbConn) (applyTheChanges : Bool) (k : String), k ∈ confOptions →
    ((mysqlConfDiff db confOptions serverVariables applyTheChanges).out.count
        (Output.notFound k) = 0 ↔
      GetVariableKeyFrom k ∈ serverVariables)

/-- The configuration map `{key1: value1}` of the tests of `mysqlConfDiff`. -/
def confKey1 : GoMap GoAny := GoMap.ofList [("key1", GoAny.str "value1")]

/-- The live map `{key1: value2}` of the tests of `mysqlConfDiff`. -/
def liveKey1 : GoMap GoAny := GoMap.ofList [("key1", GoAny.str "value2")]

/-- The empty live map. -/
def liveEmpty : GoMap GoAny := GoMap.ofList []

/-- The configuration map `{"my-key": "a"}`. -/
def confDashed : GoMap GoAny := GoMap.ofList [("my-key", GoAny.str "a")]

/-- The configuration map `{"MY_KEY": "a"}`. -/
def confCanonical : GoMap GoAny := GoMap.ofList [("MY_KEY", GoAny.str "a")]

/-- The live map `{"MY_KEY": "b"}`. -/
def liveCanonical : GoMap GoAny := GoMap.ofList [("MY_KEY", GoAny.str "b")]

/-- A configuration map with two drifting keys. -/
def confTwoKeys : GoMap GoAny :=
  GoMap.ofList [("key1", GoAny.str "value1"), ("key2", GoAny.str "value2")]

/-- A live map against which both keys of `confTwoKeys` drift. -/
def liveTwoKeys : GoMap GoAny :=
  GoMap.ofList [("key1", GoAny.str "x"), ("key2", GoAny.str "y")]

/-- The runes a key may be made of: the ASCII letters, the ASCII digits, `_` and `-`. -/
def allowedKeyRunes : List Char :=
  "abcdefghijklmnopqrstuvwxyzABCDEFGHIJKLMNOPQRSTUVWXYZ0123456789_-".data

/-- The key is empty or contains a rune other than an ASCII letter, an ASCII digit, `_`
or `-`. -/
def invalidKey (key : String) : Prop :=
  key.data = [] ∨ ∃ c ∈ key.data, c ∉ allowedKeyRunes

instance (key : String) : Decidable (invalidKey key) := by
  unfold invalidKey
  exact inferInstance

/-- The text of the statement `applySetting` sends for a key. -/
def setGlobalText (key : String) : String :=
  "SET GLOBAL " ++ key ++ " = ?"

/-- The claim "in every argument list in which the apply-changes flag is set and no watch
option is given, `parseArgs` returns an error whose message contains
`--watch-options required`", for one flag parser and argument list. -/
def applyRequiresWatchMessage (flagsetParse : List String → FlagParse)
    (args : List String) : Prop :=
  (flagsetParse args).executeFlag = true → (flagsetParse args).optionsToWatchFlag = [] →
    ∃ err, parseArgs flagsetParse args = .error err ∧
      strings.Contains err.message "--watch-options required" = true

/-- A configuration map whose key is not a valid variable name. -/
def confInvalidKey : GoMap GoAny := GoMap.ofList [("bad key", GoAny.str "a")]

/-- A live map that holds another value for the key of `confInvalidKey`. -/
def liveInvalidKey : GoMap GoAny := GoMap.ofList [("bad key", GoAny.str "b")]

/-- A configuration map with a server option and the client-only option `user`. -/
def confWithClientOption : GoMap GoAny :=
  GoMap.ofList [("max-connections", GoAny.str "100"), ("user", GoAny.str "mysql")]

/-- A live map with canonical keys and no variable `USER`. -/
def liveMaxConnections : GoMap GoAny :=
  GoMap.ofList [("MAX_CONNECTIONS", GoAny.str "151"), ("PORT", GoAny.str "3306")]

/-- A configuration map with two options, both drifting against `liveTwoVariables`. -/
def confTwoOptions : GoMap GoAny :=
  GoMap.ofList [("max-connections", GoAny.str "100"), ("port", GoAny.str "3307")]

/-- The live map the configuration `confTwoOptions` is compared with. -/
def liveTwoVariables : GoMap GoAny :=
  GoMap.ofList [("MAX_CONNECTIONS", GoAny.str "151"), ("PORT", GoAny.str "3306")]

/-- A driver environment: the flag parser `flagsetExample`, a connection on which every
statement succeeds, and the maps `confTwoOptions` and `liveTwoVariables`. -/
def driverExample : DriverEnv :=
  { flagsetParse := flagsetExample
    helpMessage := "Usage: mysql-conf-diff [flags] <my.cnf> <host:port>\n"
    getDB := fun _ => .ok okConn
    getOptionsFrom := fun _ _ => .ok (confTwoOptions, liveTwoVariables) }

/-- An argument list that watches `max-connections` only, in corrective mode. -/
def driverArgsExample : List String :=
  ["my.cnf", "localhost:3306", "--watch-options=max-connections", "--apply-changes"]

/-- A driver environment whose configuration holds `start` and whose live map holds
`START`, with another value. -/
def driverLongS : DriverEnv :=
  { flagsetParse := flagsetExample
    helpMessage := "Usage: mysql-conf-diff [flags] <my.cnf> <host:port>\n"
    getDB := fun _ => .ok okConn
    getOptionsFrom := fun _ _ =>
      .ok (GoMap.ofList [("start", GoAny.str "a")], GoMap.ofList [("START", GoAny.str "b")]) }

/-- An argument list whose watch option is spelled with the long s, a letter outside
ASCII whose upper case is `S`. -/
def driverArgsLongS : List String :=
  ["my.cnf", "localhost:3306", "--watch-options=ſtart", "--apply-changes"]

/-- The elements of a list in the order in which they first appear: each element is kept
once, at the place of its first occurrence. -/
def firstOccurrences : List String → List String
  | [] => []
  | x :: xs => x :: (firstOccurrences xs).filter (fun y => y ≠ x)

/-- The section header lines of a text, in document order. -/
def headerLines (text : String) : List String :=
  ((text.data.splitOn '\n').map String.mk).filter isHeaderLine

/-- The section header names of a text, in document order (with repetitions). -/
def headerNames (text : String) : List String :=
  (headerLines text).map headerName

/-- The configuration text of `TestNewMySQLConfig`. -/
def configTextExample : String :=
  "\n[section1]\nkey1=value1\n\n[section2]\nkey2=value2\n"

/-- The range `e` moves no code point `m` of `a..b` (of parity `par`, when given): it lies
outside `a..b`, or it is an `UpperLower` range in which `m` is at an even offset. -/
def rangeFixes (e : unicode.CaseRange) (a b : Nat) (par : Option Nat) : Bool :=
  decide (e.Hi < a) || decide (b < e.Lo) ||
    (decide (e.Delta > unicode.MaxRune) && par == some (e.Lo % 2))

/-- Every code point of `a..b` (of parity `par`, when given) is a rune that the table `t`
and the ASCII rule leave in place. -/
def fixedOn (t : List unicode.CaseRange) (a b : Nat) (par : Option Nat) : Bool :=
  (decide (b < 97) || decide (122 < a)) &&
    (decide (b < 0xD800) || (decide (0xDFFF < a) && decide (b < 0x110000))) &&
    t.all (fun e => rangeFixes e a b par)

/-- The upper-case letters the range `e` maps to are left in place by the table `t`. -/
def imageFixed (t : List unicode.CaseRange) (e : unicode.CaseRange) : Bool :=
  if e.Delta > unicode.MaxRune then fixedOn t e.Lo e.Hi (some (e.Lo % 2))
  else
    decide (0 ≤ (e.Lo : Int) + e.Delta) &&
      fixedOn t ((e.Lo : Int) + e.Delta).toNat ((e.Hi : Int) + e.Delta).toNat
        (if e.Lo = e.Hi then some (((e.Lo : Int) + e.Delta).toNat % 2) else none)

/-! ## Lemmas on the string fragment -/

theorem toUpperRune_ofNat_lower (n : Nat) (h1 : 97 ≤ n) (h2 : n ≤ 122) :
    unicode.ToUpper (Char.ofNat n) = Char.ofNat (n - 32) ∧
      unicode.ToUpper (Char.ofNat (n - 32)) = Char.ofNat (n - 32) := by
  interval_cases n <;> decide

theorem To_of_all_fixes (t : List unicode.CaseRange) (a b m : Nat) (par : Option Nat)
    (h : t.all (fun e => rangeFixes e a b par) = true) (ha : a ≤ m) (hb : m ≤ b)
    (hp : ∀ p, par = some p → m % 2 = p) : unicode.To m t = m := by
  unfold unicode.To
  cases hf : t.find? (fun cr => decide (cr.Lo ≤ m) && decide (m ≤ cr.Hi)) with
  | none => rfl
  | some e =>
    have hmem := List.mem_of_find?_eq_some hf
    have hpred := List.find?_some hf
    simp only [Bool.and_eq_true, decide_eq_true_eq] at hpred
    have hfix := List.all_eq_true.mp h e hmem
    unfold rangeFixes at hfix
    simp only [Bool.or_eq_true, Bool.and_eq_true, decide_eq_true_eq, beq_iff_eq] at hfix
    rcases hfix with (h1 | h1) | ⟨h1, h2⟩
    · omega
    · omega
    · have h3 := hp _ h2
      simp only [h1, if_true]
      omega

/-- What `fixedOn` checks: the code points of the interval are runes, none is a lower-case
ASCII letter, and the table leaves each in place. -/
theorem fixedOn_spec (t : List unicode.CaseRange) (a b m : Nat) (par : Option Nat)
    (h : fixedOn t a b par = true) (ha : a ≤ m) (hb : m ≤ b)
    (hp : ∀ p, par = some p → m % 2 = p) :
    m.isValidChar ∧ ¬ (97 ≤ m ∧ m ≤ 122) ∧ unicode.To m t = m := by
  unfold fixedOn at h
  simp only [Bool.and_eq_true, Bool.or_eq_true, decide_eq_true_eq] at h
  obtain ⟨⟨h1, h2⟩, h3⟩ := h
  refine ⟨?_, ?_, To_of_all_fixes t a b m par h3 ha hb hp⟩
  · unfold Nat.isValidChar
    omega
  · omega

set_option maxRecDepth 100000 in
/-- The upper-case letters of every range of the table are left in place by the table. -/
theorem caseRanges_imageFixed :
    unicode.CaseRanges.all (imageFixed unicode.CaseRanges) = true := by
  decide

/-- A code point is kept by the table, or moved to a rune that the table and the ASCII rule
keep. -/
theorem To_fixed_or_moved (r : Nat) :
    unicode.To r unicode.CaseRanges = r ∨
      ((unicode.To r unicode.CaseRanges).isValidChar ∧
        ¬ (97 ≤ unicode.To r unicode.CaseRanges ∧ unicode.To r unicode.CaseRanges ≤ 122) ∧
        unicode.To (unicode.To r unicode.CaseRanges) unicode.CaseRanges =
          unicode.To r unicode.CaseRanges) := by
  cases hf : unicode.CaseRanges.find?
      (fun cr => decide (cr.Lo ≤ r) && decide (r ≤ cr.Hi)) with
  | none => exact Or.inl (by unfold unicode.To; rw [hf])
  | some e =>
    right
    have hmem := List.mem_of_find?_eq_some hf
    have hpred := List.find?_some hf
    simp only [Bool.and_eq_true, decide_eq_true_eq] at hpred
    have hok := List.all_eq_true.mp caseRanges_imageFixed e hmem
    unfold imageFixed at hok
    by_cases hd : e.Delta > unicode.MaxRune
    · have hk : unicode.To r unicode.CaseRanges = e.Lo + (r - e.Lo) / 2 * 2 := by
        unfold unicode.To; rw [hf]; simp only [hd, if_true]
      rw [if_pos hd] at hok
      rw [hk]
      exact fixedOn_spec _ _ _ _ _ hok (by omega) (by omega)
        (by intro p hp; cases hp; omega)
    · have hk : unicode.To r unicode.CaseRanges = ((r : Int) + e.Delta).toNat := by
        unfold unicode.To; rw [hf]; simp only [hd, if_false]
      rw [if_neg hd] at hok
      simp only [Bool.and_eq_true, decide_eq_true_eq] at hok
      obtain ⟨h0, hfix⟩ := hok
      rw [hk]
      refine fixedOn_spec _ _ _ _ _ hfix (by omega) (by omega) ?_
      intro p hp
      by_cases he : e.Lo = e.Hi
      · rw [if_pos he] at hp
        cases hp
        have : r = e.Lo := by omega
        rw [this]
      · rw [if_neg he] at hp
        cases hp

theorem toNat_ofNat_of_valid (n : Nat) (h : n.isValidChar) : (Char.ofNat n).toNat = n := by
  simp only [Char.ofNat, h, dite_true, Char.ofNatAux, Char.toNat]
  rfl

theorem toUpperRune_idem (c : Char) :
    unicode.ToUpper (unicode.ToUpper c) = unicode.ToUpper c := by
  by_cases ha : c.toNat ≤ 0x7F
  · by_cases h : 97 ≤ c.toNat ∧ c.toNat ≤ 122
    · have hc : c = Char.ofNat c.toNat := (Char.ofNat_toNat c).symm
      obtain ⟨e1, e2⟩ := toUpperRune_ofNat_lower c.toNat h.1 h.2
      rw [hc, e1, e2]
    · have e : unicode.ToUpper c = c := by simp [unicode.ToUpper, ha, h]
      rw [e, e]
  · have e : unicode.ToUpper c = Char.ofNat (unicode.To c.toNat unicode.CaseRanges) := by
      unfold unicode.ToUpper
      rw [if_neg ha]
    rcases To_fixed_or_moved c.toNat with h | ⟨hv, hl, hfix⟩
    · have e2 : unicode.ToUpper c = c := by rw [e, h, Char.ofNat_toNat]
      rw [e2, e2]
    · rw [e]
      have hn := toNat_ofNat_of_valid _ hv
      unfold unicode.ToUpper
      rw [hn]
      by_cases hb : unicode.To c.toNat unicode.CaseRanges ≤ 0x7F
      · rw [if_pos hb, if_neg hl]
      · rw [if_neg hb, hfix]

theorem toUpperRune_underscore : unicode.ToUpper '_' = '_' := by decide

theorem replaceLoop_single (a b : Char) (l : List Char) :
    strings.replaceLoop [a] [b] l 0 = l.map (fun c => if c = a then b else c) := by
  induction l with
  | nil => simp [strings.replaceLoop]
  | cons c cs ih =>
    by_cases h : c = a
    · subst h
      simp [strings.replaceLoop, ih]
    · have h2 : ¬ a = c := fun e => h e.symm
      simp [strings.replaceLoop, ih, h, h2]

theorem GetVariableKeyFrom_eq (k : String) : GetVariableKeyFrom k = canonicalForm k := by
  simp only [GetVariableKeyFrom, strings.ReplaceAll, strings.ToUpper, canonicalForm]
  rw [if_neg (by decide)]
  exact congrArg String.mk (replaceLoop_single '-' '_' _)

theorem canonicalForm_idem (k : String) : canonicalForm (canonicalForm k) = canonicalForm k := by
  simp only [canonicalForm, List.map_map]
  congr 1
  apply List.map_congr_left
  intro c _
  simp only [Function.comp]
  by_cases h : unicode.ToUpper c = '-'
  · simp [h, toUpperRune_underscore]
  · simp [h, toUpperRune_idem]

/-! ## Lemmas on decimal rendering and parsing -/

theorem formatBits_acc (fuel : Nat) : ∀ (n : Nat) (acc : List Char),
    strconv.formatBits fuel n acc = strconv.formatBits fuel n [] ++ acc := by
  induction fuel with
  | zero => intro n acc; simp [strconv.formatBits]
  | succ f ih =>
    intro n acc
    by_cases h : n < 10
    · simp [strconv.formatBits, h]
    · simp only [strconv.formatBits, h, if_false]
      rw [ih (n / 10) (Nat.digitChar (n % 10) :: acc), ih (n / 10) [Nat.digitChar (n % 10)]]
      simp

theorem formatBits_fuel (fuel : Nat) : ∀ (n fuel2 : Nat) (acc : List Char),
    n < fuel → n < fuel2 → strconv.formatBits fuel n acc = strconv.formatBits fuel2 n acc := by
  induction fuel with
  | zero => intro n fuel2 acc h; omega
  | succ f ih =>
    intro n fuel2 acc h1 h2
    obtain ⟨g, rfl⟩ : ∃ g, fuel2 = g + 1 := ⟨fuel2 - 1, by omega⟩
    by_cases h : n < 10
    · simp [strconv.formatBits, h]
    · simp only [strconv.formatBits, h, if_false]
      exact ih (n / 10) g _ (by omega) (by omega)

/-- The defining recursion of the decimal rendering: a number below ten is one digit, a
larger one is the rendering of its quotient by ten followed by its last digit. -/
theorem formatUint_eq (n : Nat) :
    strconv.formatUint n =
      if n < 10 then [Nat.digitChar n]
      else strconv.formatUint (n / 10) ++ [Nat.digitChar (n % 10)] := by
  by_cases h : n < 10
  · simp [strconv.formatUint, strconv.formatBits, h]
  · rw [if_neg h]
    have e : strconv.formatUint n =
        strconv.formatBits n (n / 10) [Nat.digitChar (n % 10)] := by
      simp only [strconv.formatUint, strconv.formatBits, h, if_false]
    rw [e, formatBits_acc n (n / 10) [Nat.digitChar (n % 10)],
      formatBits_fuel n (n / 10) (n / 10 + 1) [] (by omega) (by omega)]
    rfl

theorem formatUint_snoc (n : Nat) :
    ∃ l, strconv.formatUint n = l ++ [Nat.digitChar (n % 10)] := by
  rw [formatUint_eq]
  by_cases h : n < 10
  · exact ⟨[], by simp [h, Nat.mod_eq_of_lt h]⟩
  · exact ⟨strconv.formatUint (n / 10), by simp [h]⟩

theorem digitVal_digitChar : ∀ d, d < 10 → strconv.digitVal (Nat.digitChar d) = some d := by
  decide

theorem formatUint_mem (n : Nat) :
    ∀ c ∈ strconv.formatUint n, ∃ d, d < 10 ∧ c = Nat.digitChar d := by
  induction n using Nat.strong_induction_on with
  | _ n ih =>
    intro c hc
    rw [formatUint_eq] at hc
    by_cases h : n < 10
    · simp only [h, if_true, List.mem_singleton] at hc
      exact ⟨n, h, hc⟩
    · simp only [h, if_false, List.mem_append, List.mem_singleton] at hc
      rcases hc with hc | hc
      · exact ih (n / 10) (by omega) c hc
      · exact ⟨n % 10, Nat.mod_lt _ (by decide), hc⟩

theorem parseUintLoop_snoc (l : List Char) (c : Char) : ∀ a : Nat,
    strconv.parseUintLoop (l ++ [c]) a =
      match strconv.parseUintLoop l a with
      | .ok b => strconv.parseUintLoop [c] b
      | .error e => .error e := by
  induction l with
  | nil => intro a; simp [strconv.parseUintLoop]
  | cons x xs ih =>
    intro a
    simp only [List.cons_append, strconv.parseUintLoop]
    cases strconv.digitVal x with
    | none => rfl
    | some d =>
      simp only []
      split
      · rfl
      · split
        · rfl
        · exact ih _

/-- Parsing the decimal rendering of a number that fits in a `uint64` gives it back. -/
theorem parseUintLoop_formatUint (n : Nat) (hn : n ≤ strconv.maxUint64) :
    strconv.parseUintLoop (strconv.formatUint n) 0 = .ok n := by
  induction n using Nat.strong_induction_on with
  | _ n ih =>
    rw [formatUint_eq]
    by_cases h : n < 10
    · have hm : ¬ (strconv.maxUint64 / 10 + 1 ≤ 0) := by decide
      have hb : ¬ (strconv.maxUint64 < n) := by omega
      simp [h, strconv.parseUintLoop, digitVal_digitChar n h, hb]
    · simp only [h, if_false]
      rw [parseUintLoop_snoc, ih (n / 10) (by omega) (by omega)]
      have hd := digitVal_digitChar (n % 10) (Nat.mod_lt _ (by decide))
      have hmax : strconv.maxUint64 = 18446744073709551615 := by decide
      have h1 : ¬ (n / 10 ≥ strconv.maxUint64 / 10 + 1) := by rw [hmax]; rw [hmax] at hn; omega
      have h2 : ¬ (n / 10 * 10 + n % 10 > strconv.maxUint64) := by omega
      simp only [strconv.parseUintLoop, hd, h1, h2, if_false]
      congr 1
      omega

theorem ParseUint_formatUint (n : Nat) (hn : n ≤ strconv.maxUint64) :
    strconv.ParseUint (strconv.formatUint n) = .ok n := by
  obtain ⟨l, hl⟩ := formatUint_snoc n
  have hne : strconv.formatUint n ≠ [] := by rw [hl]; simp
  simp [strconv.ParseUint, hne, parseUintLoop_formatUint n hn]

theorem digitChar_ne_sign : ∀ d, d < 10 →
    Nat.digitChar d ≠ '+' ∧ Nat.digitChar d ≠ '-' ∧ Nat.digitChar d ≠ '.' := by
  decide

theorem formatUint_cons (n : Nat) :
    ∃ c cs, strconv.formatUint n = c :: cs ∧ c ≠ '+' ∧ c ≠ '-' := by
  obtain ⟨l, hl⟩ := formatUint_snoc n
  cases hf : strconv.formatUint n with
  | nil => rw [hf] at hl; simp at hl
  | cons c cs =>
    obtain ⟨d, hd, hc⟩ := formatUint_mem n c (by rw [hf]; simp)
    have := digitChar_ne_sign d hd
    exact ⟨c, cs, rfl, by rw [hc]; exact this.1, by rw [hc]; exact this.2.1⟩

/-- Parsing the decimal rendering of an `int64` gives it back. -/
theorem ParseInt_FormatInt (i : Int) (h : fitsInt64 i) :
    strconv.ParseInt (strconv.FormatInt i) = .ok i := by
  obtain ⟨h1, h2⟩ := h
  have hmax : strconv.maxUint64 = 18446744073709551615 := by decide
  by_cases hneg : i < 0
  · have hu : i.natAbs ≤ strconv.maxUint64 := by rw [hmax]; omega
    have hb : ¬ (9223372036854775808 < i.natAbs) := by omega
    have hi : -|i| = i := by rw [abs_of_neg hneg]; omega
    simp [strconv.ParseInt, strconv.FormatInt, hneg, ParseUint_formatUint _ hu,
      strconv.applySign, hb, hi]
  · obtain ⟨c, cs, hcs, hp, hm⟩ := formatUint_cons i.natAbs
    have hu : i.natAbs ≤ strconv.maxUint64 := by rw [hmax]; omega
    have hb : i.natAbs < 9223372036854775808 := by omega
    have hi : |i| = i := abs_of_nonneg (by omega)
    have hP := ParseUint_formatUint _ hu
    rw [hcs] at hP
    simp [strconv.ParseInt, strconv.FormatInt, hneg, hcs, hp, hm, hP, strconv.applySign, hb, hi]

theorem wrapInt64_of_fits (x : Int) (h : fitsInt64 x) : wrapInt64 x = x := by
  obtain ⟨h1, h2⟩ := h
  unfold wrapInt64
  rw [Int.emod_eq_of_lt (by omega) (by omega)]
  omega

/-! ## Lemmas on `normalize` -/

theorem hasSuffix_snoc (l : List Char) (c x : Char) :
    strings.HasSuffix ⟨l ++ [c]⟩ ⟨[x]⟩ = decide (x = c) := by
  simp [strings.HasSuffix, List.isSuffixOf, List.isPrefixOf]
  rfl

theorem hasSuffix_nil (x : Char) : strings.HasSuffix ⟨[]⟩ ⟨[x]⟩ = false := by
  simp [strings.HasSuffix, List.isSuffixOf]

theorem normalize_of_noSizeSuffix (value : String) (h : noSizeSuffix value) :
    normalize value = value := by
  obtain ⟨h1, h2, h3, h4⟩ := h
  unfold normalize
  split
  · rfl
  · simp [normalizeLoop, h1, h2, h3, h4]

/-- When the value is not empty and ends in one of the four letters, `normalize` returns
the result of `normalizeDataSize`, or the value itself when that fails. -/
theorem normalize_of_sizeSuffix (value : String) (h : ¬ noSizeSuffix value) :
    normalize value =
      match normalizeDataSize value with
      | .error _ => value
      | .ok newValue => newValue := by
  have hne : value ≠ "" := by
    intro e
    apply h
    subst e
    decide
  unfold normalize
  rw [if_neg hne]
  unfold noSizeSuffix at h
  simp only [normalizeLoop]
  by_cases h1 : strings.HasSuffix value "K" = true
  · simp [h1]
  · by_cases h2 : strings.HasSuffix value "M" = true
    · simp [h1, h2]
    · by_cases h3 : strings.HasSuffix value "G" = true
      · simp [h1, h2, h3]
      · by_cases h4 : strings.HasSuffix value "T" = true
        · simp [h1, h2, h3, h4]
        · exfalso
          apply h
          simp only [Bool.not_eq_true] at h1 h2 h3 h4
          exact ⟨h1, h2, h3, h4⟩

theorem formatInt_noSizeSuffix (x : Int) : noSizeSuffix (strconv.FormatInt x) := by
  obtain ⟨l, hl⟩ := formatUint_snoc x.natAbs
  have hd : ∀ d, d < 10 → Nat.digitChar d ≠ 'K' ∧ Nat.digitChar d ≠ 'M' ∧
      Nat.digitChar d ≠ 'G' ∧ Nat.digitChar d ≠ 'T' := by decide
  obtain ⟨d1, d2, d3, d4⟩ := hd (x.natAbs % 10) (Nat.mod_lt _ (by decide))
  have key : ∀ l2 : List Char, noSizeSuffix ⟨l2 ++ [Nat.digitChar (x.natAbs % 10)]⟩ := by
    intro l2
    refine ⟨?_, ?_, ?_, ?_⟩
    · exact (hasSuffix_snoc l2 _ 'K').trans (decide_eq_false (fun e => d1 e.symm))
    · exact (hasSuffix_snoc l2 _ 'M').trans (decide_eq_false (fun e => d2 e.symm))
    · exact (hasSuffix_snoc l2 _ 'G').trans (decide_eq_false (fun e => d3 e.symm))
    · exact (hasSuffix_snoc l2 _ 'T').trans (decide_eq_false (fun e => d4 e.symm))
  unfold strconv.FormatInt
  split
  · rw [hl]
    exact key ('-' :: l)
  · rw [hl]
    exact key l

theorem normalize_formatInt (x : Int) :
    normalize (strconv.FormatInt x) = strconv.FormatInt x :=
  normalize_of_noSizeSuffix _ (formatInt_noSizeSuffix x)

theorem normalizeDataSize_ok (value v : String) (h : normalizeDataSize value = .ok v) :
    ∃ x : Int, v = strconv.FormatInt x := by
  unfold normalizeDataSize at h
  split at h
  · cases h
  · simp only [] at h
    split at h
    · cases h
    · split at h
      · exact ⟨_, (Except.ok.inj h).symm⟩
      · cases h

/-- The result of `normalize` is its argument or a decimal rendering. -/
theorem normalize_cases (value : String) :
    normalize value = value ∨ ∃ x : Int, normalize value = strconv.FormatInt x := by
  by_cases h : noSizeSuffix value
  · exact Or.inl (normalize_of_noSizeSuffix value h)
  · rw [normalize_of_sizeSuffix value h]
    cases hv : normalizeDataSize value with
    | error e => exact Or.inl rfl
    | ok v => exact Or.inr (normalizeDataSize_ok value v hv)

theorem normalizeDataSize_snoc (s : String) (c : Char) :
    normalizeDataSize (s ++ ⟨[c]⟩) =
      match strconv.ParseInt s with
      | .error e => .error (.parse e)
      | .ok magnitude =>
        match sizes (strings.ToUpper ⟨[c]⟩) with
        | some multiplier => .ok (strconv.FormatInt (wrapInt64 (magnitude * multiplier)))
        | none => .error .invalidSuffix := by
  have h1 : strings.dropLastByte (s ++ ⟨[c]⟩) = s := by
    simp [strings.dropLastByte, String.data_append, List.dropLast_concat]
  have h2 : strings.lastByte (s ++ ⟨[c]⟩) = ⟨[c]⟩ := by
    simp [strings.lastByte, String.data_append]
  have h3 : (s ++ (⟨[c]⟩ : String)).data ≠ [] := by simp [String.data_append]
  unfold normalizeDataSize
  rw [if_neg h3]
  simp only [h1, h2]

theorem not_noSizeSuffix_snoc (s : String) (c : Char)
    (hc : c = 'K' ∨ c = 'M' ∨ c = 'G' ∨ c = 'T') : ¬ noSizeSuffix (s ++ ⟨[c]⟩) := by
  intro ⟨h1, h2, h3, h4⟩
  have e : s ++ (⟨[c]⟩ : String) = ⟨s.data ++ [c]⟩ := by
    apply String.ext; simp [String.data_append]
  rw [e] at h1 h2 h3 h4
  have k1 := (hasSuffix_snoc s.data c 'K').symm.trans h1
  have k2 := (hasSuffix_snoc s.data c 'M').symm.trans h2
  have k3 := (hasSuffix_snoc s.data c 'G').symm.trans h3
  have k4 := (hasSuffix_snoc s.data c 'T').symm.trans h4
  simp only [decide_eq_false_iff_not] at k1 k2 k3 k4
  rcases hc with rfl | rfl | rfl | rfl
  · exact k1 rfl
  · exact k2 rfl
  · exact k3 rfl
  · exact k4 rfl

theorem normalize_size (n : Int) (c : Char) (multiplier : Int)
    (hc : c = 'K' ∨ c = 'M' ∨ c = 'G' ∨ c = 'T')
    (hm : sizes (strings.ToUpper ⟨[c]⟩) = some multiplier)
    (hn : fitsInt64 n) (hp : fitsInt64 (n * multiplier)) :
    normalize (strconv.FormatInt n ++ ⟨[c]⟩) = strconv.FormatInt (n * multiplier) := by
  rw [normalize_of_sizeSuffix _ (not_noSizeSuffix_snoc _ c hc), normalizeDataSize_snoc,
    ParseInt_FormatInt n hn]
  simp only [hm, wrapInt64_of_fits _ hp]

theorem applySign_error (neg : Bool) (e : strconv.NumError) :
    strconv.applySign neg (.error e) = .error e := by
  cases e <;> rfl

theorem parseUintLoop_error (l : List Char) : l.all isDigitRune = false →
    ∀ a, ∃ e, strconv.parseUintLoop l a = .error e := by
  induction l with
  | nil => intro h; simp at h
  | cons c cs ih =>
    intro h a
    by_cases hc : 48 ≤ c.toNat ∧ c.toNat ≤ 57
    · have hcs : cs.all isDigitRune = false := by
        have : isDigitRune c = true := by simp [isDigitRune, hc]
        simpa [List.all_cons, this] using h
      simp only [strconv.parseUintLoop, strconv.digitVal, hc, and_self, if_true]
      split
      · exact ⟨_, rfl⟩
      · split
        · exact ⟨_, rfl⟩
        · exact ih hcs _
    · exact ⟨.errSyntax, by simp [strconv.parseUintLoop, strconv.digitVal, hc]⟩

theorem ParseUint_error (l : List Char) (h : (!l.isEmpty && l.all isDigitRune) = false) :
    ∃ e, strconv.ParseUint l = .error e := by
  unfold strconv.ParseUint
  split
  · exact ⟨_, rfl⟩
  · rename_i hne
    have : l.isEmpty = false := by cases l <;> simp_all
    simp only [this, Bool.not_false, Bool.true_and] at h
    exact parseUintLoop_error l h 0

/-- A text that is not a base-10 integer is rejected by `strconv.ParseInt`. -/
theorem ParseInt_error (s : String) (h : isBase10Integer s = false) :
    ∃ e, strconv.ParseInt s = .error e := by
  unfold isBase10Integer at h
  unfold strconv.ParseInt
  cases hs : s.data with
  | nil => exact ⟨_, rfl⟩
  | cons c cs =>
    rw [hs] at h
    simp only [] at h ⊢
    by_cases hp : c = '+'
    · simp only [hp, true_or, if_true] at h
      obtain ⟨e, he⟩ := ParseUint_error cs h
      exact ⟨e, by simp [hp, he, applySign_error]⟩
    · by_cases hm : c = '-'
      · simp only [hm, or_true, if_true] at h
        obtain ⟨e, he⟩ := ParseUint_error cs h
        exact ⟨e, by simp [hm, he, applySign_error]⟩
      · simp only [hp, hm, or_self, if_false] at h
        obtain ⟨e, he⟩ := ParseUint_error (c :: cs) (by simpa using h)
        exact ⟨e, by simp [hp, hm, he, applySign_error]⟩

theorem normalize_of_parse_error (x : String) (e : strconv.NumError)
    (h : strconv.ParseInt (strings.dropLastByte x) = .error e) : normalize x = x := by
  by_cases hs : noSizeSuffix x
  · exact normalize_of_noSizeSuffix x hs
  · obtain ⟨err, herr⟩ : ∃ err, normalizeDataSize x = .error err := by
      unfold normalizeDataSize
      split
      · exact ⟨_, rfl⟩
      · exact ⟨.parse e, by simp [h]⟩
    rw [normalize_of_sizeSuffix x hs, herr]

/-! ## Lemmas on section titles -/

theorem digitChar_toNat : ∀ d, d < 10 → (Nat.digitChar d).toNat - 48 = d := by
  decide

theorem digitsValue_formatUint (n : Nat) :
    (strconv.formatUint n).foldl (fun a c => a * 10 + (c.toNat - 48)) 0 = n := by
  induction n using Nat.strong_induction_on with
  | _ n ih =>
    rw [formatUint_eq]
    by_cases h : n < 10
    · simp [h, digitChar_toNat n h]
    · simp only [h, if_false, List.foldl_append, List.foldl_cons, List.foldl_nil]
      rw [ih (n / 10) (by omega), digitChar_toNat _ (Nat.mod_lt _ (by decide))]
      omega

theorem formatUint_injective (a b : Nat) (h : strconv.formatUint a = strconv.formatUint b) :
    a = b := by
  rw [← digitsValue_formatUint a, ← digitsValue_formatUint b, h]

theorem FormatInt_injective (i j : Int) (h : strconv.FormatInt i = strconv.FormatInt j) :
    i = j := by
  have hd := congrArg String.data h
  unfold strconv.FormatInt at hd
  by_cases hi : i < 0 <;> by_cases hj : j < 0
  · simp only [hi, hj, if_true] at hd
    have := formatUint_injective _ _ (List.cons.inj hd).2
    omega
  · simp only [hi, hj, if_true, if_false] at hd
    obtain ⟨c, cs, hcs, _, hm⟩ := formatUint_cons j.natAbs
    rw [hcs] at hd
    exact absurd (List.cons.inj hd).1.symm hm
  · simp only [hi, hj, if_true, if_false] at hd
    obtain ⟨c, cs, hcs, _, hm⟩ := formatUint_cons i.natAbs
    rw [hcs] at hd
    exact absurd (List.cons.inj hd).1 hm
  · simp only [hi, hj, if_false] at hd
    have := formatUint_injective _ _ hd
    omega

theorem FormatInt_no_dot (i : Int) : '.' ∉ (strconv.FormatInt i).data := by
  have hu : '.' ∉ strconv.formatUint i.natAbs := by
    intro hmem
    obtain ⟨d, hd, hc⟩ := formatUint_mem _ _ hmem
    exact (digitChar_ne_sign d hd).2.2 hc.symm
  unfold strconv.FormatInt
  split
  · intro hmem
    rcases List.mem_cons.mp hmem with h | h
    · exact absurd h (by decide)
    · exact hu h
  · exact hu

theorem split_at_separator (a : Char) : ∀ (l1 l2 r1 r2 : List Char),
    a ∉ l1 → a ∉ l2 → l1 ++ a :: r1 = l2 ++ a :: r2 → l1 = l2 ∧ r1 = r2 := by
  intro l1
  induction l1 with
  | nil =>
    intro l2 r1 r2 _ h2 h
    cases l2 with
    | nil => exact ⟨rfl, (List.cons.inj h).2⟩
    | cons x xs =>
      have : a = x := (List.cons.inj h).1
      exact absurd (this ▸ List.mem_cons_self _ _) h2
  | cons y ys ih =>
    intro l2 r1 r2 h1 h2 h
    cases l2 with
    | nil =>
      have : y = a := (List.cons.inj h).1
      exact absurd (this ▸ List.mem_cons_self _ _) h1
    | cons x xs =>
      obtain ⟨hxy, ht⟩ := List.cons.inj h
      obtain ⟨e1, e2⟩ := ih xs r1 r2 (fun m => h1 (List.mem_cons_of_mem _ m))
        (fun m => h2 (List.mem_cons_of_mem _ m)) ht
      exact ⟨by rw [hxy, e1], e2⟩

theorem versionTitle_data (X Y : Int) :
    (versionTitle X Y).data =
      ['m', 'y', 's', 'q', 'l', 'd', '-'] ++
        ((strconv.FormatInt X).data ++ '.' :: (strconv.FormatInt Y).data) := by
  simp [versionTitle, String.data_append]

/-- The rendering of the pair of version numbers in a section title is injective. -/
theorem versionTitle_injective (X Y M m : Int) (h : versionTitle X Y = versionTitle M m) :
    X = M ∧ Y = m := by
  have hd := congrArg String.data h
  rw [versionTitle_data, versionTitle_data] at hd
  have hd2 := List.append_cancel_left hd
  obtain ⟨e1, e2⟩ := split_at_separator '.' _ _ _ _ (FormatInt_no_dot X) (FormatInt_no_dot M) hd2
  exact ⟨FormatInt_injective _ _ (String.ext e1), FormatInt_injective _ _ (String.ext e2)⟩

theorem versionTitle_ne_mysqld (X Y : Int) : versionTitle X Y ≠ "mysqld" := by
  intro h
  have hd := congrArg String.data h
  rw [versionTitle_data] at hd
  have hl := congrArg List.length hd
  have e : ("mysqld" : String).data.length = 6 := by decide
  rw [e] at hl
  simp at hl

theorem versionTitle_ne_default (X Y : Int) : "DEFAULT" ≠ versionTitle X Y := by
  intro h
  have hd := congrArg String.data h
  rw [versionTitle_data] at hd
  have hh := congrArg List.head? hd
  have e : ("DEFAULT" : String).data.head? = some 'D' := by decide
  rw [e] at hh
  exact absurd (Option.some.inj hh) (by decide)

theorem isOptionBlockMatch_default (v : MySQLVersion) :
    isOptionBlockMatch v "DEFAULT" = false := by
  unfold isOptionBlockMatch
  rw [if_neg (by decide), if_neg (versionTitle_ne_default _ _)]

/-! ## Lemmas on `ComposeForVersion` -/

theorem composeEntries_lookup (k : String) :
    ∀ (l : List (Σ _ : String, String)), l.NodupKeys → ∀ acc : GoMap GoAny,
      (l.foldl (fun acc kv => acc.insert kv.1 (GoAny.str (normalize kv.2))) acc).lookup k =
        match l.dlookup k with
        | some v => some (GoAny.str (normalize v))
        | none => acc.lookup k := by
  intro l
  induction l with
  | nil => intro _ acc; simp
  | cons e t ih =>
    intro nd acc
    obtain ⟨a, b⟩ := e
    have hnot : a ∉ t.keys := List.not_mem_keys_of_nodupKeys_cons nd
    have ndt : t.NodupKeys := List.nodupKeys_of_nodupKeys_cons nd
    rw [List.foldl_cons, ih ndt]
    by_cases hk : k = a
    · subst hk
      rw [List.dlookup_cons_eq, List.dlookup_eq_none.mpr hnot]
      simp [AList.lookup_insert]
    · rw [List.dlookup_cons_ne _ _ hk]
      cases List.dlookup k t with
      | some v => rfl
      | none => simp [AList.lookup_insert_ne hk]

/-- After the inner loop, a key of the section holds the section's normalized value and
every other key is untouched. -/
theorem composeSection_lookup (acc : GoMap GoAny) (settings : GoMap String) (k : String) :
    (composeSection acc settings).lookup k =
      match settings.lookup k with
      | some v => some (GoAny.str (normalize v))
      | none => acc.lookup k :=
  composeEntries_lookup k settings.entries settings.nodupKeys acc

theorem composeSection_mem (acc : GoMap GoAny) (settings : GoMap String) (k : String) :
    k ∈ composeSection acc settings ↔ k ∈ acc ∨ k ∈ settings := by
  rw [← AList.lookup_isSome, ← AList.lookup_isSome, ← AList.lookup_isSome,
    composeSection_lookup]
  cases settings.lookup k <;> simp

/-- One round of the outer loop of `ComposeForVersion`. -/
theorem composeStep_mem (c : MySQLConfig) (v : MySQLVersion) (k : String) :
    ∀ (titles : List String) (acc : GoMap GoAny),
      k ∈ titles.foldl
          (fun allSettings sectionTitle =>
            if !isOptionBlockMatch v sectionTitle then allSettings
            else composeSection allSettings (c.cfg sectionTitle)) acc ↔
        k ∈ acc ∨ ∃ t ∈ titles, isOptionBlockMatch v t = true ∧ k ∈ c.cfg t := by
  intro titles
  induction titles with
  | nil => intro acc; simp
  | cons t ts ih =>
    intro acc
    rw [List.foldl_cons, ih]
    by_cases hm : isOptionBlockMatch v t = true
    · simp only [hm, Bool.not_true, Bool.false_eq_true, if_false, composeSection_mem,
        List.mem_cons, exists_eq_or_imp, true_and]
      tauto
    · simp only [Bool.not_eq_true] at hm
      simp [hm]

theorem composeStep_lookup_skip (c : MySQLConfig) (v : MySQLVersion) (k : String) :
    ∀ (titles : List String) (acc : GoMap GoAny),
      (∀ u ∈ titles, isOptionBlockMatch v u = true → k ∉ c.cfg u) →
      (titles.foldl
          (fun allSettings sectionTitle =>
            if !isOptionBlockMatch v sectionTitle then allSettings
            else composeSection allSettings (c.cfg sectionTitle)) acc).lookup k =
        acc.lookup k := by
  intro titles
  induction titles with
  | nil => intro acc _; rfl
  | cons t ts ih =>
    intro acc h
    rw [List.foldl_cons, ih _ (fun u hu => h u (List.mem_cons_of_mem _ hu))]
    by_cases hm : isOptionBlockMatch v t = true
    · have hk : (c.cfg t).lookup k = none :=
        AList.lookup_eq_none.mpr (h t (List.mem_cons_self _ _) hm)
      simp [hm, composeSection_lookup, hk]
    · simp only [Bool.not_eq_true] at hm
      simp [hm]

/-- The value of a key is decided by the last selected section that defines it. -/
theorem compose_lookup_last (c : MySQLConfig) (v : MySQLVersion) (k val : String)
    (before after : List String) (t : String)
    (hs : c.sectionTitles = before ++ t :: after)
    (hm : isOptionBlockMatch v t = true)
    (hv : (c.cfg t).lookup k = some val)
    (hl : ∀ u ∈ after, isOptionBlockMatch v u = true → k ∉ c.cfg u) :
    (ComposeForVersion c v).lookup k = some (GoAny.str (normalize val)) := by
  unfold ComposeForVersion
  rw [hs, List.foldl_append, List.foldl_cons, composeStep_lookup_skip c v k after _ hl]
  simp [hm, composeSection_lookup, hv]

/-! ## Lemmas on `mysqlConfDiff` -/

theorem hasSuffix_slash_iff (l f : String) :
    (strings.HasSuffix l "/" = true ∧ strings.dropLastByte l = f) ↔ l = f ++ "/" := by
  constructor
  · rintro ⟨h1, h2⟩
    unfold strings.HasSuffix at h1
    rw [List.isSuffixOf_iff_suffix] at h1
    obtain ⟨t, ht⟩ := h1
    have e : ("/" : String).data = ['/'] := rfl
    rw [e] at ht
    apply String.ext
    rw [← h2, String.data_append, e]
    simp [strings.dropLastByte, ← ht]
  · rintro rfl
    have e : ("/" : String).data = ['/'] := rfl
    constructor
    · unfold strings.HasSuffix
      rw [List.isSuffixOf_iff_suffix, String.data_append, e]
      exact ⟨f.data, rfl⟩
    · apply String.ext
      simp [strings.dropLastByte, String.data_append, e]

theorem lookupString_of_str (sv : GoMap GoAny) (key l : String)
    (h : sv.lookup key = some (GoAny.str l)) : lookupString sv key = (l, true) := by
  simp [lookupString, h]

/-- A key whose two values are equivalent leaves the state untouched. -/
theorem diffStep_equivalent (sv : GoMap GoAny) (a : Bool) (w : World) (key f l : String)
    (hl : sv.lookup key = some (GoAny.str l)) (he : valuesEquivalent f l) :
    diffStep sv a w key (GoAny.str f) = w := by
  unfold diffStep
  rw [lookupString_of_str sv key l hl]
  simp only [Bool.not_true, Bool.false_eq_true, if_false, GoAny.str.injEq]
  rcases he with h | ⟨h1, h2⟩ | ⟨h1, h2⟩ | h
  · simp [h]
  · simp [h1, h2]
  · simp [h1, h2]
  · have := (hasSuffix_slash_iff l f).mpr h
    simp [this.1, this.2]

/-- A key whose two values are not equivalent appends one drift report, followed in
corrective mode by the outcome of the write. -/
theorem diffStep_drift (sv : GoMap GoAny) (a : Bool) (w : World) (key f l : String)
    (hl : sv.lookup key = some (GoAny.str l)) (he : ¬ valuesEquivalent f l) :
    ∃ rest, (diffStep sv a w key (GoAny.str f)).out = w.out ++ driftReport key f l ++ rest ∧
      ∀ k, Output.differenceFound k ∉ rest := by
  unfold valuesEquivalent at he
  simp only [not_or, not_and] at he
  obtain ⟨n1, n2, n3, n4⟩ := he
  have c1 : ¬ (l = f) := fun e => n1 e.symm
  have c2 : ¬ (l = "ON" ∧ f = "1") := fun e => n2 e.2 e.1
  have c3 : ¬ (l = "OFF" ∧ f = "0") := fun e => n3 e.2 e.1
  have c4 : ¬ (strings.HasSuffix l "/" = true ∧ strings.dropLastByte l = f) :=
    fun e => n4 ((hasSuffix_slash_iff l f).mp e)
  unfold diffStep
  rw [lookupString_of_str sv key l hl]
  simp only [Bool.not_true, Bool.false_eq_true, if_false, GoAny.str.injEq, c1, c2, c3, c4]
  cases a with
  | false => exact ⟨[], by simp [driftReport], by simp⟩
  | true =>
    simp only [if_true]
    cases hr : applySetting w.db key (GoAny.str f) with
    | mk db err =>
      cases err with
      | none => exact ⟨[Output.setVariable key (GoAny.str f)], by simp [driftReport], by simp⟩
      | some e =>
        exact ⟨[Output.failedToSet e, Output.setVariable key (GoAny.str f)],
          by simp [driftReport], by simp⟩

/-- Every round only appends to the output, and a report it appends is for its own key. -/
theorem diffStep_out (sv : GoMap GoAny) (a : Bool) (w : World) (key : String) (val : GoAny) :
    ∃ ext, (diffStep sv a w key val).out = w.out ++ ext ∧
      ∀ k, Output.differenceFound k ∈ ext → k = key := by
  unfold diffStep
  cases lookupString sv key with
  | mk serverValue keyExists =>
    simp only []
    split_ifs
    · exact ⟨[Output.notFound key], rfl, by simp⟩
    · exact ⟨[], by simp, by simp⟩
    · exact ⟨[], by simp, by simp⟩
    · exact ⟨[], by simp, by simp⟩
    · exact ⟨[], by simp, by simp⟩
    · cases hr : applySetting
          { w with out := w.out ++
            [Output.differenceFound key, Output.myCnf val, Output.mysqld serverValue] }.db
          key val with
      | mk db err =>
        cases err with
        | none =>
          exact ⟨[Output.differenceFound key, Output.myCnf val, Output.mysqld serverValue,
            Output.setVariable key val], by simp, by simp⟩
        | some e =>
          exact ⟨[Output.differenceFound key, Output.myCnf val, Output.mysqld serverValue,
            Output.failedToSet e, Output.setVariable key val], by simp, by simp⟩
    · exact ⟨[Output.differenceFound key, Output.myCnf val, Output.mysqld serverValue],
        by simp, by simp⟩

theorem diffFold_count_not_mem (sv : GoMap GoAny) (a : Bool) (k : String) :
    ∀ (l : List (Σ _ : String, GoAny)) (w : World), k ∉ l.keys →
      (l.foldl (fun w kv => diffStep sv a w kv.1 kv.2) w).out.count
          (Output.differenceFound k) =
        w.out.count (Output.differenceFound k) := by
  intro l
  induction l with
  | nil => intro w _; rfl
  | cons e t ih =>
    intro w hk
    obtain ⟨key, val⟩ := e
    have hne : k ≠ key := fun h => hk (by simp [List.keys, h])
    have hkt : k ∉ t.keys := fun h => hk (by simp [List.keys] at h ⊢; exact Or.inr h)
    rw [List.foldl_cons, ih _ hkt]
    obtain ⟨ext, hext, hmem⟩ := diffStep_out sv a w key val
    rw [hext, List.count_append]
    have : ext.count (Output.differenceFound k) = 0 :=
      List.count_eq_zero.mpr (fun h => hne (hmem k h))
    omega

theorem diffFold_out_extends (sv : GoMap GoAny) (a : Bool) :
    ∀ (l : List (Σ _ : String, GoAny)) (w : World),
      ∃ ext, (l.foldl (fun w kv => diffStep sv a w kv.1 kv.2) w).out = w.out ++ ext := by
  intro l
  induction l with
  | nil => intro w; exact ⟨[], by simp⟩
  | cons e t ih =>
    intro w
    obtain ⟨ext1, h1, _⟩ := diffStep_out sv a w e.1 e.2
    obtain ⟨ext2, h2⟩ := ih (diffStep sv a w e.1 e.2)
    exact ⟨ext1 ++ ext2, by rw [List.foldl_cons, h2, h1, List.append_assoc]⟩

/-- The entry list of a map splits around the entry of a key it holds, and the key occurs
nowhere else. -/
theorem entries_split {V : Type} (m : GoMap V) (k : String) (b : V)
    (h : m.lookup k = some b) :
    ∃ l1 l2, m.entries = l1 ++ ⟨k, b⟩ :: l2 ∧ k ∉ l1.keys ∧ k ∉ l2.keys := by
  have hmem : (⟨k, b⟩ : Σ _ : String, V) ∈ m.entries :=
    AList.mem_lookup_iff.mp (by rw [h]; exact rfl)
  obtain ⟨l1, l2, hl⟩ := List.append_of_mem hmem
  have nd : (m.entries.map Sigma.fst).Nodup := m.nodupKeys
  rw [hl, List.map_append, List.map_cons] at nd
  have nd2 := List.nodup_middle.mp nd
  have hnot := (List.nodup_cons.mp nd2).1
  refine ⟨l1, l2, hl, ?_, ?_⟩
  · intro hk
    exact hnot (List.mem_append_left _ hk)
  · intro hk
    exact hnot (List.mem_append_right _ hk)

/-! ## The properties -/

/-- C1. Diff equivalence in `mysqlConfDiff`: for a key held by both maps, with file value
`f` and live value `l`, no `Difference found` report is written for the key if and only if
`f = l`, or `f = "1"` and `l = "ON"`, or `f = "0"` and `l = "OFF"`, or `l = f ++ "/"`; in
every other case exactly one report is written, carrying the key, `f` as the `my.cnf`
value and `l` as the `mysqld` value. -/
theorem mysqlConfDiff_report_iff_not_equivalent (db : dbConn)
    (confOptions serverVariables : GoMap GoAny) (applyTheChanges : Bool) (key f l : String)
    (hf : confOptions.lookup key = some (GoAny.str f))
    (hl : serverVariables.lookup key = some (GoAny.str l)) :
    ((mysqlConfDiff db confOptions serverVariables applyTheChanges).out.count
        (Output.differenceFound key) = 0 ↔ valuesEquivalent f l) ∧
    (¬ valuesEquivalent f l →
      (mysqlConfDiff db confOptions serverVariables applyTheChanges).out.count
        (Output.differenceFound key) = 1 ∧
      driftReport key f l <:+:
        (mysqlConfDiff db confOptions serverVariables applyTheChanges).out) := by
  obtain ⟨l1, l2, hs, hk1, hk2⟩ := entries_split confOptions key (GoAny.str f) hf
  unfold mysqlConfDiff
  rw [hs, List.foldl_append, List.foldl_cons]
  generalize hw : List.foldl (fun w kv => diffStep serverVariables applyTheChanges w kv.1 kv.2)
    { db := db, out := [] } l1 = w1
  have c1 : w1.out.count (Output.differenceFound key) = 0 := by
    rw [← hw, diffFold_count_not_mem serverVariables applyTheChanges key l1 _ hk1]
    rfl
  by_cases he : valuesEquivalent f l
  · have hstep := diffStep_equivalent serverVariables applyTheChanges w1 key f l hl he
    simp only [hstep]
    rw [diffFold_count_not_mem serverVariables applyTheChanges key l2 _ hk2]
    exact ⟨⟨fun _ => he, fun _ => c1⟩, fun hn => absurd he hn⟩
  · obtain ⟨rest, hrest, hnone⟩ := diffStep_drift serverVariables applyTheChanges w1 key f l hl he
    have c2 : (diffStep serverVariables applyTheChanges w1 key (GoAny.str f)).out.count
        (Output.differenceFound key) = 1 := by
      rw [hrest, List.count_append, List.count_append, c1,
        List.count_eq_zero.mpr (hnone key)]
      simp [driftReport]
    obtain ⟨ext, hext⟩ := diffFold_out_extends serverVariables applyTheChanges l2
      (diffStep serverVariables applyTheChanges w1 key (GoAny.str f))
    have hcount := diffFold_count_not_mem serverVariables applyTheChanges key l2
      (diffStep serverVariables applyTheChanges w1 key (GoAny.str f)) hk2
    simp only [] at hcount hext ⊢
    refine ⟨?_, fun _ => ⟨?_, ?_⟩⟩
    · rw [hcount, c2]
      exact ⟨fun h => absurd h (by decide), fun h => absurd h he⟩
    · rw [hcount, c2]
    · rw [hext, hrest]
      exact ⟨w1.out, rest ++ ext, by simp [List.append_assoc]⟩

/-- The pairs of the test-suite: `value1` against a live `value2` drifts, while `1`
against `ON`, `0` against `OFF` and `/my/dir` against `/my/dir/` give no report. -/
theorem mysqlConfDiff_report_iff_not_equivalent_witness :
    ((mysqlConfDiff okConn (GoMap.ofList [("key1", GoAny.str "value1")])
          (GoMap.ofList [("key1", GoAny.str "value2")]) false).out.count
        (Output.differenceFound "key1") = 1 ∧
      driftReport "key1" "value1" "value2" <:+:
        (mysqlConfDiff okConn (GoMap.ofList [("key1", GoAny.str "value1")])
          (GoMap.ofList [("key1", GoAny.str "value2")]) false).out) ∧
    (mysqlConfDiff okConn (GoMap.ofList [("key1", GoAny.str "1")])
        (GoMap.ofList [("key1", GoAny.str "ON")]) true).out.count
      (Output.differenceFound "key1") = 0 ∧
    (mysqlConfDiff okConn (GoMap.ofList [("key1", GoAny.str "0")])
        (GoMap.ofList [("key1", GoAny.str "OFF")]) true).out.count
      (Output.differenceFound "key1") = 0 ∧
    (mysqlConfDiff okConn (GoMap.ofList [("key1", GoAny.str "/my/dir")])
        (GoMap.ofList [("key1", GoAny.str "/my/dir/")]) true).out.count
      (Output.differenceFound "key1") = 0 :=
  ⟨(mysqlConfDiff_report_iff_not_equivalent okConn
      (GoMap.ofList [("key1", GoAny.str "value1")])
      (GoMap.ofList [("key1", GoAny.str "value2")]) false "key1" "value1" "value2"
      (by decide) (by decide)).2 (by decide),
    (mysqlConfDiff_report_iff_not_equivalent okConn (GoMap.ofList [("key1", GoAny.str "1")])
      (GoMap.ofList [("key1", GoAny.str "ON")]) true "key1" "1" "ON"
      (by decide) (by decide)).1.mpr (by decide),
    (mysqlConfDiff_report_iff_not_equivalent okConn (GoMap.ofList [("key1", GoAny.str "0")])
      (GoMap.ofList [("key1", GoAny.str "OFF")]) true "key1" "0" "OFF"
      (by decide) (by decide)).1.mpr (by decide),
    (mysqlConfDiff_report_iff_not_equivalent okConn
      (GoMap.ofList [("key1", GoAny.str "/my/dir")])
      (GoMap.ofList [("key1", GoAny.str "/my/dir/")]) true "key1" "/my/dir" "/my/dir/"
      (by decide) (by decide)).1.mpr (by decide)⟩

/-- C2. `ComposeForVersion` is last-matching-section-wins: the key set of the result is the
union of the key sets of the sections selected by `isOptionBlockMatch`, and a key defined
by a selected section that no later selected section redefines is mapped to `normalize`
of that section's value. -/
theorem ComposeForVersion_last_section_wins (c : MySQLConfig) (v : MySQLVersion) :
    (∀ k : String, k ∈ ComposeForVersion c v ↔
      ∃ t ∈ c.sectionTitles, isOptionBlockMatch v t = true ∧ k ∈ c.cfg t) ∧
    (∀ (k val : String) (before after : List String) (t : String),
      c.sectionTitles = before ++ t :: after →
      isOptionBlockMatch v t = true →
      (c.cfg t).lookup k = some val →
      (∀ u ∈ after, isOptionBlockMatch v u = true → k ∉ c.cfg u) →
      (ComposeForVersion c v).lookup k = some (GoAny.str (normalize val))) := by
  constructor
  · intro k
    unfold ComposeForVersion
    rw [composeStep_mem c v k c.sectionTitles ∅]
    simp [AList.not_mem_empty]
  · intro k val before after t hs hm hv hl
    exact compose_lookup_last c v k val before after t hs hm hv hl

/-- An overlay declared after `[mysqld]` overrides it, and a `[mysqld]` declared after the
overlay overrides the overlay. -/
theorem ComposeForVersion_last_section_wins_witness :
    (ComposeForVersion docBaseFirst ⟨5, 7, 34⟩).lookup "key1" =
        some (GoAny.str (normalize "value57")) ∧
      (ComposeForVersion docOverlayFirst ⟨5, 7, 34⟩).lookup "key1" =
        some (GoAny.str (normalize "value1")) :=
  ⟨(ComposeForVersion_last_section_wins docBaseFirst ⟨5, 7, 34⟩).2 "key1" "value57"
      ["DEFAULT", "mysqld"] ["mysqld-8.0"] "mysqld-5.7" rfl (by decide) (by decide) (by decide),
    (ComposeForVersion_last_section_wins docOverlayFirst ⟨5, 7, 34⟩).2 "key1" "value1"
      ["DEFAULT", "mysqld-5.7"] [] "mysqld" rfl (by decide) (by decide) (by decide)⟩

/-- C3 fails as stated: with `[mysqld]` declared after `[mysqld-5.7]` the effective map for
5.7.34 carries the base value, and when the two sections spell one setting differently
the base spelling keeps the base value. -/
theorem overlayOverridesBase_counterexample :
    ¬ overlayOverridesBase docOverlayFirst ⟨5, 7, 34⟩ ∧
      ¬ overlayOverridesBase docTwoSpellings ⟨5, 7, 34⟩ := by
  constructor
  · intro h
    have := h (by decide) (by decide) "key1" "value1" "key1" "value57" (by decide) (by decide)
      rfl "key1" (GoAny.str "value1") (by decide) rfl
    exact absurd this (by decide)
  · intro h
    have := h (by decide) (by decide) "max-connections" "100" "max_connections" "200"
      (by decide) (by decide) (by decide) "max-connections" (GoAny.str "100") (by decide)
      (by decide)
    exact absurd this (by decide)

/-- C3, amended. A version overlay declared after the base section overrides it: when the
section titles are distinct and the `mysqld-M.m` section of the version follows the
`mysqld` section, every key the overlay defines is mapped, under the overlay's spelling, to
`normalize` of the overlay's value. -/
theorem overlay_declared_after_base_overrides (c : MySQLConfig) (v : MySQLVersion)
    (k vo : String) (before after : List String)
    (hn : c.sectionTitles.Nodup)
    (hs : c.sectionTitles = before ++ versionTitle v.Major v.Minor :: after)
    (hb : "mysqld" ∈ before)
    (hv : (c.cfg (versionTitle v.Major v.Minor)).lookup k = some vo) :
    (ComposeForVersion c v).lookup k = some (GoAny.str (normalize vo)) := by
  rw [hs] at hn
  have hmid := List.nodup_middle.mp hn
  have hnot : versionTitle v.Major v.Minor ∉ before ++ after := (List.nodup_cons.mp hmid).1
  have hdis : ∀ u ∈ after, u ∉ before := by
    intro u hu hub
    have := (List.nodup_append.mp (List.nodup_cons.mp hmid).2).2.2
    exact this hub hu
  apply compose_lookup_last c v k vo before after _ hs
  · simp [isOptionBlockMatch]
  · exact hv
  · intro u hu hm
    exfalso
    unfold isOptionBlockMatch at hm
    by_cases h1 : u = "mysqld"
    · exact hdis u hu (h1 ▸ hb)
    · by_cases h2 : u = versionTitle v.Major v.Minor
      · exact hnot (List.mem_append_right _ (h2 ▸ hu))
      · simp [h1, h2] at hm

/-- The document of the test-suite, read for 5.7.34 and for 8.0.28. -/
theorem overlay_declared_after_base_overrides_witness :
    (ComposeForVersion docBaseFirst ⟨5, 7, 34⟩).lookup "key1" =
        some (GoAny.str (normalize "value57")) ∧
      (ComposeForVersion docBaseFirst ⟨8, 0, 28⟩).lookup "key1" =
        some (GoAny.str (normalize "value80")) ∧
      (ComposeForVersion docBaseFirst ⟨5, 7, 34⟩).entries = [⟨"key1", GoAny.str "value57"⟩] ∧
      (ComposeForVersion docBaseFirst ⟨8, 0, 28⟩).entries = [⟨"key1", GoAny.str "value80"⟩] :=
  ⟨overlay_declared_after_base_overrides docBaseFirst ⟨5, 7, 34⟩ "key1" "value57"
      ["DEFAULT", "mysqld"] ["mysqld-8.0"] (by decide) (by decide) (by decide) (by decide),
    overlay_declared_after_base_overrides docBaseFirst ⟨8, 0, 28⟩ "key1" "value80"
      ["DEFAULT", "mysqld", "mysqld-5.7"] [] (by decide) (by decide) (by decide) (by decide),
    by decide, by decide⟩

/-- C4. Section selection: `isOptionBlockMatch(v, t)` holds if and only if `t` is
`"mysqld"` or `"mysqld-" ++ decimal(M) ++ "." ++ decimal(m)`; the result does not depend on
the patch component, and for every pair `(X, Y)` different from `(M, m)` the title
`"mysqld-X.Y"` is not matched. -/
theorem isOptionBlockMatch_iff_title :
    (∀ (v : MySQLVersion) (t : String), isOptionBlockMatch v t = true ↔
      (t = "mysqld" ∨
        t = "mysqld-" ++ strconv.FormatInt v.Major ++ "." ++ strconv.FormatInt v.Minor)) ∧
    (∀ (M m p q : Int) (t : String),
      isOptionBlockMatch ⟨M, m, p⟩ t = isOptionBlockMatch ⟨M, m, q⟩ t) ∧
    (∀ (v : MySQLVersion) (X Y : Int), (X, Y) ≠ (v.Major, v.Minor) →
      isOptionBlockMatch v
        ("mysqld-" ++ strconv.FormatInt X ++ "." ++ strconv.FormatInt Y) = false) := by
  refine ⟨?_, ?_, ?_⟩
  · intro v t
    unfold isOptionBlockMatch
    by_cases h1 : t = "mysqld"
    · simp [h1]
    · by_cases h2 : t = versionTitle v.Major v.Minor
      · rw [if_neg h1, if_pos h2]
        exact ⟨fun _ => Or.inr h2, fun _ => rfl⟩
      · rw [if_neg h1, if_neg h2]
        exact ⟨fun h => absurd h (by decide), fun h => h.elim (absurd · h1) (absurd · h2)⟩
  · intro M m p q t
    rfl
  · intro v X Y hne
    have h1 : versionTitle X Y ≠ "mysqld" := versionTitle_ne_mysqld X Y
    have h2 : versionTitle X Y ≠ versionTitle v.Major v.Minor := by
      intro e
      obtain ⟨e1, e2⟩ := versionTitle_injective _ _ _ _ e
      exact hne (by rw [e1, e2])
    show isOptionBlockMatch v (versionTitle X Y) = false
    unfold isOptionBlockMatch
    rw [if_neg h1, if_neg h2]

/-- The titles of the test-suite for the version 5.7.34. -/
theorem isOptionBlockMatch_iff_title_witness :
    isOptionBlockMatch ⟨5, 7, 34⟩
        ("mysqld-" ++ strconv.FormatInt 8 ++ "." ++ strconv.FormatInt 0) = false ∧
      isOptionBlockMatch ⟨5, 7, 34⟩ "mysqld-5.7" = true ∧
      isOptionBlockMatch ⟨5, 7, 34⟩ "mysqld" = true :=
  ⟨isOptionBlockMatch_iff_title.2.2 ⟨5, 7, 34⟩ 8 0 (by decide),
    (isOptionBlockMatch_iff_title.1 ⟨5, 7, 34⟩ "mysqld-5.7").mpr (Or.inr (by decide)),
    (isOptionBlockMatch_iff_title.1 ⟨5, 7, 34⟩ "mysqld").mpr (Or.inl rfl)⟩

/-- C5. For every document whose only section besides the implicit default section is
named `mysqld`, `ComposeForVersion` gives the same map for every two versions. -/
theorem ComposeForVersion_mysqld_only (c : MySQLConfig) (v1 v2 : MySQLVersion)
    (h : ∀ t ∈ c.sectionTitles, t = "DEFAULT" ∨ t = "mysqld") :
    ComposeForVersion c v1 = ComposeForVersion c v2 := by
  unfold ComposeForVersion
  apply List.foldl_ext
  intro acc t ht
  rcases h t ht with rfl | rfl
  · rw [isOptionBlockMatch_default, isOptionBlockMatch_default]
  · rfl

/-- A base-only document read for 5.7.34 and for 8.0.28. -/
theorem ComposeForVersion_mysqld_only_witness :
    (∀ t ∈ docBaseOnly.sectionTitles, t = "DEFAULT" ∨ t = "mysqld") ∧
      ComposeForVersion docBaseOnly ⟨5, 7, 34⟩ = ComposeForVersion docBaseOnly ⟨8, 0, 28⟩ :=
  ⟨by decide, ComposeForVersion_mysqld_only docBaseOnly ⟨5, 7, 34⟩ ⟨8, 0, 28⟩ (by decide)⟩

/-- C6. Size-literal normalization: for every integer `n` and every suffix among `K`, `M`,
`G`, `T` with multiplier `1024`, `1024^2`, `1024^3`, `1024^4`, such that `n` and
`n * multiplier` fit in a signed 64-bit integer,
`normalize(decimal(n) ++ suffix) = decimal(n * multiplier)`. -/
theorem normalize_size_literal (n : Int) (suffix : String) (multiplier : Int)
    (hs : (suffix, multiplier) ∈ sizeSuffixTable)
    (hn : fitsInt64 n) (hp : fitsInt64 (n * multiplier)) :
    normalize (strconv.FormatInt n ++ suffix) = strconv.FormatInt (n * multiplier) := by
  simp only [sizeSuffixTable, List.mem_cons, Prod.mk.injEq, List.mem_nil_iff, or_false] at hs
  rcases hs with ⟨rfl, rfl⟩ | ⟨rfl, rfl⟩ | ⟨rfl, rfl⟩ | ⟨rfl, rfl⟩
  · exact normalize_size n 'K' _ (Or.inl rfl) (by decide) hn hp
  · exact normalize_size n 'M' _ (Or.inr (Or.inl rfl)) (by decide) hn hp
  · exact normalize_size n 'G' _ (Or.inr (Or.inr (Or.inl rfl))) (by decide) hn hp
  · exact normalize_size n 'T' _ (Or.inr (Or.inr (Or.inr rfl))) (by decide) hn hp

/-- The literals of the test-suite: `1K`, `5M`, `1G`, `1T`. -/
theorem normalize_size_literal_witness :
    normalize "1K" = "1024" ∧ normalize "5M" = "5242880" ∧
      normalize "1G" = "1073741824" ∧ normalize "1T" = "1099511627776" := by
  have hK := normalize_size_literal 1 "K" (1024 ^ 1) (by decide) (by decide) (by decide)
  have hM := normalize_size_literal 5 "M" (1024 ^ 2) (by decide) (by decide) (by decide)
  have hG := normalize_size_literal 1 "G" (1024 ^ 3) (by decide) (by decide) (by decide)
  have hT := normalize_size_literal 1 "T" (1024 ^ 4) (by decide) (by decide) (by decide)
  rw [show strconv.FormatInt 1 ++ "K" = "1K" by decide,
    show strconv.FormatInt (1 * 1024 ^ 1) = "1024" by decide] at hK
  rw [show strconv.FormatInt 5 ++ "M" = "5M" by decide,
    show strconv.FormatInt (5 * 1024 ^ 2) = "5242880" by decide] at hM
  rw [show strconv.FormatInt 1 ++ "G" = "1G" by decide,
    show strconv.FormatInt (1 * 1024 ^ 3) = "1073741824" by decide] at hG
  rw [show strconv.FormatInt 1 ++ "T" = "1T" by decide,
    show strconv.FormatInt (1 * 1024 ^ 4) = "1099511627776" by decide] at hT
  exact ⟨hK, hM, hG, hT⟩

/-- C7. `normalize` is the identity on everything that is not a size literal: on the empty
string, on every string that does not end in one of the letters `K`, `M`, `G`, `T`, and on
every string whose text before the final letter is not a base-10 integer. -/
theorem normalize_identity_off_size_literals (x : String)
    (h : x = "" ∨ noSizeSuffix x ∨ isBase10Integer (strings.dropLastByte x) = false) :
    normalize x = x := by
  rcases h with rfl | h | h
  · rfl
  · exact normalize_of_noSizeSuffix x h
  · obtain ⟨e, he⟩ := ParseInt_error _ h
    exact normalize_of_parse_error x e he

/-- The unchanged values of the test-suite. -/
theorem normalize_identity_off_size_literals_witness :
    normalize "1GK" = "1GK" ∧ normalize "K" = "K" ∧ normalize "1024" = "1024" ∧
      normalize "string-value" = "string-value" ∧
      normalize "string-valueG" = "string-valueG" ∧ normalize "" = "" :=
  ⟨normalize_identity_off_size_literals "1GK" (Or.inr (Or.inr (by decide))),
    normalize_identity_off_size_literals "K" (Or.inr (Or.inr (by decide))),
    normalize_identity_off_size_literals "1024" (Or.inr (Or.inl (by decide))),
    normalize_identity_off_size_literals "string-value" (Or.inr (Or.inl (by decide))),
    normalize_identity_off_size_literals "string-valueG" (Or.inr (Or.inr (by decide))),
    normalize_identity_off_size_literals "" (Or.inl rfl)⟩

/-- C8. `normalize` is idempotent: `normalize(normalize(x)) = normalize(x)` for every
string `x`. -/
theorem normalize_idempotent (x : String) : normalize (normalize x) = normalize x := by
  rcases normalize_cases x with h | ⟨y, h⟩
  · rw [h, h]
  · rw [h, normalize_formatInt]

/-- C9 fails on the code: `normalize` only hands a value to `normalizeDataSize` when it
ends in an upper-case `K`, `M`, `G` or `T`, so `1k` and `5m` come back unchanged, although
`normalizeDataSize` itself upper-cases the suffix and turns them into `1024` and
`5242880`. -/
theorem normalize_lower_case_suffix_unchanged :
    normalize "1k" = "1k" ∧ normalize "5m" = "5m" ∧
      normalize "1K" = "1024" ∧ normalize "5M" = "5242880" ∧
      normalizeDataSize "1k" = .ok "1024" ∧ normalizeDataSize "5m" = .ok "5242880" := by
  decide

/-- C10. Key canonicalization: for every string `k`, `GetVariableKeyFrom(k)` is `k`
upper-cased (rune by rune, by `unicode.ToUpper`, also outside ASCII) with every `-`
replaced by `_`; it is idempotent, and it maps `key-test1`, `KEY_TEST1` and `key_test1`
all to `KEY_TEST1`, and `my-option-name` to `MY_OPTION_NAME`.  Outside ASCII,
`café-size` goes to `CAFÉ_SIZE` and `ſtart` to `START`. -/
theorem GetVariableKeyFrom_canonical :
    (∀ k : String, GetVariableKeyFrom k = canonicalForm k) ∧
    (∀ k : String, GetVariableKeyFrom (GetVariableKeyFrom k) = GetVariableKeyFrom k) ∧
    GetVariableKeyFrom "key-test1" = "KEY_TEST1" ∧
    GetVariableKeyFrom "KEY_TEST1" = "KEY_TEST1" ∧
    GetVariableKeyFrom "key_test1" = "KEY_TEST1" ∧
    GetVariableKeyFrom "my-option-name" = "MY_OPTION_NAME" ∧
    GetVariableKeyFrom "café-size" = "CAFÉ_SIZE" ∧
    GetVariableKeyFrom "ſtart" = "START" := by
  refine ⟨GetVariableKeyFrom_eq, ?_, by decide, by decide, by decide, by decide, by decide,
    by decide⟩
  intro k
  rw [GetVariableKeyFrom_eq, GetVariableKeyFrom_eq, canonicalForm_idem]

/-! ## Lemmas on `strings.Split`, `strings.Contains` and `strings.Join` -/

theorem splitLoop_single (c : Char) : ∀ (l cur : List Char),
    strings.splitLoop [c] l cur 0 = List.splitOnP.go (fun x => x == c) l cur := by
  intro l
  induction l with
  | nil => intro cur; rfl
  | cons x xs ih =>
    intro cur
    by_cases h : x = c
    · subst h
      simp [strings.splitLoop, List.splitOnP.go, List.isPrefixOf, ih]
    · have h2 : ¬ c = x := fun e => h e.symm
      simp [strings.splitLoop, List.splitOnP.go, List.isPrefixOf, ih, h, h2]

/-- Splitting on a one-character separator is `List.splitOn` on the runes. -/
theorem Split_single (s : String) (c : Char) :
    strings.Split s ⟨[c]⟩ = (s.data.splitOn c).map String.mk := by
  unfold strings.Split
  rw [if_neg (by simp)]
  simp only [splitLoop_single]
  rfl

theorem Contains_single (s : String) (c : Char) :
    strings.Contains s ⟨[c]⟩ = true ↔ c ∈ s.data := by
  unfold strings.Contains
  generalize s.data = l
  induction l with
  | nil => simp [List.isPrefixOf]
  | cons x xs ih =>
    rw [List.tails, List.any_cons, Bool.or_eq_true, ih]
    simp only [List.isPrefixOf, Bool.and_true, beq_iff_eq, List.mem_cons]

theorem splitOnP_head (p : Char → Bool) : ∀ l : List Char,
    (l.splitOnP p).head? = some (l.takeWhile (fun c => !p c)) := by
  intro l
  induction l with
  | nil => rfl
  | cons x xs ih =>
    rw [List.splitOnP_cons]
    by_cases h : p x = true
    · simp [h, List.takeWhile]
    · simp only [Bool.not_eq_true] at h
      cases hs : List.splitOnP p xs with
      | nil => exact absurd hs (List.splitOnP_ne_nil p xs)
      | cons y ys =>
        rw [hs] at ih
        simp only [List.head?_cons, Option.some.injEq] at ih
        simp [h, List.takeWhile, ih]

theorem splitOnP_go_mem (p : Char → Bool) : ∀ (l acc part : List Char),
    part ∈ List.splitOnP.go p l acc → ∀ x ∈ part, x ∈ acc ∨ x ∈ l := by
  intro l
  induction l with
  | nil =>
    intro acc part h x hx
    simp only [List.splitOnP.go, List.mem_singleton] at h
    subst h
    exact Or.inl (List.mem_reverse.mp hx)
  | cons a t ih =>
    intro acc part h x hx
    simp only [List.splitOnP.go] at h
    by_cases hp : p a = true
    · simp only [hp, if_true, List.mem_cons] at h
      rcases h with h | h
      · subst h
        exact Or.inl (List.mem_reverse.mp hx)
      · rcases ih [] part h x hx with h1 | h1
        · simp at h1
        · exact Or.inr (List.mem_cons_of_mem _ h1)
    · simp only [hp, if_false, Bool.false_eq_true] at h
      rcases ih (a :: acc) part h x hx with h1 | h1
      · rcases List.mem_cons.mp h1 with h2 | h2
        · exact Or.inr (h2 ▸ List.mem_cons_self _ _)
        · exact Or.inl h2
      · exact Or.inr (List.mem_cons_of_mem _ h1)

/-- Every rune of a piece of a split text is a rune of the text. -/
theorem splitOn_mem (c : Char) (l part : List Char) (h : part ∈ l.splitOn c) :
    ∀ x ∈ part, x ∈ l := by
  intro x hx
  rcases splitOnP_go_mem (fun y => y == c) l [] part h x hx with h1 | h1
  · simp at h1
  · exact h1

theorem takeWhile_ne_mem (c : Char) : ∀ l : List Char,
    ∀ x ∈ l.takeWhile (fun y => y ≠ c), x ≠ c := by
  intro l x hx
  have := List.mem_takeWhile_imp hx
  simpa using this

theorem takeWhile_ne_of_not_mem (c : Char) : ∀ l : List Char, c ∉ l →
    l.takeWhile (fun y => y ≠ c) = l := by
  intro l h
  apply List.takeWhile_eq_self_iff.mpr
  intro x hx
  have : x ≠ c := fun e => h (e ▸ hx)
  simpa using this

theorem takeWhile_ne_append (c : Char) : ∀ l t : List Char, c ∉ l →
    (l ++ c :: t).takeWhile (fun y => y ≠ c) = l := by
  intro l
  induction l with
  | nil => intro t _; simp [List.takeWhile]
  | cons x xs ih =>
    intro t h
    have hx : x ≠ c := fun e => h (e ▸ List.mem_cons_self _ _)
    have hxs : c ∉ xs := fun m => h (List.mem_cons_of_mem _ m)
    have := ih t hxs
    simpa [List.takeWhile, hx] using this

/-- The text `ParseVersion` splits on `.` is the text before the first `-`. -/
theorem dashCut_eq (version : String) :
    (if strings.Contains version "-" then (strings.Split version "-").headD ""
      else version) = beforeFirstDash version := by
  have e : ("-" : String) = ⟨['-']⟩ := rfl
  by_cases h : strings.Contains version "-" = true
  · rw [if_pos h, e, Split_single]
    have hh := splitOnP_head (fun x => x == '-') version.data
    cases hs : List.splitOn '-' version.data with
    | nil => exact absurd hs (List.splitOnP_ne_nil _ _)
    | cons y ys =>
      have hs2 : List.splitOnP (fun x => x == '-') version.data = y :: ys := hs
      rw [hs2] at hh
      simp only [List.head?_cons, Option.some.injEq] at hh
      simp only [List.map_cons, List.headD_cons, beforeFirstDash]
      congr 1
      rw [hh]
      congr 1
      funext c
      by_cases hc : c = '-' <;> simp [hc]
  · rw [if_neg h]
    rw [e, Contains_single] at h
    apply String.ext
    simp only [beforeFirstDash]
    exact (takeWhile_ne_of_not_mem '-' _ h).symm

/-- `ParseVersion` in terms of the specified parts. -/
theorem ParseVersion_eq (s : String) :
    ParseVersion s =
      match versionParts s with
      | [part0, part1, part2] =>
        match strconv.Atoi part0 with
        | .error err => .error (.invalidMajor err)
        | .ok major =>
          match strconv.Atoi part1 with
          | .error err => .error (.invalidMinor err)
          | .ok minor =>
            match strconv.Atoi part2 with
            | .error err => .error (.invalidPatch err)
            | .ok patch => .ok { Major := major, Minor := minor, Patch := patch }
      | _ => .error .invalidFormat := by
  have e : (".": String) = ⟨['.']⟩ := rfl
  unfold ParseVersion versionParts dotParts
  simp only [dashCut_eq, e, Split_single]

/-! ## Lemmas on `ParseVersion` -/

theorem formatUint_no_dash_dot (n : Nat) :
    '-' ∉ strconv.formatUint n ∧ '.' ∉ strconv.formatUint n := by
  constructor
  · intro hmem
    obtain ⟨d, hd, hc⟩ := formatUint_mem _ _ hmem
    exact (digitChar_ne_sign d hd).2.1 hc.symm
  · intro hmem
    obtain ⟨d, hd, hc⟩ := formatUint_mem _ _ hmem
    exact (digitChar_ne_sign d hd).2.2 hc.symm

theorem FormatInt_nonneg_data (x : Int) (h : 0 ≤ x) :
    (strconv.FormatInt x).data = strconv.formatUint x.natAbs := by
  unfold strconv.FormatInt
  rw [if_neg (by omega)]

theorem beforeFirstDash_of_not_mem (s : String) (h : '-' ∉ s.data) :
    beforeFirstDash s = s := by
  apply String.ext
  exact takeWhile_ne_of_not_mem '-' _ h

theorem beforeFirstDash_append (s t : String) (h : '-' ∉ s.data) :
    beforeFirstDash (s ++ "-" ++ t) = s := by
  apply String.ext
  have e : (s ++ "-" ++ t).data = s.data ++ '-' :: t.data := by
    simp [String.data_append]
  simp only [beforeFirstDash, e]
  exact takeWhile_ne_append '-' _ _ h

/-- Everything from the first `-` on is ignored. -/
theorem ParseVersion_ignores_suffix (s t : String) (h : '-' ∉ s.data) :
    ParseVersion (s ++ "-" ++ t) = ParseVersion s := by
  rw [ParseVersion_eq, ParseVersion_eq, versionParts, versionParts,
    beforeFirstDash_append s t h, beforeFirstDash_of_not_mem s h]

/-- The text `M.m.p` for three non-negative numbers. -/
theorem versionText_data (M m p : Int) (hM : 0 ≤ M) (hm : 0 ≤ m) (hp : 0 ≤ p) :
    (strconv.FormatInt M ++ "." ++ strconv.FormatInt m ++ "." ++ strconv.FormatInt p).data =
      strconv.formatUint M.natAbs ++
        '.' :: (strconv.formatUint m.natAbs ++ '.' :: strconv.formatUint p.natAbs) := by
  simp [String.data_append, FormatInt_nonneg_data _ hM, FormatInt_nonneg_data _ hm,
    FormatInt_nonneg_data _ hp]

theorem versionText_no_dash (M m p : Int) (hM : 0 ≤ M) (hm : 0 ≤ m) (hp : 0 ≤ p) :
    '-' ∉ (strconv.FormatInt M ++ "." ++ strconv.FormatInt m ++ "." ++
      strconv.FormatInt p).data := by
  rw [versionText_data M m p hM hm hp]
  intro hmem
  simp only [List.mem_append, List.mem_cons] at hmem
  rcases hmem with h | h | h | h | h
  · exact (formatUint_no_dash_dot _).1 h
  · exact absurd h (by decide)
  · exact (formatUint_no_dash_dot _).1 h
  · exact absurd h (by decide)
  · exact (formatUint_no_dash_dot _).1 h

theorem versionText_parts (M m p : Int) (hM : 0 ≤ M) (hm : 0 ≤ m) (hp : 0 ≤ p) :
    versionParts (strconv.FormatInt M ++ "." ++ strconv.FormatInt m ++ "." ++
        strconv.FormatInt p) =
      [strconv.FormatInt M, strconv.FormatInt m, strconv.FormatInt p] := by
  rw [versionParts, beforeFirstDash_of_not_mem _ (versionText_no_dash M m p hM hm hp),
    dotParts, versionText_data M m p hM hm hp]
  have nd : ∀ n : Nat, ∀ x ∈ strconv.formatUint n, ¬ ((fun y => y == '.') x = true) := by
    intro n x hx hxe
    simp only [beq_iff_eq] at hxe
    exact (formatUint_no_dash_dot n).2 (hxe ▸ hx)
  have e1 : List.splitOn '.' (strconv.formatUint M.natAbs ++
      '.' :: (strconv.formatUint m.natAbs ++ '.' :: strconv.formatUint p.natAbs)) =
      [strconv.formatUint M.natAbs, strconv.formatUint m.natAbs,
        strconv.formatUint p.natAbs] := by
    unfold List.splitOn
    rw [List.splitOnP_first _ _ (nd _) '.' (by simp),
      List.splitOnP_first _ _ (nd _) '.' (by simp), List.splitOnP_eq_single _ _ (nd _)]
  rw [e1]
  simp only [List.map_cons, List.map_nil]
  rw [← FormatInt_nonneg_data _ hM, ← FormatInt_nonneg_data _ hm, ← FormatInt_nonneg_data _ hp]

theorem Atoi_FormatInt (x : Int) (h : fitsNonNegInt x) :
    strconv.Atoi (strconv.FormatInt x) = .ok x := by
  obtain ⟨h1, h2⟩ := h
  exact ParseInt_FormatInt x ⟨by omega, h2⟩

/-- A text without `-` is never parsed to a negative number. -/
theorem Atoi_nonneg (s : String) (n : Int) (hs : '-' ∉ s.data)
    (h : strconv.Atoi s = .ok n) : 0 ≤ n := by
  have key : ∀ r : Except strconv.NumError Nat, strconv.applySign false r = .ok n → 0 ≤ n := by
    intro r hr
    unfold strconv.applySign at hr
    split at hr
    · cases hr
    · cases hr
    · split at hr
      · cases hr
      · split at hr
        · cases hr
        · simp only [Bool.false_eq_true, if_false, Except.ok.injEq] at hr
          omega
  unfold strconv.Atoi strconv.ParseInt at h
  cases hd : s.data with
  | nil => rw [hd] at h; cases h
  | cons c cs =>
    rw [hd] at h hs
    have hc : c ≠ '-' := fun e => hs (e ▸ List.mem_cons_self _ _)
    simp only [hc, if_false] at h
    split at h
    · exact key _ h
    · exact key _ h

theorem versionParts_no_dash (s part : String) (h : part ∈ versionParts s) :
    '-' ∉ part.data := by
  unfold versionParts dotParts at h
  obtain ⟨l, hl, rfl⟩ := List.mem_map.mp h
  intro hmem
  have := splitOn_mem '.' _ l hl '-' hmem
  exact takeWhile_ne_mem '-' _ _ this rfl

/-! ## The properties of `ParseVersion` -/

/-- C11. `ParseVersion` round trip with the suffix discarded: for all non-negative `M`,
`m`, `p` that fit in `int` and every string `t`, `ParseVersion` of
`decimal(M) ++ "." ++ decimal(m) ++ "." ++ decimal(p)` and of the same text followed by
`"-" ++ t` both succeed with `MySQLVersion{Major: M, Minor: m, Patch: p}`; everything from
the first `-` on is ignored. -/
theorem ParseVersion_round_trip (M m p : Int) (t : String)
    (hM : fitsNonNegInt M) (hm : fitsNonNegInt m) (hp : fitsNonNegInt p) :
    ParseVersion (strconv.FormatInt M ++ "." ++ strconv.FormatInt m ++ "." ++
        strconv.FormatInt p) = .ok { Major := M, Minor := m, Patch := p } ∧
      ParseVersion (strconv.FormatInt M ++ "." ++ strconv.FormatInt m ++ "." ++
        strconv.FormatInt p ++ "-" ++ t) = .ok { Major := M, Minor := m, Patch := p } ∧
      (∀ s u : String, '-' ∉ s.data → ParseVersion (s ++ "-" ++ u) = ParseVersion s) := by
  have h1 : ParseVersion (strconv.FormatInt M ++ "." ++ strconv.FormatInt m ++ "." ++
      strconv.FormatInt p) = .ok { Major := M, Minor := m, Patch := p } := by
    rw [ParseVersion_eq, versionText_parts M m p hM.1 hm.1 hp.1]
    simp only [Atoi_FormatInt M hM, Atoi_FormatInt m hm, Atoi_FormatInt p hp]
  refine ⟨h1, ?_, ParseVersion_ignores_suffix⟩
  rw [ParseVersion_ignores_suffix _ t (versionText_no_dash M m p hM.1 hm.1 hp.1), h1]

/-- The version strings `5.7.34` and `5.7.34-log`. -/
theorem ParseVersion_round_trip_witness :
    ParseVersion "5.7.34" = .ok { Major := 5, Minor := 7, Patch := 34 } ∧
      ParseVersion "5.7.34-log" = .ok { Major := 5, Minor := 7, Patch := 34 } := by
  have h := ParseVersion_round_trip 5 7 34 "log" (by decide) (by decide) (by decide)
  rw [show strconv.FormatInt 5 ++ "." ++ strconv.FormatInt 7 ++ "." ++ strconv.FormatInt 34 =
      "5.7.34" by decide] at h
  rw [show ("5.7.34" : String) ++ "-" ++ "log" = "5.7.34-log" by decide] at h
  exact ⟨h.1, h.2.1⟩

/-- C12. `ParseVersion` fails exactly on malformed input: it returns an error if and only
if the text before the first `-` does not split on `.` into exactly three parts that each
parse as a decimal integer; with three parts the error names the first failing component in
the order major, minor, patch, and with another number of parts the error is
`invalid version format`. -/
theorem ParseVersion_error_iff_malformed (s : String) :
    ((∃ e, ParseVersion s = .error e) ↔
      ¬ ∃ a b c major minor patch, versionParts s = [a, b, c] ∧
        strconv.Atoi a = .ok major ∧ strconv.Atoi b = .ok minor ∧
        strconv.Atoi c = .ok patch) ∧
    ((versionParts s).length ≠ 3 → ParseVersion s = .error .invalidFormat) ∧
    (∀ a b c, versionParts s = [a, b, c] →
      (∀ e, strconv.Atoi a = .error e → ParseVersion s = .error (.invalidMajor e)) ∧
      (∀ major e, strconv.Atoi a = .ok major → strconv.Atoi b = .error e →
        ParseVersion s = .error (.invalidMinor e)) ∧
      (∀ major minor e, strconv.Atoi a = .ok major → strconv.Atoi b = .ok minor →
        strconv.Atoi c = .error e → ParseVersion s = .error (.invalidPatch e)) ∧
      (∀ major minor patch, strconv.Atoi a = .ok major → strconv.Atoi b = .ok minor →
        strconv.Atoi c = .ok patch →
        ParseVersion s = .ok { Major := major, Minor := minor, Patch := patch })) := by
  have three : ∀ a b c, versionParts s = [a, b, c] →
      (∀ e, strconv.Atoi a = .error e → ParseVersion s = .error (.invalidMajor e)) ∧
      (∀ major e, strconv.Atoi a = .ok major → strconv.Atoi b = .error e →
        ParseVersion s = .error (.invalidMinor e)) ∧
      (∀ major minor e, strconv.Atoi a = .ok major → strconv.Atoi b = .ok minor →
        strconv.Atoi c = .error e → ParseVersion s = .error (.invalidPatch e)) ∧
      (∀ major minor patch, strconv.Atoi a = .ok major → strconv.Atoi b = .ok minor →
        strconv.Atoi c = .ok patch →
        ParseVersion s = .ok { Major := major, Minor := minor, Patch := patch }) := by
    intro a b c hparts
    rw [ParseVersion_eq, hparts]
    refine ⟨?_, ?_, ?_, ?_⟩
    · intro e h1; simp only [h1]
    · intro major e h1 h2; simp only [h1, h2]
    · intro major minor e h1 h2 h3; simp only [h1, h2, h3]
    · intro major minor patch h1 h2 h3; simp only [h1, h2, h3]
  have other : (versionParts s).length ≠ 3 → ParseVersion s = .error .invalidFormat := by
    intro hlen
    rw [ParseVersion_eq]
    split
    · rename_i heq
      rw [heq] at hlen
      exact absurd rfl hlen
    · rfl
  refine ⟨⟨?_, ?_⟩, other, three⟩
  · rintro ⟨e, he⟩ ⟨a, b, c, major, minor, patch, hparts, h1, h2, h3⟩
    rw [(three a b c hparts).2.2.2 major minor patch h1 h2 h3] at he
    cases he
  · intro hno
    by_cases hlen : (versionParts s).length = 3
    · obtain ⟨a, b, c, hparts⟩ : ∃ a b c, versionParts s = [a, b, c] := by
        match hv : versionParts s, hlen with
        | [a, b, c], _ => exact ⟨a, b, c, rfl⟩
      obtain ⟨t1, t2, t3, t4⟩ := three a b c hparts
      cases h1 : strconv.Atoi a with
      | error e => exact ⟨_, t1 e h1⟩
      | ok major =>
        cases h2 : strconv.Atoi b with
        | error e => exact ⟨_, t2 major e h1 h2⟩
        | ok minor =>
          cases h3 : strconv.Atoi c with
          | error e => exact ⟨_, t3 major minor e h1 h2 h3⟩
          | ok patch => exact absurd ⟨a, b, c, major, minor, patch, hparts, h1, h2, h3⟩ hno
    · exact ⟨_, other hlen⟩

/-- Malformed version strings: too few parts, a part that is not a number, a text cut to
nothing by a leading `-`. -/
theorem ParseVersion_error_iff_malformed_witness :
    ParseVersion "5.7" = .error .invalidFormat ∧
      ParseVersion "-5.7.34" = .error .invalidFormat ∧
      ParseVersion "x.7.34" = .error (.invalidMajor .errSyntax) ∧
      ParseVersion "5.x.34" = .error (.invalidMinor .errSyntax) ∧
      ParseVersion "5.7.99999999999999999999" = .error (.invalidPatch .errRange) :=
  ⟨(ParseVersion_error_iff_malformed "5.7").2.1 (by decide),
    (ParseVersion_error_iff_malformed "-5.7.34").2.1 (by decide),
    ((ParseVersion_error_iff_malformed "x.7.34").2.2 "x" "7" "34" (by decide)).1
      .errSyntax (by decide),
    ((ParseVersion_error_iff_malformed "5.x.34").2.2 "5" "x" "34" (by decide)).2.1
      5 .errSyntax (by decide) (by decide),
    ((ParseVersion_error_iff_malformed "5.7.99999999999999999999").2.2 "5" "7"
      "99999999999999999999" (by decide)).2.2.1 5 7 .errRange (by decide) (by decide)
      (by decide)⟩

/-- C13. Every version `ParseVersion` accepts has non-negative components. -/
theorem ParseVersion_components_nonneg (s : String) (v : MySQLVersion)
    (h : ParseVersion s = .ok v) : 0 ≤ v.Major ∧ 0 ≤ v.Minor ∧ 0 ≤ v.Patch := by
  rw [ParseVersion_eq] at h
  split at h
  · rename_i part0 part1 part2 hparts
    have m0 : part0 ∈ versionParts s := by rw [hparts]; simp
    have m1 : part1 ∈ versionParts s := by rw [hparts]; simp
    have m2 : part2 ∈ versionParts s := by rw [hparts]; simp
    cases h0 : strconv.Atoi part0 with
    | error e => rw [h0] at h; cases h
    | ok major =>
      cases h1 : strconv.Atoi part1 with
      | error e => rw [h0, h1] at h; cases h
      | ok minor =>
        cases h2 : strconv.Atoi part2 with
        | error e => rw [h0, h1, h2] at h; cases h
        | ok patch =>
          rw [h0, h1, h2] at h
          have hv : v = { Major := major, Minor := minor, Patch := patch } :=
            (Except.ok.inj h).symm
          subst hv
          exact ⟨Atoi_nonneg part0 major (versionParts_no_dash s part0 m0) h0,
            Atoi_nonneg part1 minor (versionParts_no_dash s part1 m1) h1,
            Atoi_nonneg part2 patch (versionParts_no_dash s part2 m2) h2⟩
  · cases h

/-- The accepted string `5.7.34-log`; a component written with a minus sign is cut away
with the rest of the text and the parse fails. -/
theorem ParseVersion_components_nonneg_witness :
    ParseVersion "5.7.34-log" = .ok { Major := 5, Minor := 7, Patch := 34 } ∧
      ((0 : Int) ≤ 5 ∧ (0 : Int) ≤ 7 ∧ (0 : Int) ≤ 34) ∧
      ParseVersion "5.-7.34" = .error .invalidFormat :=
  ⟨by decide,
    ParseVersion_components_nonneg "5.7.34-log" { Major := 5, Minor := 7, Patch := 34 }
      (by decide),
    by decide⟩

/-! ## Lemmas on `clean` -/

theorem hasPrefix_single (l : List Char) (c : Char) :
    strings.HasPrefix ⟨l⟩ ⟨[c]⟩ = decide (l.head? = some c) := by
  cases l with
  | nil => simp [strings.HasPrefix, List.isPrefixOf]
  | cons x xs =>
    by_cases h : c = x
    · simp [strings.HasPrefix, List.isPrefixOf, h]
    · have h2 : ¬ x = c := fun e => h e.symm
      simp [strings.HasPrefix, List.isPrefixOf, h, h2]

theorem hasSuffix_single (l : List Char) (c : Char) :
    strings.HasSuffix ⟨l⟩ ⟨[c]⟩ = decide (l.getLast? = some c) := by
  rcases List.eq_nil_or_concat l with rfl | ⟨t, x, rfl⟩
  · simp [strings.HasSuffix, List.isSuffixOf, List.isPrefixOf]
  · rw [List.concat_eq_append, hasSuffix_snoc]
    by_cases h : c = x
    · simp [h]
    · have h2 : ¬ x = c := fun e => h e.symm
      simp [h, h2]

theorem dropWhile_eq_nil_iff_all (p : Char → Bool) : ∀ l : List Char,
    l.dropWhile p = [] ↔ l.all p = true := by
  intro l
  induction l with
  | nil => simp
  | cons x xs ih =>
    by_cases h : p x = true
    · simp [List.dropWhile, h, ih]
    · simp only [Bool.not_eq_true] at h
      simp [List.dropWhile, h]

theorem dropWhile_all_iff (p : Char → Bool) : ∀ l : List Char,
    (l.dropWhile p).all p = true ↔ l.all p = true := by
  intro l
  induction l with
  | nil => simp
  | cons x xs ih =>
    by_cases h : p x = true
    · simp only [List.dropWhile, h, List.all_cons, Bool.true_and]
      exact ih
    · simp only [Bool.not_eq_true] at h
      simp [List.dropWhile, h]

/-- A text is empty after trimming exactly when all its runes are white space. -/
theorem trimSpace_eq_empty_iff (line : String) :
    strings.TrimSpace line = "" ↔ line.data.all strings.isSpace = true := by
  unfold strings.TrimSpace
  constructor
  · intro h
    have hd := congrArg String.data h
    have e : ("" : String).data = [] := rfl
    rw [e] at hd
    simp only [List.reverse_eq_nil_iff] at hd
    rw [dropWhile_eq_nil_iff_all, List.all_reverse, dropWhile_all_iff] at hd
    exact hd
  · intro h
    apply String.ext
    have e : ("" : String).data = [] := rfl
    rw [e]
    simp only [List.reverse_eq_nil_iff]
    rw [dropWhile_eq_nil_iff_all, List.all_reverse, dropWhile_all_iff]
    exact h

theorem contains_equals (line : String) :
    strings.Contains line "=" = line.data.contains '=' := by
  have e : ("=" : String) = ⟨['=']⟩ := rfl
  have h := Contains_single line '='
  rw [← e] at h
  by_cases hm : '=' ∈ line.data
  · rw [h.mpr hm]
    simp [hm]
  · have : strings.Contains line "=" = false := by
      cases hc : strings.Contains line "=" with
      | false => rfl
      | true => exact absurd (h.mp hc) hm
    rw [this]
    simp [hm]

/-- The loop body of `clean` keeps exactly the specified lines. -/
theorem cleanStep_eq (newLines : List String) (line : String) :
    cleanStep newLines line = if keepLine line then newLines ++ [line] else newLines := by
  have e1 : ("[" : String) = ⟨['[']⟩ := rfl
  have e2 : ("]" : String) = ⟨[']']⟩ := rfl
  have hA : strings.HasPrefix line "[" = decide (line.data.head? = some '[') := by
    rw [e1]; exact hasPrefix_single line.data '['
  have hB : strings.HasSuffix line "]" = decide (line.data.getLast? = some ']') := by
    rw [e2]; exact hasSuffix_single line.data ']'
  have hC : decide (strings.TrimSpace line = "") = line.data.all strings.isSpace := by
    by_cases h : line.data.all strings.isSpace = true
    · rw [h]; exact decide_eq_true ((trimSpace_eq_empty_iff line).mpr h)
    · have h2 : line.data.all strings.isSpace = false := by simpa using h
      rw [h2]
      exact decide_eq_false (fun e => h ((trimSpace_eq_empty_iff line).mp e))
  have hD := contains_equals line
  have hE : strings.HasPrefix line "!include" = "!include".data.isPrefixOf line.data := rfl
  unfold cleanStep keepLine
  simp only [hA, hB, hC, hD, hE]
  cases decide (line.data.head? = some '[') <;>
    cases decide (line.data.getLast? = some ']') <;>
    cases line.data.all strings.isSpace <;>
    cases line.data.contains '=' <;>
    cases "!include".data.isPrefixOf line.data <;> rfl

theorem cleanFold_eq (lines : List String) : ∀ acc : List String,
    lines.foldl cleanStep acc = acc ++ lines.filter keepLine := by
  induction lines with
  | nil => intro acc; simp
  | cons x xs ih =>
    intro acc
    rw [List.foldl_cons, ih, cleanStep_eq]
    by_cases h : keepLine x = true
    · simp [h, List.filter]
    · simp only [Bool.not_eq_true] at h
      simp [h, List.filter]

theorem joinFold_data (sep : String) (es : List String) : ∀ e : String,
    (es.foldl (fun b s => b ++ sep ++ s) e).data =
      e.data ++ (es.map (fun s => sep.data ++ s.data)).flatten := by
  induction es with
  | nil => intro e; simp
  | cons x xs ih =>
    intro e
    rw [List.foldl_cons, ih]
    simp [String.data_append, List.append_assoc]

theorem intercalate_cons (sep : List Char) (e : List Char) : ∀ es : List (List Char),
    sep.intercalate (e :: es) = e ++ (es.map (fun s => sep ++ s)).flatten := by
  intro es
  induction es generalizing e with
  | nil => simp [List.intercalate]
  | cons x xs ih =>
    have := ih x
    simp only [List.intercalate, List.intersperse_cons_cons, List.flatten_cons] at this ⊢
    rw [this]
    simp

/-- `strings.Join` puts the separator between the pieces. -/
theorem Join_data (elems : List String) (sep : String) :
    (strings.Join elems sep).data = sep.data.intercalate (elems.map String.data) := by
  cases elems with
  | nil => rfl
  | cons e es =>
    simp only [strings.Join, List.map_cons]
    rw [joinFold_data, intercalate_cons, List.map_map]
    rfl

theorem clean_eq_cleanSpec (s : String) : clean s = cleanSpec s := by
  have e : ("\n" : String) = ⟨['\n']⟩ := rfl
  apply String.ext
  unfold clean cleanSpec
  simp only [Join_data, cleanFold_eq, List.nil_append, e, Split_single]

/-- C14. `clean` is a line filter: its output is the input's lines (split on the newline),
in their original order and joined by newlines, restricted to exactly those lines that
(start with `[` and end with `]`, or are empty after trimming white space, or contain `=`)
and do not begin with `!include`; an include line is dropped even when it contains `=`. -/
theorem clean_is_line_filter :
    (∀ s : String, clean s = cleanSpec s) ∧
    clean "[test]\nfoo\n" = "[test]\n" ∧
    clean "[test]\nfoo = bar\n" = "[test]\nfoo = bar\n" ∧
    clean "[test]\nfoo = bar\n!includedir /etc/mysql/conf.d/\n" = "[test]\nfoo = bar\n" ∧
    clean "[test]\n!include extra=1.cnf\nfoo = bar\n" = "[test]\nfoo = bar\n" ∧
    (∀ line : String, "!include".data <+: line.data → keepLine line = false) := by
  refine ⟨clean_eq_cleanSpec, by decide, by decide, by decide, by decide, ?_⟩
  intro line h
  have hp : "!include".data.isPrefixOf line.data = true := List.isPrefixOf_iff_prefix.mpr h
  simp [keepLine, hp]

/-- An include line that contains `=` is not kept. -/
theorem clean_is_line_filter_witness :
    keepLine "!include extra=1.cnf" = false ∧
      clean "!include extra=1.cnf" = cleanSpec "!include extra=1.cnf" ∧
      clean "!include extra=1.cnf" = "" :=
  ⟨clean_is_line_filter.2.2.2.2.2 "!include extra=1.cnf" (by decide),
    clean_is_line_filter.1 "!include extra=1.cnf", by decide⟩

/-! ## Lemmas on `normalizeKeys` and `limitToWatchedOptions` -/

theorem normalizeFold_mem (K : String) :
    ∀ (l : List (Σ _ : String, GoAny)) (acc : GoMap GoAny),
      K ∈ l.foldl (fun result kv => result.insert (GetVariableKeyFrom kv.1) kv.2) acc ↔
        K ∈ acc ∨ ∃ e ∈ l, GetVariableKeyFrom e.1 = K := by
  intro l
  induction l with
  | nil => intro acc; simp
  | cons e t ih =>
    intro acc
    rw [List.foldl_cons, ih, AList.mem_insert]
    constructor
    · rintro ((h | h) | ⟨e2, he2, h⟩)
      · exact Or.inr ⟨e, List.mem_cons_self _ _, h.symm⟩
      · exact Or.inl h
      · exact Or.inr ⟨e2, List.mem_cons_of_mem _ he2, h⟩
    · rintro (h | ⟨e2, he2, h⟩)
      · exact Or.inl (Or.inr h)
      · rcases List.mem_cons.mp he2 with rfl | h2
        · exact Or.inl (Or.inl h.symm)
        · exact Or.inr ⟨e2, h2, h⟩

/-- The canonical form of a key is a key of the normalized map exactly when it is the
canonical form of a key of the map. -/
theorem normalizeKeys_mem (m : GoMap GoAny) (K : String) :
    K ∈ normalizeKeys m ↔ ∃ k, k ∈ m ∧ GetVariableKeyFrom k = K := by
  unfold normalizeKeys
  rw [normalizeFold_mem]
  constructor
  · rintro (h | ⟨e, he, h⟩)
    · exact absurd h (AList.not_mem_empty K)
    · refine ⟨e.1, ?_, h⟩
      exact AList.mem_keys.mpr (List.mem_map.mpr ⟨e, he, rfl⟩)
  · rintro ⟨k, hk, h⟩
    obtain ⟨e, he, rfl⟩ := List.mem_map.mp (AList.mem_keys.mp hk)
    exact Or.inr ⟨e, he, h⟩

theorem normalizeFold_lookup (K : String) (v : GoAny) :
    ∀ (l : List (Σ _ : String, GoAny)) (acc : GoMap GoAny),
      (l.map (fun e => GetVariableKeyFrom e.1)).Nodup →
      ((l.foldl (fun result kv => result.insert (GetVariableKeyFrom kv.1) kv.2) acc).lookup K =
          some v ↔
        (∃ e ∈ l, GetVariableKeyFrom e.1 = K ∧ e.2 = v) ∨
          ((∀ e ∈ l, GetVariableKeyFrom e.1 ≠ K) ∧ acc.lookup K = some v)) := by
  intro l
  induction l with
  | nil => intro acc _; simp
  | cons e t ih =>
    intro acc nd
    rw [List.map_cons, List.nodup_cons] at nd
    obtain ⟨hnot, ndt⟩ := nd
    rw [List.foldl_cons, ih _ ndt]
    by_cases hk : GetVariableKeyFrom e.1 = K
    · have hnone : ∀ e2 ∈ t, GetVariableKeyFrom e2.1 ≠ K := by
        intro e2 he2 h2
        exact hnot (List.mem_map.mpr ⟨e2, he2, h2.trans hk.symm⟩)
      subst hk
      rw [AList.lookup_insert]
      constructor
      · rintro (⟨e2, he2, h2, _⟩ | ⟨_, h⟩)
        · exact absurd h2 (hnone e2 he2)
        · exact Or.inl ⟨e, List.mem_cons_self _ _, rfl, Option.some.inj h⟩
      · rintro (⟨e2, he2, h2, h3⟩ | ⟨h, _⟩)
        · rcases List.mem_cons.mp he2 with rfl | h4
          · exact Or.inr ⟨hnone, by rw [h3]⟩
          · exact absurd h2 (hnone e2 h4)
        · exact absurd rfl (h e (List.mem_cons_self _ _))
    · have hk2 : K ≠ GetVariableKeyFrom e.1 := fun h => hk h.symm
      rw [AList.lookup_insert_ne hk2]
      constructor
      · rintro (⟨e2, he2, h2, h3⟩ | ⟨h, h5⟩)
        · exact Or.inl ⟨e2, List.mem_cons_of_mem _ he2, h2, h3⟩
        · refine Or.inr ⟨?_, h5⟩
          intro e2 he2
          rcases List.mem_cons.mp he2 with rfl | h4
          · exact hk
          · exact h e2 h4
      · rintro (⟨e2, he2, h2, h3⟩ | ⟨h, h5⟩)
        · rcases List.mem_cons.mp he2 with rfl | h4
          · exact absurd h2 hk
          · exact Or.inl ⟨e2, h4, h2, h3⟩
        · exact Or.inr ⟨fun e2 he2 => h e2 (List.mem_cons_of_mem _ he2), h5⟩

/-- When the keys of a map have pairwise distinct canonical forms, the normalized map holds
under each canonical form the value of the key it comes from. -/
theorem normalizeKeys_lookup (m : GoMap GoAny) (K : String) (v : GoAny)
    (nd : (m.keys.map GetVariableKeyFrom).Nodup) :
    (normalizeKeys m).lookup K = some v ↔
      ∃ k, m.lookup k = some v ∧ GetVariableKeyFrom k = K := by
  have nd2 : (m.entries.map (fun e => GetVariableKeyFrom e.1)).Nodup := by
    have : m.keys.map GetVariableKeyFrom = m.entries.map (fun e => GetVariableKeyFrom e.1) := by
      simp [AList.keys, List.keys, List.map_map, Function.comp]
    rw [← this]
    exact nd
  unfold normalizeKeys
  rw [normalizeFold_lookup K v m.entries ∅ nd2]
  constructor
  · rintro (⟨e, he, h2, h3⟩ | ⟨_, h⟩)
    · refine ⟨e.1, ?_, h2⟩
      have : (⟨e.1, v⟩ : Σ _ : String, GoAny) ∈ m.entries := by rw [← h3]; exact he
      exact Option.mem_def.mp (AList.mem_lookup_iff.mpr this)
    · simp at h
  · rintro ⟨k, hk, h⟩
    have : (⟨k, v⟩ : Σ _ : String, GoAny) ∈ m.entries :=
      AList.mem_lookup_iff.mp (Option.mem_def.mpr hk)
    exact Or.inl ⟨⟨k, v⟩, this, h, rfl⟩

theorem limitFold_lookup (W : GoMap GoAny) (K : String) :
    ∀ (l : List (Σ _ : String, GoAny)) (acc : GoMap GoAny), l.NodupKeys →
      (l.foldl (fun limitedOptions kv =>
          if (W.lookup kv.1).isSome then limitedOptions.insert kv.1 kv.2
          else limitedOptions) acc).lookup K =
        if (W.lookup K).isSome = true ∧ K ∈ l.keys then l.dlookup K else acc.lookup K := by
  intro l
  induction l with
  | nil => intro acc _; simp
  | cons e t ih =>
    intro acc nd
    obtain ⟨a, b⟩ := e
    have hnot : a ∉ t.keys := List.not_mem_keys_of_nodupKeys_cons nd
    have ndt : t.NodupKeys := List.nodupKeys_of_nodupKeys_cons nd
    rw [List.foldl_cons, ih _ ndt]
    by_cases hk : K = a
    · subst hk
      by_cases hw : (W.lookup K).isSome = true
      · simp [hnot, hw, AList.lookup_insert, List.dlookup_cons_eq]
      · simp [hnot, hw]
    · have hkeys : K ∈ (⟨a, b⟩ :: t : List (Σ _ : String, GoAny)).keys ↔ K ∈ t.keys := by
        simp [List.keys, hk]
      rw [List.dlookup_cons_ne _ _ hk]
      simp only [hkeys]
      by_cases hw : (W.lookup a).isSome = true
      · simp only [hw, if_true, AList.lookup_insert_ne hk]
      · simp only [hw, if_false, Bool.false_eq_true]

theorem limitToWatchedOptions_lookup (fullOptions watchedOptions : GoMap GoAny) (K : String) :
    (limitToWatchedOptions fullOptions watchedOptions).lookup K =
      if K ∈ normalizeKeys watchedOptions then (normalizeKeys fullOptions).lookup K
      else none := by
  unfold limitToWatchedOptions
  simp only []
  rw [limitFold_lookup (normalizeKeys watchedOptions) K (normalizeKeys fullOptions).entries ∅
    (normalizeKeys fullOptions).nodupKeys]
  by_cases hw : K ∈ normalizeKeys watchedOptions
  · have hs : ((normalizeKeys watchedOptions).lookup K).isSome = true :=
      AList.lookup_isSome.mpr hw
    rw [if_pos hw]
    by_cases hk : K ∈ (normalizeKeys fullOptions).entries.keys
    · rw [if_pos ⟨hs, hk⟩]
      rfl
    · rw [if_neg (fun h => hk h.2)]
      have : (normalizeKeys fullOptions).lookup K = none :=
        AList.lookup_eq_none.mpr (fun h => hk (AList.mem_keys.mp h))
      rw [this]
      rfl
  · have hs : ¬ ((normalizeKeys watchedOptions).lookup K).isSome = true :=
      fun h => hw (AList.lookup_isSome.mp h)
    rw [if_neg hw, if_neg (fun h => hs h.1)]
    rfl

/-! ## The property of `limitToWatchedOptions` -/

/-- C15. Watch-set filtering: when the keys of `fullOptions` have pairwise distinct
canonical forms, `limitToWatchedOptions(fullOptions, watchedOptions)` holds exactly the
canonical forms `GetVariableKeyFrom(k)` of the keys `k` of `fullOptions` whose canonical
form is the canonical form of some key of `watchedOptions`, each mapped to
`fullOptions[k]`; the values stored in `watchedOptions` are irrelevant. -/
theorem limitToWatchedOptions_spec (fullOptions watchedOptions : GoMap GoAny)
    (nd : (fullOptions.keys.map GetVariableKeyFrom).Nodup) :
    (∀ (K : String) (v : GoAny),
      (limitToWatchedOptions fullOptions watchedOptions).lookup K = some v ↔
        ∃ k, fullOptions.lookup k = some v ∧ GetVariableKeyFrom k = K ∧
          ∃ k2, k2 ∈ watchedOptions ∧ GetVariableKeyFrom k2 = K) ∧
    (∀ otherWatched : GoMap GoAny, (∀ k, k ∈ watchedOptions ↔ k ∈ otherWatched) →
      ∀ K : String, (limitToWatchedOptions fullOptions watchedOptions).lookup K =
        (limitToWatchedOptions fullOptions otherWatched).lookup K) := by
  constructor
  · intro K v
    rw [limitToWatchedOptions_lookup]
    by_cases hw : K ∈ normalizeKeys watchedOptions
    · rw [if_pos hw, normalizeKeys_lookup fullOptions K v nd]
      have hw2 := (normalizeKeys_mem watchedOptions K).mp hw
      constructor
      · rintro ⟨k, h1, h2⟩
        exact ⟨k, h1, h2, hw2⟩
      · rintro ⟨k, h1, h2, _⟩
        exact ⟨k, h1, h2⟩
    · rw [if_neg hw]
      constructor
      · intro h; cases h
      · rintro ⟨k, _, _, hw2⟩
        exact absurd ((normalizeKeys_mem watchedOptions K).mpr hw2) hw
  · intro otherWatched hsame K
    rw [limitToWatchedOptions_lookup, limitToWatchedOptions_lookup]
    have : K ∈ normalizeKeys watchedOptions ↔ K ∈ normalizeKeys otherWatched := by
      rw [normalizeKeys_mem, normalizeKeys_mem]
      constructor
      · rintro ⟨k, h1, h2⟩; exact ⟨k, (hsame k).mp h1, h2⟩
      · rintro ⟨k, h1, h2⟩; exact ⟨k, (hsame k).mpr h1, h2⟩
    by_cases hw : K ∈ normalizeKeys watchedOptions
    · rw [if_pos hw, if_pos (this.mp hw)]
    · rw [if_neg hw, if_neg (fun h => hw (this.mpr h))]

/-- The maps of the test-suite: `{key1: 1, key2: 2, key3: 3}` watched by `{key1, key3}`
gives `{KEY1: 1, KEY3: 3}`. -/
theorem limitToWatchedOptions_spec_witness :
    (fullOptionsExample.keys.map GetVariableKeyFrom).Nodup ∧
      ((limitToWatchedOptions fullOptionsExample watchedOptionsExample).lookup "KEY1" =
          some (GoAny.str "1") ↔
        ∃ k, fullOptionsExample.lookup k = some (GoAny.str "1") ∧
          GetVariableKeyFrom k = "KEY1" ∧
          ∃ k2, k2 ∈ watchedOptionsExample ∧ GetVariableKeyFrom k2 = "KEY1") ∧
      (limitToWatchedOptions fullOptionsExample watchedOptionsExample).entries =
        (GoMap.ofList [("KEY1", GoAny.str "1"), ("KEY3", GoAny.str "3")]).entries :=
  ⟨by decide,
    (limitToWatchedOptions_spec fullOptionsExample watchedOptionsExample (by decide)).1
      "KEY1" (GoAny.str "1"),
    by decide⟩

/-! ## Lemmas on the rounds of `mysqlConfDiff` -/

theorem applySettingBody_applied (db : dbConn) (key : String) (value : GoAny) :
    (applySettingBody db key value).1.applied = db.applied := by
  unfold applySettingBody
  split
  · rfl
  · split
    · split <;> rfl
    · rfl

/-- A call of `applySetting` adds itself, with its result, to the trace. -/
theorem applySetting_applied (db : dbConn) (key : String) (value : GoAny) :
    (applySetting db key value).1.applied =
      db.applied ++ [⟨key, value, (applySetting db key value).2⟩] := by
  simp [applySetting, applySettingBody_applied]

/-- One round of the loop, read through the outcome of its key. -/
theorem diffStep_outcome (sv : GoMap GoAny) (a : Bool) (w : World) (key : String)
    (val : GoAny) :
    diffStep sv a w key val =
      match keyOutcome sv key val with
      | .warning => { w with out := w.out ++ [Output.notFound key] }
      | .equivalent => w
      | .drift l =>
        if a then
          { db := (applySetting w.db key val).1,
            out := w.out ++
              [Output.differenceFound key, Output.myCnf val, Output.mysqld l] ++
              (match (applySetting w.db key val).2 with
                | some e => [Output.failedToSet e]
                | none => []) ++
              [Output.setVariable key val] }
        else
          { w with out := w.out ++
              [Output.differenceFound key, Output.myCnf val, Output.mysqld l] } := by
  have tail : ∀ l : String,
      (let w1 : World := { w with out := w.out ++
          [Output.differenceFound key, Output.myCnf val, Output.mysqld l] }
        if a then
          let (db, err) := applySetting w1.db key val
          let w2 : World := { w1 with db := db }
          let w3 : World := match err with
            | some e => { w2 with out := w2.out ++ [Output.failedToSet e] }
            | none => w2
          { w3 with out := w3.out ++ [Output.setVariable key val] }
        else w1) =
      (if a then
          { db := (applySetting w.db key val).1,
            out := w.out ++
              [Output.differenceFound key, Output.myCnf val, Output.mysqld l] ++
              (match (applySetting w.db key val).2 with
                | some e => [Output.failedToSet e]
                | none => []) ++
              [Output.setVariable key val] }
        else
          { w with out := w.out ++
              [Output.differenceFound key, Output.myCnf val, Output.mysqld l] }) := by
    intro l
    cases a with
    | false => rfl
    | true =>
      simp only [if_true]
      cases hr : applySetting w.db key val with
      | mk db err =>
        cases err with
        | none => simp
        | some e => simp
  unfold diffStep keyOutcome lookupString
  cases hl : sv.lookup key with
  | none => rfl
  | some x =>
    cases x with
    | bool b => rfl
    | str l =>
      simp only [Bool.not_true, Bool.false_eq_true, if_false]
      cases val with
      | bool b =>
        simp only [reduceCtorEq, and_false, if_false]
        exact tail l
      | str f =>
        by_cases he : valuesEquivalent f l
        · have := diffStep_equivalent sv a w key f l hl he
          unfold diffStep at this
          rw [lookupString_of_str sv key l hl] at this
          simp only [Bool.not_true, Bool.false_eq_true, if_false] at this
          simp only [he, if_true]
          exact this
        · have he2 := he
          unfold valuesEquivalent at he2
          simp only [not_or, not_and] at he2
          obtain ⟨n1, n2, n3, n4⟩ := he2
          have c1 : ¬ (l = f) := fun e => n1 e.symm
          have c2 : ¬ (l = "ON" ∧ f = "1") := fun e => n2 e.2 e.1
          have c3 : ¬ (l = "OFF" ∧ f = "0") := fun e => n3 e.2 e.1
          have c4 : ¬ (strings.HasSuffix l "/" = true ∧ strings.dropLastByte l = f) :=
            fun e => n4 ((hasSuffix_slash_iff l f).mp e)
          simp only [GoAny.str.injEq, c1, c2, c3, c4, he, if_false]
          exact tail l

/-- What one round adds: to the trace of calls, to the output with the failure warnings
left out, to the failure warnings, and where a failure warning sits. -/
theorem diffStep_facts (sv : GoMap GoAny) (a : Bool) (w : World) (key : String)
    (val : GoAny) :
    ∃ (calls : List ApplyCall) (ext : List Output),
      (diffStep sv a w key val).db.applied = w.db.applied ++ calls ∧
      (diffStep sv a w key val).out = w.out ++ ext ∧
      ext.filter (fun o => !o.isFailedToSet) = keyOutput sv a key val ∧
      calls.map (fun c => (c.key, c.value)) = keyCalls sv a key val ∧
      ext.filterMap Output.failedMessage = calls.filterMap (fun c => c.err) ∧
      (∀ e, Output.failedToSet e ∈ ext →
        ∃ k v l, [Output.differenceFound k, Output.myCnf v, Output.mysqld l,
            Output.failedToSet e, Output.setVariable k v] <:+: ext ∧
          (⟨k, v, some e⟩ : ApplyCall) ∈ calls) := by
  rw [diffStep_outcome]
  unfold keyOutput keyCalls
  cases keyOutcome sv key val with
  | warning =>
    refine ⟨[], [Output.notFound key], by simp, rfl, by simp [Output.isFailedToSet], rfl,
      by simp [Output.failedMessage], by simp⟩
  | equivalent =>
    exact ⟨[], [], by simp, by simp, rfl, rfl, rfl, by simp⟩
  | drift l =>
    cases a with
    | false =>
      refine ⟨[], [Output.differenceFound key, Output.myCnf val, Output.mysqld l],
        by simp, rfl, by simp [Output.isFailedToSet], rfl,
        by simp [Output.failedMessage], by simp⟩
    | true =>
      simp only [if_true]
      have happ := applySetting_applied w.db key val
      cases herr : (applySetting w.db key val).2 with
      | none =>
        rw [herr] at happ
        refine ⟨[⟨key, val, none⟩],
          [Output.differenceFound key, Output.myCnf val, Output.mysqld l,
            Output.setVariable key val],
          happ, by simp, by simp [Output.isFailedToSet], rfl,
          by simp [Output.failedMessage], by simp⟩
      | some e =>
        rw [herr] at happ
        refine ⟨[⟨key, val, some e⟩],
          [Output.differenceFound key, Output.myCnf val, Output.mysqld l,
            Output.failedToSet e, Output.setVariable key val],
          happ, by simp, by simp [Output.isFailedToSet], rfl,
          by simp [Output.failedMessage], ?_⟩
        intro e2 he2
        simp only [List.mem_cons, reduceCtorEq, Output.failedToSet.injEq, List.mem_nil_iff,
          or_false, false_or] at he2
        subst he2
        exact ⟨key, val, l, List.infix_refl _, List.mem_singleton.mpr rfl⟩

/-- What a run of rounds adds. -/
theorem diffFold_facts (sv : GoMap GoAny) (a : Bool) :
    ∀ (l : List (Σ _ : String, GoAny)) (w : World),
      ∃ (calls : List ApplyCall) (ext : List Output),
        (l.foldl (fun w kv => diffStep sv a w kv.1 kv.2) w).db.applied =
          w.db.applied ++ calls ∧
        (l.foldl (fun w kv => diffStep sv a w kv.1 kv.2) w).out = w.out ++ ext ∧
        ext.filter (fun o => !o.isFailedToSet) =
          l.flatMap (fun kv => keyOutput sv a kv.1 kv.2) ∧
        calls.map (fun c => (c.key, c.value)) =
          l.flatMap (fun kv => keyCalls sv a kv.1 kv.2) ∧
        ext.filterMap Output.failedMessage = calls.filterMap (fun c => c.err) ∧
        (∀ e, Output.failedToSet e ∈ ext →
          ∃ k v l2, [Output.differenceFound k, Output.myCnf v, Output.mysqld l2,
              Output.failedToSet e, Output.setVariable k v] <:+: ext ∧
            (⟨k, v, some e⟩ : ApplyCall) ∈ calls) := by
  intro l
  induction l with
  | nil =>
    intro w
    exact ⟨[], [], by simp, by simp, rfl, rfl, rfl, by simp⟩
  | cons kv t ih =>
    intro w
    obtain ⟨c1, x1, a1, o1, f1, m1, g1, i1⟩ := diffStep_facts sv a w kv.1 kv.2
    obtain ⟨c2, x2, a2, o2, f2, m2, g2, i2⟩ := ih (diffStep sv a w kv.1 kv.2)
    refine ⟨c1 ++ c2, x1 ++ x2, ?_, ?_, ?_, ?_, ?_, ?_⟩
    · rw [List.foldl_cons, a2, a1, List.append_assoc]
    · rw [List.foldl_cons, o2, o1, List.append_assoc]
    · rw [List.filter_append, f1, f2, List.flatMap_cons]
    · rw [List.map_append, m1, m2, List.flatMap_cons]
    · rw [List.filterMap_append, List.filterMap_append, g1, g2]
    · intro e he
      rcases List.mem_append.mp he with h | h
      · obtain ⟨k, v, l2, hin, hc⟩ := i1 e h
        exact ⟨k, v, l2, hin.trans (List.prefix_append x1 x2).isInfix,
          List.mem_append_left _ hc⟩
      · obtain ⟨k, v, l2, hin, hc⟩ := i2 e h
        exact ⟨k, v, l2, hin.trans (List.suffix_append x1 x2).isInfix,
          List.mem_append_right _ hc⟩

/-- The run of `mysqlConfDiff`, described through the outcomes of the keys. -/
theorem mysqlConfDiff_facts (db : dbConn) (conf sv : GoMap GoAny) (a : Bool) :
    ∃ calls : List ApplyCall,
      (mysqlConfDiff db conf sv a).db.applied = db.applied ++ calls ∧
      (mysqlConfDiff db conf sv a).out.filter (fun o => !o.isFailedToSet) =
        conf.entries.flatMap (fun kv => keyOutput sv a kv.1 kv.2) ∧
      calls.map (fun c => (c.key, c.value)) =
        conf.entries.flatMap (fun kv => keyCalls sv a kv.1 kv.2) ∧
      (mysqlConfDiff db conf sv a).out.filterMap Output.failedMessage =
        calls.filterMap (fun c => c.err) ∧
      (∀ e, Output.failedToSet e ∈ (mysqlConfDiff db conf sv a).out →
        ∃ k v l, [Output.differenceFound k, Output.myCnf v, Output.mysqld l,
            Output.failedToSet e, Output.setVariable k v] <:+:
              (mysqlConfDiff db conf sv a).out ∧
          (⟨k, v, some e⟩ : ApplyCall) ∈ calls) := by
  obtain ⟨calls, ext, h1, h2, h3, h4, h5, h6⟩ :=
    diffFold_facts sv a conf.entries { db := db, out := [] }
  simp only [List.nil_append] at h2
  unfold mysqlConfDiff
  rw [h2]
  exact ⟨calls, h1, h3, h4, h5, h6⟩

/-! ## Lemmas on the outcome of a key -/

theorem keyOutcome_warning_iff (sv : GoMap GoAny) (key : String) (val : GoAny) :
    keyOutcome sv key val = .warning ↔ ¬ ∃ l, sv.lookup key = some (GoAny.str l) := by
  unfold keyOutcome
  cases sv.lookup key with
  | none => simp
  | some x =>
    cases x with
    | bool b => simp
    | str l =>
      cases val with
      | bool b => simp
      | str f => by_cases h : valuesEquivalent f l <;> simp [h]

theorem keyOutcome_drift (sv : GoMap GoAny) (key : String) (val : GoAny) (l : String)
    (h : keyOutcome sv key val = .drift l) :
    sv.lookup key = some (GoAny.str l) ∧ ∀ f, val = GoAny.str f → ¬ valuesEquivalent f l := by
  unfold keyOutcome at h
  cases hs : sv.lookup key with
  | none => rw [hs] at h; cases h
  | some x =>
    rw [hs] at h
    cases x with
    | bool b => cases h
    | str l2 =>
      cases val with
      | bool b =>
        simp only [KeyOutcome.drift.injEq] at h
        subst h
        exact ⟨rfl, fun f hf => by cases hf⟩
      | str f =>
        by_cases he : valuesEquivalent f l2
        · simp [he] at h
        · simp only [he, if_false, KeyOutcome.drift.injEq] at h
          subst h
          refine ⟨rfl, fun f2 hf => ?_⟩
          cases hf
          exact he

theorem keyOutcome_of_str (sv : GoMap GoAny) (key f l : String)
    (hl : sv.lookup key = some (GoAny.str l)) :
    keyOutcome sv key (GoAny.str f) =
      if valuesEquivalent f l then .equivalent else .drift l := by
  simp [keyOutcome, hl]

theorem keyOutput_notFound_mem (sv : GoMap GoAny) (a : Bool) (key k : String) (val : GoAny)
    (h : Output.notFound k ∈ keyOutput sv a key val) : k = key := by
  unfold keyOutput at h
  generalize keyOutcome sv key val = o at h
  cases o with
  | warning => simpa using h
  | equivalent => simp at h
  | drift l => cases a <;> simp at h

theorem keyOutput_differenceFound_mem (sv : GoMap GoAny) (a : Bool) (key k : String)
    (val : GoAny) (h : Output.differenceFound k ∈ keyOutput sv a key val) : k = key := by
  unfold keyOutput at h
  generalize keyOutcome sv key val = o at h
  cases o with
  | warning => simp at h
  | equivalent => simp at h
  | drift l => cases a <;> simpa using h

theorem keyCalls_mem (sv : GoMap GoAny) (a : Bool) (key k : String) (val v : GoAny)
    (h : (k, v) ∈ keyCalls sv a key val) :
    k = key ∧ v = val ∧ ∃ l, keyOutcome sv key val = .drift l := by
  unfold keyCalls at h
  cases ho : keyOutcome sv key val with
  | warning => rw [ho] at h; simp at h
  | equivalent => rw [ho] at h; simp at h
  | drift l =>
    rw [ho] at h
    cases a with
    | false => simp at h
    | true =>
      simp only [if_true, List.mem_singleton, Prod.mk.injEq] at h
      exact ⟨h.1, h.2, l, rfl⟩

/-- In the output of a run, the writes that name a key come from the round of that key. -/
theorem mysqlConfDiff_count (db : dbConn) (conf sv : GoMap GoAny) (a : Bool)
    (k : String) (v : GoAny) (X : Output) (hk : conf.lookup k = some v)
    (hX : X.isFailedToSet = false)
    (hown : ∀ key val, X ∈ keyOutput sv a key val → key = k) :
    (mysqlConfDiff db conf sv a).out.count X = (keyOutput sv a k v).count X := by
  obtain ⟨calls, _, hout, _, _, _⟩ := mysqlConfDiff_facts db conf sv a
  obtain ⟨l1, l2, hs, hk1, hk2⟩ := entries_split conf k v hk
  have hz : ∀ l : List (Σ _ : String, GoAny), k ∉ l.keys →
      (l.flatMap (fun kv => keyOutput sv a kv.1 kv.2)).count X = 0 := by
    intro l hl
    apply List.count_eq_zero.mpr
    intro hmem
    obtain ⟨e, he, hXe⟩ := List.mem_flatMap.mp hmem
    have := hown e.1 e.2 hXe
    exact hl (this ▸ List.mem_map.mpr ⟨e, he, rfl⟩)
  have hf : (mysqlConfDiff db conf sv a).out.count X =
      ((mysqlConfDiff db conf sv a).out.filter (fun o => !o.isFailedToSet)).count X := by
    rw [List.count_filter]
    simp [hX]
  rw [hf, hout, hs, List.flatMap_append, List.flatMap_cons, List.count_append,
    List.count_append, hz l1 hk1, hz l2 hk2]
  simp

theorem reportedKeys_filter (out : List Output) :
    reportedKeys (out.filter (fun o => !o.isFailedToSet)) = reportedKeys out := by
  unfold reportedKeys
  rw [List.filterMap_filter]
  congr 1
  funext o
  cases o <;> rfl

theorem reportedKeys_keyOutput (sv : GoMap GoAny) (key : String) (val : GoAny) :
    reportedKeys (keyOutput sv true key val) = (keyCalls sv true key val).map Prod.fst := by
  unfold reportedKeys keyOutput keyCalls
  cases keyOutcome sv key val <;> simp [Output.reportedKey]

theorem reportedKeys_flatMap (sv : GoMap GoAny) : ∀ l : List (Σ _ : String, GoAny),
    reportedKeys (l.flatMap (fun kv => keyOutput sv true kv.1 kv.2)) =
      (l.flatMap (fun kv => keyCalls sv true kv.1 kv.2)).map Prod.fst := by
  intro l
  induction l with
  | nil => rfl
  | cons e t ih =>
    rw [List.flatMap_cons, List.flatMap_cons, List.map_append, ← ih,
      ← reportedKeys_keyOutput]
    unfold reportedKeys
    rw [List.filterMap_append]

theorem keyCalls_sublist (sv : GoMap GoAny) (a : Bool) :
    ∀ l : List (Σ _ : String, GoAny),
      ((l.flatMap (fun kv => keyCalls sv a kv.1 kv.2)).map Prod.fst).Sublist l.keys := by
  intro l
  induction l with
  | nil => simp
  | cons e t ih =>
    rw [List.flatMap_cons, List.map_append]
    have hk : (e :: t).keys = [e.1] ++ t.keys := by simp [List.keys]
    rw [hk]
    apply List.Sublist.append _ ih
    unfold keyCalls
    cases keyOutcome sv e.1 e.2 with
    | warning => simp
    | equivalent => simp
    | drift l => cases a <;> simp

/-- In read-only mode the connection is untouched and the output is the run of the
per-key outputs. -/
theorem diffFold_readonly (sv : GoMap GoAny) : ∀ (l : List (Σ _ : String, GoAny)) (w : World),
    l.foldl (fun w kv => diffStep sv false w kv.1 kv.2) w =
      { db := w.db, out := w.out ++ l.flatMap (fun kv => keyOutput sv false kv.1 kv.2) } := by
  intro l
  induction l with
  | nil => intro w; simp
  | cons e t ih =>
    intro w
    rw [List.foldl_cons, ih, diffStep_outcome, List.flatMap_cons]
    unfold keyOutput
    cases keyOutcome sv e.1 e.2 <;> simp

/-! ## The properties of `mysqlConfDiff` -/

/-- C16 fails as stated: `mysqlConfDiff` looks the key up as it is spelled, so the
configuration `{"my-key": "a"}` against the live map `{"MY_KEY": "b"}` gets the
`not found` warning and no difference report, although the canonical form of `my-key` is a
key of the live map. -/
theorem looksUpCanonicalKey_counterexample :
    ¬ looksUpCanonicalKey confDashed liveCanonical ∧
      GetVariableKeyFrom "my-key" ∈ liveCanonical ∧
      (mysqlConfDiff okConn confDashed liveCanonical false).out =
        [Output.notFound "my-key"] := by
  refine ⟨?_, by decide, by decide⟩
  intro h
  have := (h okConn false "my-key" (by decide)).mpr (by decide)
  exact absurd this (by decide)

/-- C16, amended. The diff engine looks each configuration key up as it is spelled: a key
of `confOptions` that is itself a key of `serverVariables` (holding a string) gets no
`not found` warning, and a key that is not gets exactly one warning and no difference
report. -/
theorem mysqlConfDiff_looks_up_raw_key (db : dbConn) (confOptions serverVariables : GoMap GoAny)
    (applyTheChanges : Bool) (k : String) (v : GoAny)
    (hk : confOptions.lookup k = some v) :
    ((∃ l, serverVariables.lookup k = some (GoAny.str l)) →
      (mysqlConfDiff db confOptions serverVariables applyTheChanges).out.count
        (Output.notFound k) = 0) ∧
    ((¬ ∃ l, serverVariables.lookup k = some (GoAny.str l)) →
      (mysqlConfDiff db confOptions serverVariables applyTheChanges).out.count
          (Output.notFound k) = 1 ∧
        (mysqlConfDiff db confOptions serverVariables applyTheChanges).out.count
          (Output.differenceFound k) = 0) := by
  have hN := mysqlConfDiff_count db confOptions serverVariables applyTheChanges k v
    (Output.notFound k) hk rfl
    (fun key val h => (keyOutput_notFound_mem _ _ key k val h).symm)
  have hD := mysqlConfDiff_count db confOptions serverVariables applyTheChanges k v
    (Output.differenceFound k) hk rfl
    (fun key val h => (keyOutput_differenceFound_mem _ _ key k val h).symm)
  constructor
  · intro hex
    rw [hN]
    have hw : keyOutcome serverVariables k v ≠ .warning :=
      fun h => (keyOutcome_warning_iff _ _ _).mp h hex
    unfold keyOutput
    cases ho : keyOutcome serverVariables k v with
    | warning => exact absurd ho hw
    | equivalent => simp
    | drift l => cases applyTheChanges <;> simp
  · intro hno
    have hw : keyOutcome serverVariables k v = .warning :=
      (keyOutcome_warning_iff _ _ _).mpr hno
    rw [hN, hD]
    unfold keyOutput
    rw [hw]
    simp

/-- The canonical spelling `MY_KEY` is found in the live map `{"MY_KEY": "b"}` and drifts;
the spelling `my-key` is not found. -/
theorem mysqlConfDiff_looks_up_raw_key_witness :
    (mysqlConfDiff okConn confCanonical liveCanonical false).out.count
        (Output.notFound "MY_KEY") = 0 ∧
      ((mysqlConfDiff okConn confDashed liveCanonical false).out.count
          (Output.notFound "my-key") = 1 ∧
        (mysqlConfDiff okConn confDashed liveCanonical false).out.count
          (Output.differenceFound "my-key") = 0) ∧
      (mysqlConfDiff okConn confCanonical liveCanonical false).out =
        driftReport "MY_KEY" "a" "b" :=
  ⟨(mysqlConfDiff_looks_up_raw_key okConn confCanonical liveCanonical false "MY_KEY"
      (GoAny.str "a") (by decide)).1 ⟨"b", by decide⟩,
    (mysqlConfDiff_looks_up_raw_key okConn confDashed liveCanonical false "my-key"
      (GoAny.str "a") (by decide)).2 (by
        rintro ⟨l, hl⟩
        have hn : liveCanonical.lookup "my-key" = none := by decide
        rw [hn] at hl
        cases hl),
    by decide⟩

/-- C17. A configuration key with no live variable is a warning, never drift: in either
mode, a key of `confOptions` that is absent from `serverVariables` produces exactly one
warning on the error stream, no `Difference found` report and no `applySetting` call. -/
theorem absent_key_is_warning_only (db : dbConn) (confOptions serverVariables : GoMap GoAny)
    (applyTheChanges : Bool) (k : String) (v : GoAny)
    (hk : confOptions.lookup k = some v) (habs : k ∉ serverVariables) :
    (mysqlConfDiff db confOptions serverVariables applyTheChanges).out.count
        (Output.notFound k) = 1 ∧
      (Output.notFound k).toStderr = true ∧
      (mysqlConfDiff db confOptions serverVariables applyTheChanges).out.count
        (Output.differenceFound k) = 0 ∧
      ∃ calls : List ApplyCall,
        (mysqlConfDiff db confOptions serverVariables applyTheChanges).db.applied =
          db.applied ++ calls ∧
        ∀ c ∈ calls, c.key ≠ k := by
  have hnone : serverVariables.lookup k = none := AList.lookup_eq_none.mpr habs
  have hno : ¬ ∃ l, serverVariables.lookup k = some (GoAny.str l) := by
    rintro ⟨l, hl⟩
    rw [hnone] at hl
    cases hl
  have hw : keyOutcome serverVariables k v = .warning :=
    (keyOutcome_warning_iff _ _ _).mpr hno
  have hN := mysqlConfDiff_count db confOptions serverVariables applyTheChanges k v
    (Output.notFound k) hk rfl
    (fun key val h => (keyOutput_notFound_mem _ _ key k val h).symm)
  have hD := mysqlConfDiff_count db confOptions serverVariables applyTheChanges k v
    (Output.differenceFound k) hk rfl
    (fun key val h => (keyOutput_differenceFound_mem _ _ key k val h).symm)
  obtain ⟨calls, happ, _, hcalls, _, _⟩ :=
    mysqlConfDiff_facts db confOptions serverVariables applyTheChanges
  refine ⟨?_, rfl, ?_, calls, happ, ?_⟩
  · rw [hN]; unfold keyOutput; rw [hw]; simp
  · rw [hD]; unfold keyOutput; rw [hw]; simp
  · intro c hc hck
    have hm : (c.key, c.value) ∈ calls.map (fun c => (c.key, c.value)) :=
      List.mem_map.mpr ⟨c, hc, rfl⟩
    rw [hcalls] at hm
    obtain ⟨e, _, he⟩ := List.mem_flatMap.mp hm
    obtain ⟨h1, _, l, hdrift⟩ := keyCalls_mem _ _ _ _ _ _ he
    have hl := (keyOutcome_drift _ _ _ _ hdrift).1
    rw [← h1, hck, hnone] at hl
    cases hl

/-- The scenario of the specification, `{key1: value1}` against an empty live map, in both
modes: one warning, no report, no call. -/
theorem absent_key_is_warning_only_witness :
    ((mysqlConfDiff okConn confKey1 liveEmpty true).out.count (Output.notFound "key1") = 1 ∧
      (Output.notFound "key1").toStderr = true ∧
      (mysqlConfDiff okConn confKey1 liveEmpty true).out.count
        (Output.differenceFound "key1") = 0 ∧
      ∃ calls : List ApplyCall,
        (mysqlConfDiff okConn confKey1 liveEmpty true).db.applied = okConn.applied ++ calls ∧
        ∀ c ∈ calls, c.key ≠ "key1") ∧
    (mysqlConfDiff okConn confKey1 liveEmpty true).out = [Output.notFound "key1"] ∧
    (mysqlConfDiff okConn confKey1 liveEmpty true).db.applied = [] ∧
    (mysqlConfDiff okConn confKey1 liveEmpty false).out = [Output.notFound "key1"] ∧
    (mysqlConfDiff okConn confKey1 liveEmpty false).db.applied = [] :=
  ⟨absent_key_is_warning_only okConn confKey1 liveEmpty true "key1" (GoAny.str "value1")
      (by decide) (by decide),
    by decide, by decide, by decide, by decide⟩

/-- C18. Read-only mode never writes: with `applyTheChanges = false`, `mysqlConfDiff` leaves
the connection as it found it (no `applySetting` call, no statement executed), while its
output is the run of the per-key outputs, so that every drifting key gets its report. -/
theorem read_only_mode_never_writes (db : dbConn) (confOptions serverVariables : GoMap GoAny) :
    (mysqlConfDiff db confOptions serverVariables false).db = db ∧
    (mysqlConfDiff db confOptions serverVariables false).out =
      confOptions.entries.flatMap (fun kv => keyOutput serverVariables false kv.1 kv.2) ∧
    (∀ k f l : String, confOptions.lookup k = some (GoAny.str f) →
      serverVariables.lookup k = some (GoAny.str l) → ¬ valuesEquivalent f l →
      driftReport k f l <:+: (mysqlConfDiff db confOptions serverVariables false).out) := by
  have hrun : mysqlConfDiff db confOptions serverVariables false =
      { db := db, out := confOptions.entries.flatMap
          (fun kv => keyOutput serverVariables false kv.1 kv.2) } := by
    unfold mysqlConfDiff
    rw [diffFold_readonly]
    simp
  refine ⟨by rw [hrun], by rw [hrun], ?_⟩
  intro k f l hf hl hne
  rw [hrun]
  obtain ⟨l1, l2, hs, _, _⟩ := entries_split confOptions k (GoAny.str f) hf
  have hout : keyOutput serverVariables false k (GoAny.str f) = driftReport k f l := by
    unfold keyOutput
    rw [keyOutcome_of_str _ _ _ _ hl, if_neg hne]
    simp [driftReport]
  simp only [hs, List.flatMap_append, List.flatMap_cons, hout]
  exact ⟨_, _, by rw [List.append_assoc]⟩

/-- The scenario of `TestMysqlConfDiff_DiffNoApply`: one drift report, no write. -/
theorem read_only_mode_never_writes_witness :
    driftReport "key1" "value1" "value2" <:+: (mysqlConfDiff okConn confKey1 liveKey1 false).out ∧
      (mysqlConfDiff okConn confKey1 liveKey1 false).out =
        driftReport "key1" "value1" "value2" ∧
      (mysqlConfDiff okConn confKey1 liveKey1 false).db.applied = [] ∧
      (mysqlConfDiff okConn confKey1 liveKey1 false).db.executed = [] :=
  ⟨(read_only_mode_never_writes okConn confKey1 liveKey1).2.2 "key1" "value1" "value2"
      (by decide) (by decide) (by decide),
    by decide, by decide, by decide⟩

/-- C19. Corrective mode writes once per drift: with `applyTheChanges = true`,
`mysqlConfDiff` calls `applySetting` exactly once for each key that produced a drift
report (the keys of the calls are the keys of the reports, in the same order, without
repetition), with that key and the file-side value as arguments, and never for a key that
was absent or judged equivalent. -/
theorem corrective_mode_writes_once_per_drift (db : dbConn)
    (confOptions serverVariables : GoMap GoAny) :
    ∃ calls : List ApplyCall,
      (mysqlConfDiff db confOptions serverVariables true).db.applied = db.applied ++ calls ∧
      calls.map (fun c => c.key) =
        reportedKeys (mysqlConfDiff db confOptions serverVariables true).out ∧
      (calls.map (fun c => c.key)).Nodup ∧
      (∀ c ∈ calls, confOptions.lookup c.key = some c.value ∧
        ∃ l, serverVariables.lookup c.key = some (GoAny.str l) ∧
          ∀ f, c.value = GoAny.str f → ¬ valuesEquivalent f l) := by
  obtain ⟨calls, happ, hout, hcalls, _, _⟩ :=
    mysqlConfDiff_facts db confOptions serverVariables true
  have hkeys : calls.map (fun c => c.key) =
      (confOptions.entries.flatMap
        (fun kv => keyCalls serverVariables true kv.1 kv.2)).map Prod.fst := by
    rw [← hcalls, List.map_map]
    rfl
  refine ⟨calls, happ, ?_, ?_, ?_⟩
  · rw [hkeys, ← reportedKeys_flatMap, ← hout, reportedKeys_filter]
  · rw [hkeys]
    exact List.Nodup.sublist (keyCalls_sublist serverVariables true confOptions.entries)
      confOptions.nodupKeys
  · intro c hc
    have hm : (c.key, c.value) ∈ calls.map (fun c => (c.key, c.value)) :=
      List.mem_map.mpr ⟨c, hc, rfl⟩
    rw [hcalls] at hm
    obtain ⟨e, he, hmem⟩ := List.mem_flatMap.mp hm
    obtain ⟨h1, h2, l, hdrift⟩ := keyCalls_mem _ _ _ _ _ _ hmem
    obtain ⟨hl, hne⟩ := keyOutcome_drift _ _ _ _ hdrift
    refine ⟨?_, l, by rw [h1]; exact hl, fun f hf => hne f (by rw [← h2]; exact hf)⟩
    rw [h1, h2]
    exact Option.mem_def.mp (AList.mem_lookup_iff.mpr (by cases e; exact he))

/-- The scenario of `TestMysqlConfDiff_DiffApply`: one drift report and exactly one call
`applySetting(key1, value1)`, which executes `SET GLOBAL key1 = ?` with `value1`. -/
theorem corrective_mode_writes_once_per_drift_witness :
    (∃ calls : List ApplyCall,
      (mysqlConfDiff okConn confKey1 liveKey1 true).db.applied = okConn.applied ++ calls ∧
      calls.map (fun c => c.key) =
        reportedKeys (mysqlConfDiff okConn confKey1 liveKey1 true).out ∧
      (calls.map (fun c => c.key)).Nodup ∧
      (∀ c ∈ calls, confKey1.lookup c.key = some c.value ∧
        ∃ l, liveKey1.lookup c.key = some (GoAny.str l) ∧
          ∀ f, c.value = GoAny.str f → ¬ valuesEquivalent f l)) ∧
    (mysqlConfDiff okConn confKey1 liveKey1 true).db.applied =
      [⟨"key1", GoAny.str "value1", none⟩] ∧
    reportedKeys (mysqlConfDiff okConn confKey1 liveKey1 true).out = ["key1"] ∧
    (mysqlConfDiff okConn confKey1 liveKey1 true).db.executed =
      [("SET GLOBAL key1 = ?", SqlArg.str "value1")] :=
  ⟨corrective_mode_writes_once_per_drift okConn confKey1 liveKey1,
    by decide, by decide, by decide⟩

/-- C20. Per-key failure isolation: whatever the applier answers, `mysqlConfDiff` goes
through every key of `confOptions` once; its output with the `Failed to SET variable`
warnings left out, and the arguments of its write attempts, are those of a run in which
every write succeeds; the `Failed to SET variable` warnings are exactly the errors of the
failed writes, each placed inside the block of its own key. -/
theorem per_key_failure_isolation (db : dbConn) (confOptions serverVariables : GoMap GoAny)
    (applyTheChanges : Bool) :
    ∃ calls : List ApplyCall,
      (mysqlConfDiff db confOptions serverVariables applyTheChanges).db.applied =
        db.applied ++ calls ∧
      (mysqlConfDiff db confOptions serverVariables applyTheChanges).out.filter
          (fun o => !o.isFailedToSet) =
        confOptions.entries.flatMap
          (fun kv => keyOutput serverVariables applyTheChanges kv.1 kv.2) ∧
      calls.map (fun c => (c.key, c.value)) =
        confOptions.entries.flatMap
          (fun kv => keyCalls serverVariables applyTheChanges kv.1 kv.2) ∧
      (mysqlConfDiff db confOptions serverVariables applyTheChanges).out.filterMap
          Output.failedMessage = calls.filterMap (fun c => c.err) ∧
      (∀ e, Output.failedToSet e ∈
          (mysqlConfDiff db confOptions serverVariables applyTheChanges).out →
        ∃ k v l, [Output.differenceFound k, Output.myCnf v, Output.mysqld l,
            Output.failedToSet e, Output.setVariable k v] <:+:
              (mysqlConfDiff db confOptions serverVariables applyTheChanges).out ∧
          (⟨k, v, some e⟩ : ApplyCall) ∈ calls) ∧
      ((∀ c ∈ calls, c.err = none) →
        (mysqlConfDiff db confOptions serverVariables applyTheChanges).out =
          confOptions.entries.flatMap
            (fun kv => keyOutput serverVariables applyTheChanges kv.1 kv.2)) := by
  obtain ⟨calls, happ, hout, hcalls, hfail, hown⟩ :=
    mysqlConfDiff_facts db confOptions serverVariables applyTheChanges
  refine ⟨calls, happ, hout, hcalls, hfail, hown, ?_⟩
  intro hok
  rw [← hout]
  symm
  apply List.filter_eq_self.mpr
  intro o ho
  cases o with
  | failedToSet e =>
    exfalso
    have hm : e ∈ (mysqlConfDiff db confOptions serverVariables applyTheChanges).out.filterMap
        Output.failedMessage := List.mem_filterMap.mpr ⟨_, ho, rfl⟩
    rw [hfail] at hm
    obtain ⟨c, hc, hce⟩ := List.mem_filterMap.mp hm
    rw [hok c hc] at hce
    cases hce
  | notFound k => rfl
  | differenceFound k => rfl
  | myCnf v => rfl
  | mysqld l => rfl
  | setVariable k v => rfl

/-- Two drifting keys on a connection that rejects every statement: both keys are reported
and attempted, and each failure adds one warning inside the block of its key. -/
theorem per_key_failure_isolation_witness :
    (∃ calls : List ApplyCall,
      (mysqlConfDiff failingConn confTwoKeys liveTwoKeys true).db.applied =
        failingConn.applied ++ calls ∧
      (mysqlConfDiff failingConn confTwoKeys liveTwoKeys true).out.filter
          (fun o => !o.isFailedToSet) =
        confTwoKeys.entries.flatMap (fun kv => keyOutput liveTwoKeys true kv.1 kv.2) ∧
      calls.map (fun c => (c.key, c.value)) =
        confTwoKeys.entries.flatMap (fun kv => keyCalls liveTwoKeys true kv.1 kv.2) ∧
      (mysqlConfDiff failingConn confTwoKeys liveTwoKeys true).out.filterMap
          Output.failedMessage = calls.filterMap (fun c => c.err) ∧
      (∀ e, Output.failedToSet e ∈
          (mysqlConfDiff failingConn confTwoKeys liveTwoKeys true).out →
        ∃ k v l, [Output.differenceFound k, Output.myCnf v, Output.mysqld l,
            Output.failedToSet e, Output.setVariable k v] <:+:
              (mysqlConfDiff failingConn confTwoKeys liveTwoKeys true).out ∧
          (⟨k, v, some e⟩ : ApplyCall) ∈ calls) ∧
      ((∀ c ∈ calls, c.err = none) →
        (mysqlConfDiff failingConn confTwoKeys liveTwoKeys true).out =
          confTwoKeys.entries.flatMap (fun kv => keyOutput liveTwoKeys true kv.1 kv.2))) ∧
    (mysqlConfDiff failingConn confTwoKeys liveTwoKeys true).out =
      [Output.differenceFound "key2", Output.myCnf (GoAny.str "value2"), Output.mysqld "y",
        Output.failedToSet "Error 1238: read only variable",
        Output.setVariable "key2" (GoAny.str "value2"),
        Output.differenceFound "key1", Output.myCnf (GoAny.str "value1"), Output.mysqld "x",
        Output.failedToSet "Error 1238: read only variable",
        Output.setVariable "key1" (GoAny.str "value1")] ∧
    (mysqlConfDiff okConn confTwoKeys liveTwoKeys true).out =
      [Output.differenceFound "key2", Output.myCnf (GoAny.str "value2"), Output.mysqld "y",
        Output.setVariable "key2" (GoAny.str "value2"),
        Output.differenceFound "key1", Output.myCnf (GoAny.str "value1"), Output.mysqld "x",
        Output.setVariable "key1" (GoAny.str "value1")] :=
  ⟨per_key_failure_isolation failingConn confTwoKeys liveTwoKeys true, by decide, by decide⟩

/-! ## Lemmas on `applySetting` -/

theorem isKeyChar_allowed : ∀ c ∈ allowedKeyRunes, isKeyChar c = true := by
  decide

theorem allowed_of_ofNat (n : Nat)
    (h : (97 ≤ n ∧ n ≤ 122) ∨ (65 ≤ n ∧ n ≤ 90) ∨ (48 ≤ n ∧ n ≤ 57)) :
    Char.ofNat n ∈ allowedKeyRunes := by
  rcases h with ⟨h1, h2⟩ | ⟨h1, h2⟩ | ⟨h1, h2⟩ <;> interval_cases n <;> decide

theorem isKeyChar_iff (c : Char) : isKeyChar c = true ↔ c ∈ allowedKeyRunes := by
  constructor
  · intro h
    unfold isKeyChar at h
    simp only [Bool.or_eq_true, Bool.and_eq_true, decide_eq_true_eq] at h
    rcases h with (((h | h) | h) | h) | h
    · have := allowed_of_ofNat c.toNat (Or.inl h)
      rwa [Char.ofNat_toNat] at this
    · have := allowed_of_ofNat c.toNat (Or.inr (Or.inl h))
      rwa [Char.ofNat_toNat] at this
    · have := allowed_of_ofNat c.toNat (Or.inr (Or.inr h))
      rwa [Char.ofNat_toNat] at this
    · subst h; decide
    · subst h; decide
  · exact isKeyChar_allowed c

/-- The pattern rejects exactly the empty key and the keys with a rune outside the class. -/
theorem keyValidator_eq_false_iff (key : String) :
    keyValidator key = false ↔ invalidKey key := by
  unfold keyValidator invalidKey
  cases hd : key.data with
  | nil => simp
  | cons x xs =>
    simp only [List.isEmpty_cons, Bool.not_false, Bool.true_and, reduceCtorEq, false_or]
    constructor
    · intro h
      by_contra hno
      have hall : (x :: xs).all isKeyChar = true := by
        apply List.all_eq_true.mpr
        intro c hc
        by_contra hnc
        exact hno ⟨c, hc, fun hm => hnc ((isKeyChar_iff c).mpr hm)⟩
      rw [hall] at h
      cases h
    · rintro ⟨c, hc, hnot⟩
      cases hall : (x :: xs).all isKeyChar with
      | false => rfl
      | true =>
        exact absurd ((isKeyChar_iff c).mp (List.all_eq_true.mp hall c hc)) hnot

theorem keyValidator_eq_true_iff (key : String) :
    keyValidator key = true ↔ ¬ invalidKey key := by
  rw [← keyValidator_eq_false_iff]
  cases keyValidator key <;> simp

theorem applySetting_fst_executed (db : dbConn) (key : String) (value : GoAny) :
    (applySetting db key value).1.executed = (applySettingBody db key value).1.executed := rfl

theorem applySetting_snd (db : dbConn) (key : String) (value : GoAny) :
    (applySetting db key value).2 = (applySettingBody db key value).2 := rfl

theorem applySettingBody_invalid (db : dbConn) (key : String) (value : GoAny)
    (h : keyValidator key = false) :
    applySettingBody db key value = (db, some ("invalid key: " ++ key)) := by
  simp [applySettingBody, h]

theorem applySettingBody_int (db : dbConn) (key s : String) (n : Int)
    (h : keyValidator key = true) (hn : strconv.Atoi s = .ok n) :
    applySettingBody db key (GoAny.str s) =
      ({ db with executed := db.executed ++ [(setGlobalText key, SqlArg.int n)] },
        db.answer db.executed (setGlobalText key) (SqlArg.int n)) := by
  simp [applySettingBody, h, hn, dbConn.Exec, setGlobalText]

theorem applySettingBody_str (db : dbConn) (key s : String) (e : strconv.NumError)
    (h : keyValidator key = true) (hn : strconv.Atoi s = .error e) :
    applySettingBody db key (GoAny.str s) =
      ({ db with executed := db.executed ++ [(setGlobalText key, SqlArg.str s)] },
        db.answer db.executed (setGlobalText key) (SqlArg.str s)) := by
  simp [applySettingBody, h, hn, dbConn.Exec, setGlobalText]

theorem applySettingBody_bool (db : dbConn) (key : String) (b : Bool)
    (h : keyValidator key = true) :
    applySettingBody db key (GoAny.bool b) = (db, some "invalid value type: bool") := by
  simp [applySettingBody, h, fmtT]

theorem invalid_key_text_ne (key : String) :
    ("invalid value type: bool" : String) ≠ "invalid key: " ++ key := by
  intro h
  have hd := congrArg (fun t : String => t.data.get? 8) h
  have e1 : ("invalid value type: bool" : String).data.get? 8 = some 'v' := by decide
  have e2 : (("invalid key: " : String) ++ key).data.get? 8 = some 'k' := by
    rw [String.data_append]
    have : ("invalid key: " : String).data =
        ['i', 'n', 'v', 'a', 'l', 'i', 'd', ' ', 'k', 'e', 'y', ':', ' '] := by decide
    rw [this]
    rfl
  simp only [e1, e2] at hd
  exact absurd (Option.some.inj hd) (by decide)

/-! ## The properties of `applySetting` -/

/-- C21. Key validation before any write: `applySetting(key, value)` returns an
`invalid key` error and issues no statement to the database if and only if the key is empty
or contains a character other than an ASCII letter, an ASCII digit, `_` or `-`; for every
accepted key the text of the statement it issues is exactly
`"SET GLOBAL " ++ key ++ " = ?"`. -/
theorem applySetting_rejects_invalid_key (db : dbConn) (key : String) (value : GoAny) :
    (((applySetting db key value).2 = some ("invalid key: " ++ key) ∧
        (applySetting db key value).1.executed = db.executed) ↔ invalidKey key) ∧
    (¬ invalidKey key → ∀ s, value = GoAny.str s →
      ∃ arg, (applySetting db key value).1.executed =
        db.executed ++ [("SET GLOBAL " ++ key ++ " = ?", arg)]) ∧
    (¬ invalidKey key →
      ∀ q ∈ (applySetting db key value).1.executed.drop db.executed.length,
        q.1 = "SET GLOBAL " ++ key ++ " = ?") := by
  rw [applySetting_snd, applySetting_fst_executed]
  have hstr : ¬ invalidKey key → ∀ s, value = GoAny.str s →
      ∃ arg, (applySettingBody db key value).1.executed =
        db.executed ++ [(setGlobalText key, arg)] := by
    intro hv s hs
    subst hs
    have hk := (keyValidator_eq_true_iff key).mpr hv
    cases hn : strconv.Atoi s with
    | ok n => exact ⟨SqlArg.int n, by rw [applySettingBody_int db key s n hk hn]⟩
    | error e => exact ⟨SqlArg.str s, by rw [applySettingBody_str db key s e hk hn]⟩
  refine ⟨⟨?_, ?_⟩, hstr, ?_⟩
  · rintro ⟨herr, hex⟩
    by_contra hv
    have hk := (keyValidator_eq_true_iff key).mpr hv
    cases value with
    | str s =>
      obtain ⟨arg, harg⟩ := hstr hv s rfl
      rw [harg] at hex
      have := congrArg List.length hex
      simp at this
    | bool b =>
      rw [applySettingBody_bool db key b hk] at herr
      exact invalid_key_text_ne key (Option.some.inj herr)
  · intro hi
    rw [applySettingBody_invalid db key value ((keyValidator_eq_false_iff key).mpr hi)]
    exact ⟨rfl, rfl⟩
  · intro hv q hq
    have hk := (keyValidator_eq_true_iff key).mpr hv
    cases value with
    | str s =>
      obtain ⟨arg, harg⟩ := hstr hv s rfl
      rw [harg, List.drop_left] at hq
      rw [List.mem_singleton.mp hq]
      rfl
    | bool b =>
      rw [applySettingBody_bool db key b hk] at hq
      simp at hq

/-- Rejected keys (one with a blank, one with a trailing newline, the empty key) and an
accepted key. -/
theorem applySetting_rejects_invalid_key_witness :
    (applySetting okConn "bad key" (GoAny.str "1")).2 = some "invalid key: bad key" ∧
      (applySetting okConn "bad key" (GoAny.str "1")).1.executed = [] ∧
      invalidKey "MAX_CONNECTIONS\n" ∧ invalidKey "" ∧
      (∃ arg, (applySetting okConn "MAX_CONNECTIONS" (GoAny.str "1000")).1.executed =
        okConn.executed ++ [("SET GLOBAL " ++ "MAX_CONNECTIONS" ++ " = ?", arg)]) ∧
      (applySetting okConn "MAX_CONNECTIONS" (GoAny.str "1000")).1.executed =
        [("SET GLOBAL MAX_CONNECTIONS = ?", SqlArg.int 1000)] :=
  ⟨((applySetting_rejects_invalid_key okConn "bad key" (GoAny.str "1")).1.mpr
      (by decide)).1,
    ((applySetting_rejects_invalid_key okConn "bad key" (GoAny.str "1")).1.mpr
      (by decide)).2,
    by decide, by decide,
    (applySetting_rejects_invalid_key okConn "MAX_CONNECTIONS" (GoAny.str "1000")).2.1
      (by decide) "1000" rfl,
    by decide⟩

/-- C22. Integer-or-string write: for every valid key and every string value,
`applySetting` binds the statement parameter as the integer `n` when the value parses as a
decimal integer `n` (`strconv.Atoi` succeeds) and as the unchanged string otherwise, and
exactly one statement is executed per call. -/
theorem applySetting_int_or_string (db : dbConn) (key s : String) (hv : ¬ invalidKey key) :
    (∀ n, strconv.Atoi s = .ok n →
      (applySetting db key (GoAny.str s)).1.executed =
        db.executed ++ [("SET GLOBAL " ++ key ++ " = ?", SqlArg.int n)]) ∧
    ((∀ n, strconv.Atoi s ≠ .ok n) →
      (applySetting db key (GoAny.str s)).1.executed =
        db.executed ++ [("SET GLOBAL " ++ key ++ " = ?", SqlArg.str s)]) ∧
    (applySetting db key (GoAny.str s)).1.executed.length = db.executed.length + 1 := by
  have hk := (keyValidator_eq_true_iff key).mpr hv
  rw [applySetting_fst_executed]
  refine ⟨?_, ?_, ?_⟩
  · intro n hn
    rw [applySettingBody_int db key s n hk hn]
    rfl
  · intro hno
    cases hn : strconv.Atoi s with
    | ok n => exact absurd hn (hno n)
    | error e =>
      rw [applySettingBody_str db key s e hk hn]
      rfl
  · cases hn : strconv.Atoi s with
    | ok n => rw [applySettingBody_int db key s n hk hn]; simp
    | error e => rw [applySettingBody_str db key s e hk hn]; simp

/-- The two calls of the test-suite: `1000` is sent as the integer 1000 and `utf8mb4` as
the string `utf8mb4`. -/
theorem applySetting_int_or_string_witness :
    (applySetting okConn "MAX_CONNECTIONS" (GoAny.str "1000")).1.executed =
        okConn.executed ++ [("SET GLOBAL " ++ "MAX_CONNECTIONS" ++ " = ?", SqlArg.int 1000)] ∧
      (applySetting okConn "CHARACTER_SET_SERVER" (GoAny.str "utf8mb4")).1.executed =
        okConn.executed ++
          [("SET GLOBAL " ++ "CHARACTER_SET_SERVER" ++ " = ?", SqlArg.str "utf8mb4")] ∧
      (applySetting okConn "MAX_CONNECTIONS" (GoAny.str "1000")).1.executed =
        [("SET GLOBAL MAX_CONNECTIONS = ?", SqlArg.int 1000)] ∧
      (applySetting okConn "CHARACTER_SET_SERVER" (GoAny.str "utf8mb4")).1.executed =
        [("SET GLOBAL CHARACTER_SET_SERVER = ?", SqlArg.str "utf8mb4")] ∧
      (applySetting okConn "MAX_CONNECTIONS" (GoAny.str "1000")).2 = none :=
  ⟨(applySetting_int_or_string okConn "MAX_CONNECTIONS" "1000" (by decide)).1 1000
      (by decide),
    (applySetting_int_or_string okConn "CHARACTER_SET_SERVER" "utf8mb4" (by decide)).2.1
      (by
        intro n hn
        have he : strconv.Atoi "utf8mb4" = .error .errSyntax := by decide
        rw [he] at hn
        cases hn),
    by decide, by decide, by decide⟩

/-! ## Lemmas on `parseArgs` -/

theorem watchFold_mem (K : String) : ∀ (l : List String) (acc : GoMap GoAny),
    K ∈ l.foldl (fun optionsToWatch option => optionsToWatch.insert option (GoAny.bool true))
        acc ↔ K ∈ acc ∨ K ∈ l := by
  intro l
  induction l with
  | nil => intro acc; simp
  | cons x xs ih =>
    intro acc
    rw [List.foldl_cons, ih, AList.mem_insert, List.mem_cons]
    tauto

/-- What a successful `parseArgs` says about the flags. -/
theorem parseArgs_ok (flagsetParse : List String → FlagParse) (args : List String)
    (ctx : RunContext) (h : parseArgs flagsetParse args = .ok ctx) :
    ctx.applyTheChanges = (flagsetParse args).executeFlag ∧
      ctx.optionKeysToWatch = (flagsetParse args).optionsToWatchFlag.foldl
        (fun optionsToWatch option => optionsToWatch.insert option (GoAny.bool true)) ∅ ∧
      ((flagsetParse args).executeFlag = true →
        (flagsetParse args).optionsToWatchFlag ≠ []) := by
  unfold parseArgs at h
  simp only [] at h
  split at h
  · cases h
  · split at h
    · cases h
    · split at h
      · cases h
      · split at h
        · cases h
        · rename_i hcond
          have hc := Except.ok.inj h
          subst hc
          refine ⟨rfl, rfl, ?_⟩
          intro he hl
          apply hcond
          simp [he, hl]

/-- The keys of the watch map are the options named on the command line. -/
theorem parseArgs_watch_mem (flagsetParse : List String → FlagParse) (args : List String)
    (ctx : RunContext) (h : parseArgs flagsetParse args = .ok ctx) (K : String) :
    K ∈ ctx.optionKeysToWatch ↔ K ∈ (flagsetParse args).optionsToWatchFlag := by
  rw [(parseArgs_ok flagsetParse args ctx h).2.1, watchFold_mem]
  simp [AList.not_mem_empty]

theorem entries_ne_nil_of_mem {V : Type} (m : GoMap V) (K : String) (h : K ∈ m) :
    m.entries ≠ [] := by
  intro he
  have := AList.mem_keys.mp h
  simp [AList.keys, he] at this

/-! ## The property of `parseArgs` -/

/-- C23 fails as stated: the argument list `--apply-changes` alone sets the flag and names
no watch option, yet `parseArgs` stops at the count of the positional arguments and returns
`invalid number of positional arguments`. -/
theorem applyRequiresWatchMessage_counterexample :
    ¬ applyRequiresWatchMessage flagsetExample ["--apply-changes"] ∧
      parseArgs flagsetExample ["--apply-changes"] = .error .positionalCount := by
  refine ⟨?_, rfl⟩
  intro h
  obtain ⟨err, he, hc⟩ := h (by decide) (by decide)
  have hp : parseArgs flagsetExample ["--apply-changes"] = .error .positionalCount := rfl
  rw [hp] at he
  have : err = .positionalCount := (Except.error.inj he).symm
  subst this
  exact absurd hc (by decide)

/-- C23, amended. `--apply-changes` requires `--watch-options`: when the flags parse, no
help is asked for and there are exactly two positional arguments, an argument list with the
apply-changes flag set and no watch option makes `parseArgs` return the error
`--watch-options required when running --apply-changes`; whenever the flag is set without
a watch option `parseArgs` returns some error; hence every `RunContext` it returns with
`applyTheChanges = true` has a non-empty `optionKeysToWatch`, and `applyTheChanges` is the
value of the flag, so it is false when the flag is absent. -/
theorem parseArgs_apply_requires_watch (flagsetParse : List String → FlagParse)
    (args : List String) :
    ((flagsetParse args).err = none → (flagsetParse args).helpFlag = false →
      (flagsetParse args).positionals.length = 2 →
      (flagsetParse args).executeFlag = true →
      (flagsetParse args).optionsToWatchFlag = [] →
      parseArgs flagsetParse args = .error .watchOptionsRequired) ∧
    strings.Contains CliError.watchOptionsRequired.message "--watch-options required" = true ∧
    ((flagsetParse args).executeFlag = true →
      (flagsetParse args).optionsToWatchFlag = [] →
      ∃ err, parseArgs flagsetParse args = .error err) ∧
    (∀ ctx, parseArgs flagsetParse args = .ok ctx →
      ctx.applyTheChanges = (flagsetParse args).executeFlag ∧
        (ctx.applyTheChanges = true → ctx.optionKeysToWatch.entries ≠ [])) := by
  refine ⟨?_, by decide, ?_, ?_⟩
  · intro h1 h2 h3 h4 h5
    simp [parseArgs, h1, h2, h3, h4, h5]
  · intro h4 h5
    cases hp : parseArgs flagsetParse args with
    | error err => exact ⟨err, rfl⟩
    | ok ctx => exact absurd h5 ((parseArgs_ok flagsetParse args ctx hp).2.2 h4)
  · intro ctx hp
    obtain ⟨ha, _, hne⟩ := parseArgs_ok flagsetParse args ctx hp
    refine ⟨ha, ?_⟩
    intro hat
    rw [ha] at hat
    obtain ⟨o, ho⟩ := List.exists_mem_of_ne_nil _ (hne hat)
    exact entries_ne_nil_of_mem _ o ((parseArgs_watch_mem flagsetParse args ctx hp o).mpr ho)

/-- The argument lists of the test-suite: `--apply-changes` without `--watch-options` is
refused with the message asked for, and without the flag `applyTheChanges` is false. -/
theorem parseArgs_apply_requires_watch_witness :
    parseArgs flagsetExample ["my.cnf", "localhost:1000", "--apply-changes"] =
        .error .watchOptionsRequired ∧
      (parseArgs flagsetExample ["my.cnf", "localhost:1000"]).map
        (fun ctx => ctx.applyTheChanges) = .ok false ∧
      (parseArgs flagsetExample
          ["my.cnf", "localhost:1000", "--watch-options=option1,option2",
            "--apply-changes"]).map
        (fun ctx => (ctx.applyTheChanges, ctx.optionKeysToWatch.keys)) =
          .ok (true, ["option2", "option1"]) :=
  ⟨(parseArgs_apply_requires_watch flagsetExample
      ["my.cnf", "localhost:1000", "--apply-changes"]).1
      (by decide) (by decide) (by decide) (by decide) (by decide),
    by decide, by decide⟩

/-! ## Lemmas on the wrapping multiplication -/

/-- The decimal rendering of a number above the largest `uint64` is refused by the digit
loop of `ParseUint`. -/
theorem parseUintLoop_formatUint_big (n : Nat) (hn : strconv.maxUint64 < n) :
    ∃ e, strconv.parseUintLoop (strconv.formatUint n) 0 = .error e := by
  induction n using Nat.strong_induction_on with
  | _ n ih =>
    have hmax : strconv.maxUint64 = 18446744073709551615 := by decide
    rw [hmax] at hn
    have h10 : ¬ n < 10 := by omega
    rw [formatUint_eq, if_neg h10, parseUintLoop_snoc]
    by_cases hq : strconv.maxUint64 < n / 10
    · obtain ⟨e, he⟩ := ih (n / 10) (by omega) hq
      exact ⟨e, by rw [he]⟩
    · rw [parseUintLoop_formatUint (n / 10) (by omega)]
      have hd := digitVal_digitChar (n % 10) (Nat.mod_lt _ (by decide))
      simp only [strconv.parseUintLoop, hd]
      split
      · exact ⟨_, rfl⟩
      · have h2 : n / 10 * 10 + n % 10 > strconv.maxUint64 := by rw [hmax]; omega
        rw [if_pos h2]
        exact ⟨_, rfl⟩

/-- The decimal rendering of an integer outside the `int64` range is refused by
`strconv.ParseInt`. -/
theorem ParseInt_FormatInt_out_of_range (i : Int) (h : ¬ fitsInt64 i) :
    ∃ e, strconv.ParseInt (strconv.FormatInt i) = .error e := by
  have hmax : strconv.maxUint64 = 18446744073709551615 := by decide
  have hi : i < -2 ^ 63 ∨ 2 ^ 63 ≤ i := by
    unfold fitsInt64 at h
    omega
  have hU : ∀ neg : Bool, ((neg = true ∧ i < 0) ∨ (neg = false ∧ 0 ≤ i)) →
      ∃ e, strconv.applySign neg (strconv.ParseUint (strconv.formatUint i.natAbs)) =
        .error e := by
    intro neg hneg
    obtain ⟨l, hl⟩ := formatUint_snoc i.natAbs
    have hne : strconv.formatUint i.natAbs ≠ [] := by rw [hl]; simp
    unfold strconv.ParseUint
    rw [if_neg hne]
    by_cases hb : strconv.maxUint64 < i.natAbs
    · obtain ⟨e, he⟩ := parseUintLoop_formatUint_big _ hb
      exact ⟨e, by rw [he, applySign_error]⟩
    · rw [parseUintLoop_formatUint _ (by omega)]
      rcases hneg with ⟨rfl, hlt⟩ | ⟨rfl, hge⟩
      · have hgt : 9223372036854775808 < i.natAbs := by omega
        exact ⟨.errRange, by simp [strconv.applySign, hgt]⟩
      · have hgt : 9223372036854775808 ≤ i.natAbs := by omega
        exact ⟨.errRange, by simp [strconv.applySign, hgt]⟩
  by_cases hneg : i < 0
  · obtain ⟨e, he⟩ := hU true (Or.inl ⟨rfl, hneg⟩)
    exact ⟨e, by simpa [strconv.ParseInt, strconv.FormatInt, hneg] using he⟩
  · obtain ⟨c, cs, hcs, hp, hm⟩ := formatUint_cons i.natAbs
    obtain ⟨e, he⟩ := hU false (Or.inr ⟨rfl, by omega⟩)
    rw [hcs] at he
    exact ⟨e, by simpa [strconv.ParseInt, strconv.FormatInt, hneg, hcs, hp, hm] using he⟩

theorem dropLastByte_snoc (s : String) (c : Char) :
    strings.dropLastByte (s ++ ⟨[c]⟩) = s := by
  simp [strings.dropLastByte, String.data_append, List.dropLast_concat]

/-- The product of a size literal is reduced into the `int64` range. -/
theorem normalize_size_wrap (n : Int) (c : Char) (multiplier : Int)
    (hc : c = 'K' ∨ c = 'M' ∨ c = 'G' ∨ c = 'T')
    (hm : sizes (strings.ToUpper ⟨[c]⟩) = some multiplier) :
    (fitsInt64 n → normalize (strconv.FormatInt n ++ ⟨[c]⟩) =
        strconv.FormatInt (wrapInt64 (n * multiplier))) ∧
      (¬ fitsInt64 n → normalize (strconv.FormatInt n ++ ⟨[c]⟩) =
        strconv.FormatInt n ++ ⟨[c]⟩) := by
  constructor
  · intro hn
    rw [normalize_of_sizeSuffix _ (not_noSizeSuffix_snoc _ c hc), normalizeDataSize_snoc,
      ParseInt_FormatInt n hn]
    simp only [hm]
  · intro hn
    obtain ⟨e, he⟩ := ParseInt_FormatInt_out_of_range n hn
    exact normalize_of_parse_error _ e (by rw [dropLastByte_snoc]; exact he)

theorem wrapInt64_spec (x : Int) :
    fitsInt64 (wrapInt64 x) ∧ (wrapInt64 x - x) % 2 ^ 64 = 0 := by
  unfold wrapInt64 fitsInt64
  refine ⟨⟨?_, ?_⟩, ?_⟩ <;> omega

/-! ## The property of the wrapping multiplication -/

/-- C26. Size multiplication is 64-bit signed with wraparound: for every magnitude `n` in
the signed 64-bit range and every suffix `K`, `M`, `G`, `T` with multiplier `c`,
`normalize(decimal(n) ++ suffix)` is the decimal rendering of `wrapInt64 (n * c)`, the
number of the signed 64-bit range that differs from `n * c` by a multiple of `2^64`; a
magnitude outside the signed 64-bit range leaves the value unchanged. -/
theorem normalize_size_wraps_int64 (n : Int) (suffix : String) (multiplier : Int)
    (hs : (suffix, multiplier) ∈ sizeSuffixTable) :
    (fitsInt64 n → normalize (strconv.FormatInt n ++ suffix) =
        strconv.FormatInt (wrapInt64 (n * multiplier))) ∧
      (¬ fitsInt64 n → normalize (strconv.FormatInt n ++ suffix) =
        strconv.FormatInt n ++ suffix) ∧
      fitsInt64 (wrapInt64 (n * multiplier)) ∧
      (wrapInt64 (n * multiplier) - n * multiplier) % 2 ^ 64 = 0 := by
  simp only [sizeSuffixTable, List.mem_cons, Prod.mk.injEq, List.mem_nil_iff, or_false] at hs
  have hw := wrapInt64_spec (n * multiplier)
  rcases hs with ⟨rfl, rfl⟩ | ⟨rfl, rfl⟩ | ⟨rfl, rfl⟩ | ⟨rfl, rfl⟩
  · have h := normalize_size_wrap n 'K' (1024 ^ 1) (Or.inl rfl) (by decide)
    exact ⟨h.1, h.2, hw.1, hw.2⟩
  · have h := normalize_size_wrap n 'M' (1024 ^ 2) (Or.inr (Or.inl rfl)) (by decide)
    exact ⟨h.1, h.2, hw.1, hw.2⟩
  · have h := normalize_size_wrap n 'G' (1024 ^ 3) (Or.inr (Or.inr (Or.inl rfl))) (by decide)
    exact ⟨h.1, h.2, hw.1, hw.2⟩
  · have h := normalize_size_wrap n 'T' (1024 ^ 4) (Or.inr (Or.inr (Or.inr rfl))) (by decide)
    exact ⟨h.1, h.2, hw.1, hw.2⟩

/-- The overflowing literal `9223372036854775807K` is rewritten to `-1024`, and the
literal `9223372036854775808K`, whose magnitude is not a signed 64-bit integer, is left
unchanged. -/
theorem normalize_size_wraps_int64_witness :
    normalize "9223372036854775807K" = "-1024" ∧
      normalize "9223372036854775808K" = "9223372036854775808K" := by
  have h1 := (normalize_size_wraps_int64 9223372036854775807 "K" (1024 ^ 1)
    (by decide)).1 (by decide)
  have h2 := (normalize_size_wraps_int64 9223372036854775808 "K" (1024 ^ 1)
    (by decide)).2.1 (by decide)
  rw [show strconv.FormatInt 9223372036854775807 ++ "K" = "9223372036854775807K" by decide,
    show strconv.FormatInt (wrapInt64 (9223372036854775807 * 1024 ^ 1)) = "-1024"
      by decide] at h1
  rw [show strconv.FormatInt 9223372036854775808 ++ "K" = "9223372036854775808K"
    by decide] at h2
  exact ⟨h1, h2⟩

/-! ## The `Set variable` line -/

/-- C25 does not hold of the code: in corrective mode, every `Failed to SET variable`
warning is followed at once by the `Set variable` line of the same key and value, the key
and value of an `applySetting` call that returned that error.  The line is printed whether
or not the write was made. -/
theorem set_variable_printed_after_failed_write (db : dbConn)
    (confOptions serverVariables : GoMap GoAny) (e : String)
    (h : Output.failedToSet e ∈ (mysqlConfDiff db confOptions serverVariables true).out) :
    ∃ k v l, [Output.differenceFound k, Output.myCnf v, Output.mysqld l,
        Output.failedToSet e, Output.setVariable k v] <:+:
          (mysqlConfDiff db confOptions serverVariables true).out ∧
      ∃ c ∈ (mysqlConfDiff db confOptions serverVariables true).db.applied,
        c.key = k ∧ c.value = v ∧ c.err = some e := by
  obtain ⟨calls, happ, _, _, _, hfail⟩ :=
    mysqlConfDiff_facts db confOptions serverVariables true
  obtain ⟨k, v, l, hin, hc⟩ := hfail e h
  refine ⟨k, v, l, hin, ⟨k, v, some e⟩, ?_, rfl, rfl, rfl⟩
  rw [happ]
  exact List.mem_append_right _ hc

/-- The scenario `{key1: value1}` against `{key1: value2}` in corrective mode on a
connection that rejects the statement, and a key the validator rejects: the output ends
with the warning followed by the `Set variable` line, and nothing was written. -/
theorem set_variable_printed_after_failed_write_witness :
    (mysqlConfDiff failingConn confKey1 liveKey1 true).out =
        [Output.differenceFound "key1", Output.myCnf (GoAny.str "value1"),
          Output.mysqld "value2", Output.failedToSet "Error 1238: read only variable",
          Output.setVariable "key1" (GoAny.str "value1")] ∧
      (mysqlConfDiff okConn confInvalidKey liveInvalidKey true).out =
        [Output.differenceFound "bad key", Output.myCnf (GoAny.str "a"),
          Output.mysqld "b", Output.failedToSet "invalid key: bad key",
          Output.setVariable "bad key" (GoAny.str "a")] ∧
      (mysqlConfDiff okConn confInvalidKey liveInvalidKey true).db.executed = [] ∧
      ∃ k v l, [Output.differenceFound k, Output.myCnf v, Output.mysqld l,
          Output.failedToSet "Error 1238: read only variable", Output.setVariable k v] <:+:
            (mysqlConfDiff failingConn confKey1 liveKey1 true).out ∧
        ∃ c ∈ (mysqlConfDiff failingConn confKey1 liveKey1 true).db.applied,
          c.key = k ∧ c.value = v ∧ c.err = some "Error 1238: read only variable" :=
  ⟨by decide, by decide, by decide,
    set_variable_printed_after_failed_write failingConn confKey1 liveKey1
      "Error 1238: read only variable" (by decide)⟩

/-! ## Lemmas on the filters of the driver -/

theorem limitToWatchedOptions_mem (fullOptions watchedOptions : GoMap GoAny) (K : String) :
    K ∈ limitToWatchedOptions fullOptions watchedOptions ↔
      K ∈ normalizeKeys fullOptions ∧ K ∈ normalizeKeys watchedOptions := by
  rw [← AList.lookup_isSome, limitToWatchedOptions_lookup]
  by_cases hw : K ∈ normalizeKeys watchedOptions
  · rw [if_pos hw, AList.lookup_isSome]
    exact ⟨fun h => ⟨h, hw⟩, fun h => h.1⟩
  · rw [if_neg hw]
    exact ⟨fun h => (by cases h), fun h => absurd h.2 hw⟩

theorem keyOutput_notFound_outcome (sv : GoMap GoAny) (a : Bool) (key k : String)
    (val : GoAny) (h : Output.notFound k ∈ keyOutput sv a key val) :
    keyOutcome sv key val = .warning := by
  unfold keyOutput at h
  cases ho : keyOutcome sv key val with
  | warning => rfl
  | equivalent => rw [ho] at h; simp at h
  | drift l => rw [ho] at h; cases a <;> simp at h

theorem keyCalls_readonly (sv : GoMap GoAny) (key : String) (val : GoAny) :
    keyCalls sv false key val = [] := by
  unfold keyCalls
  cases keyOutcome sv key val <;> rfl

theorem entry_key_mem {V : Type} (m : GoMap V) (kv : Σ _ : String, V)
    (h : kv ∈ m.entries) : kv.1 ∈ m :=
  AList.mem_keys.mpr (List.mem_map.mpr ⟨kv, h, rfl⟩)

/-- The keys `mysqlConfDiff` passes to `applySetting` are keys of `confOptions`, and there
are none in read-only mode. -/
theorem mysqlConfDiff_call_keys (db : dbConn) (conf sv : GoMap GoAny) (a : Bool) :
    ∃ calls : List ApplyCall,
      (mysqlConfDiff db conf sv a).db.applied = db.applied ++ calls ∧
      ∀ c ∈ calls, a = true ∧ c.key ∈ conf := by
  obtain ⟨calls, happ, _, hcalls, _, _⟩ := mysqlConfDiff_facts db conf sv a
  refine ⟨calls, happ, ?_⟩
  intro c hc
  have hm : (c.key, c.value) ∈ calls.map (fun c => (c.key, c.value)) :=
    List.mem_map.mpr ⟨c, hc, rfl⟩
  rw [hcalls] at hm
  obtain ⟨kv, hkv, hk⟩ := List.mem_flatMap.mp hm
  constructor
  · cases a with
    | true => rfl
    | false => rw [keyCalls_readonly] at hk; cases hk
  · obtain ⟨hkey, _, _⟩ := keyCalls_mem _ _ _ _ _ _ hk
    rw [hkey]
    exact entry_key_mem conf kv hkv

/-- The last step of `runWithReturnCode`, once the guard on the watch set has passed. -/
theorem driver_call_keys (context : RunContext) (db : dbConn) (conf sv : GoMap GoAny)
    (hguard : ¬ (context.applyTheChanges &&
      context.optionKeysToWatch.entries.length == 0) = true) :
    ∃ calls : List ApplyCall,
      (mysqlConfDiff db
        (if context.optionKeysToWatch.entries.length > 0 then
          limitToWatchedOptions conf context.optionKeysToWatch
        else limitToWatchedOptions conf sv) sv context.applyTheChanges).db.applied =
          db.applied ++ calls ∧
      ∀ c ∈ calls, GetVariableKeyFrom c.key = c.key ∧
        (∃ k, k ∈ conf ∧ GetVariableKeyFrom k = c.key) ∧
        ∃ k, k ∈ context.optionKeysToWatch ∧ GetVariableKeyFrom k = c.key := by
  obtain ⟨calls, happ, hkeys⟩ := mysqlConfDiff_call_keys db
    (if context.optionKeysToWatch.entries.length > 0 then
      limitToWatchedOptions conf context.optionKeysToWatch
    else limitToWatchedOptions conf sv) sv context.applyTheChanges
  refine ⟨calls, happ, ?_⟩
  intro c hc
  obtain ⟨ha, hmem⟩ := hkeys c hc
  have hlen : context.optionKeysToWatch.entries.length > 0 := by
    rw [ha] at hguard
    simp only [Bool.true_and, beq_iff_eq] at hguard
    omega
  rw [if_pos hlen, limitToWatchedOptions_mem] at hmem
  obtain ⟨k1, hk1, hc1⟩ := (normalizeKeys_mem conf c.key).mp hmem.1
  obtain ⟨k2, hk2, hc2⟩ := (normalizeKeys_mem context.optionKeysToWatch c.key).mp hmem.2
  refine ⟨?_, ⟨k1, hk1, hc1⟩, ⟨k2, hk2, hc2⟩⟩
  rw [← hc2]
  simp only [GetVariableKeyFrom_eq, canonicalForm_idem]

/-! ## The properties of the driver -/

/-- C27. Default filtering removes every unmatched key: for every effective config map and
every live map whose keys are all in canonical form (and whose values are strings, as the
live variable map is), `mysqlConfDiff` run on `limitToWatchedOptions(confOptions,
serverVariables)` and `serverVariables` emits no `was not found in server variables`
warning, and the filtered map contains exactly the canonical forms of the config keys that
are keys of the live map. -/
theorem default_filter_leaves_no_unmatched_key (db : dbConn)
    (confOptions serverVariables : GoMap GoAny) (applyTheChanges : Bool)
    (hcanon : ∀ k, k ∈ serverVariables → GetVariableKeyFrom k = k)
    (hstr : ∀ k v, serverVariables.lookup k = some v → ∃ l, v = GoAny.str l) :
    (∀ K, Output.notFound K ∉
      (mysqlConfDiff db (limitToWatchedOptions confOptions serverVariables) serverVariables
        applyTheChanges).out) ∧
    (∀ K, K ∈ limitToWatchedOptions confOptions serverVariables ↔
      (∃ k, k ∈ confOptions ∧ GetVariableKeyFrom k = K) ∧ K ∈ serverVariables) := by
  have hmem : ∀ K, K ∈ limitToWatchedOptions confOptions serverVariables ↔
      (∃ k, k ∈ confOptions ∧ GetVariableKeyFrom k = K) ∧ K ∈ serverVariables := by
    intro K
    rw [limitToWatchedOptions_mem, normalizeKeys_mem, normalizeKeys_mem]
    constructor
    · rintro ⟨h1, k, hk, hK⟩
      have hKk : K = k := by rw [← hK]; exact hcanon k hk
      subst hKk
      exact ⟨h1, hk⟩
    · rintro ⟨h1, h2⟩
      exact ⟨h1, K, h2, hcanon K h2⟩
  refine ⟨?_, hmem⟩
  intro K hK
  obtain ⟨calls, _, hout, _⟩ := mysqlConfDiff_facts db
    (limitToWatchedOptions confOptions serverVariables) serverVariables applyTheChanges
  have h1 : Output.notFound K ∈
      (mysqlConfDiff db (limitToWatchedOptions confOptions serverVariables) serverVariables
        applyTheChanges).out.filter (fun o => !o.isFailedToSet) :=
    List.mem_filter.mpr ⟨hK, rfl⟩
  rw [hout] at h1
  obtain ⟨kv, hkv, hk⟩ := List.mem_flatMap.mp h1
  have hw := keyOutput_notFound_outcome _ _ _ _ _ hk
  have hsv : kv.1 ∈ serverVariables := ((hmem kv.1).mp (entry_key_mem _ kv hkv)).2
  obtain ⟨v, hv⟩ := Option.isSome_iff_exists.mp (AList.lookup_isSome.mpr hsv)
  obtain ⟨l, rfl⟩ := hstr _ _ hv
  exact (keyOutcome_warning_iff _ _ _).mp hw ⟨l, hv⟩

/-- A configuration with the client-only option `user` against a live map without `USER`:
the filter drops `user`, and the run prints the drift of `MAX_CONNECTIONS` only. -/
theorem default_filter_leaves_no_unmatched_key_witness :
    (∀ K, Output.notFound K ∉
      (mysqlConfDiff okConn (limitToWatchedOptions confWithClientOption liveMaxConnections)
        liveMaxConnections false).out) ∧
    ("MAX_CONNECTIONS" ∈ limitToWatchedOptions confWithClientOption liveMaxConnections ↔
      (∃ k, k ∈ confWithClientOption ∧ GetVariableKeyFrom k = "MAX_CONNECTIONS") ∧
        "MAX_CONNECTIONS" ∈ liveMaxConnections) ∧
    (limitToWatchedOptions confWithClientOption liveMaxConnections).entries =
      (GoMap.ofList [("MAX_CONNECTIONS", GoAny.str "100")]).entries ∧
    (mysqlConfDiff okConn (limitToWatchedOptions confWithClientOption liveMaxConnections)
        liveMaxConnections false).out =
      [Output.differenceFound "MAX_CONNECTIONS", Output.myCnf (GoAny.str "100"),
        Output.mysqld "151"] ∧
    (mysqlConfDiff okConn confWithClientOption liveMaxConnections false).out =
      [Output.notFound "user", Output.notFound "max-connections"] := by
  have hkeys : ∀ k, k ∈ liveMaxConnections → k = "MAX_CONNECTIONS" ∨ k = "PORT" := by
    intro k hk
    have h2 : k ∈ liveMaxConnections.keys := AList.mem_keys.mp hk
    have h3 : liveMaxConnections.keys = ["PORT", "MAX_CONNECTIONS"] := by decide
    rw [h3] at h2
    simp only [List.mem_cons, List.mem_nil_iff, or_false] at h2
    exact h2.symm
  have hT := default_filter_leaves_no_unmatched_key okConn confWithClientOption
    liveMaxConnections false
    (by
      intro k hk
      rcases hkeys k hk with rfl | rfl <;> decide)
    (by
      intro k v hv
      have hk : k ∈ liveMaxConnections := AList.lookup_isSome.mp (by rw [hv]; rfl)
      rcases hkeys k hk with rfl | rfl
      · rw [show liveMaxConnections.lookup "MAX_CONNECTIONS" = some (GoAny.str "151")
          by decide] at hv
        exact ⟨"151", (Option.some.inj hv).symm⟩
      · rw [show liveMaxConnections.lookup "PORT" = some (GoAny.str "3306")
          by decide] at hv
        exact ⟨"3306", (Option.some.inj hv).symm⟩)
  exact ⟨hT.1, hT.2 "MAX_CONNECTIONS", by decide, by decide, by decide⟩

/-- C28. Writes are confined to the watch set: when a run of the driver reaches
`mysqlConfDiff`, the arguments were accepted by `parseArgs`, the connection was opened, and
every key passed to `applySetting` during the run is in canonical form, is the canonical
form of a key of the configuration map, and is the canonical form of some option named in
`--watch-options`. -/
theorem writes_confined_to_watch_set (env : DriverEnv) (args : List String) (w : World)
    (h : (runWithReturnCode env args).world = some w) :
    ∃ context db, parseArgs env.flagsetParse args = .ok context ∧
      env.getDB context = .ok db ∧
      ∃ calls : List ApplyCall, w.db.applied = db.applied ++ calls ∧
        ∀ c ∈ calls, GetVariableKeyFrom c.key = c.key ∧
          ∃ option ∈ (env.flagsetParse args).optionsToWatchFlag,
            GetVariableKeyFrom option = c.key := by
  unfold runWithReturnCode at h
  cases hp : parseArgs env.flagsetParse args with
  | error err =>
    rw [hp] at h
    simp only [] at h
    split at h <;> simp at h
  | ok context =>
    rw [hp] at h
    simp only [] at h
    split at h
    · simp at h
    · rename_i hguard
      cases hd : env.getDB context with
      | error e => rw [hd] at h; simp at h
      | ok db =>
        rw [hd] at h
        simp only [] at h
        cases ho : env.getOptionsFrom context.configPath db with
        | error e => rw [ho] at h; simp at h
        | ok pair =>
          obtain ⟨confOptions, serverVariables⟩ := pair
          rw [ho] at h
          simp only [Option.some.injEq] at h
          obtain ⟨calls, happ, hkeys⟩ :=
            driver_call_keys context db confOptions serverVariables hguard
          refine ⟨context, db, rfl, hd, calls, ?_, ?_⟩
          · rw [← h]
            exact happ
          · intro c hc
            obtain ⟨h1, _, k, hk, hck⟩ := hkeys c hc
            exact ⟨h1, k, (parseArgs_watch_mem env.flagsetParse args context hp k).mp hk,
              hck⟩

/-- A run that watches `max-connections` in corrective mode while `port` drifts too: the
only key written is `MAX_CONNECTIONS`.  A run that watches `ſtart` writes `START`, the
upper case of the option. -/
theorem writes_confined_to_watch_set_witness :
    (∃ w, (runWithReturnCode driverLongS driverArgsLongS).world = some w ∧
      w.db.applied = [⟨"START", GoAny.str "a", none⟩]) ∧
    ∃ w, (runWithReturnCode driverExample driverArgsExample).world = some w ∧
      w.db.applied = [⟨"MAX_CONNECTIONS", GoAny.str "100", none⟩] ∧
      ∃ context db, parseArgs driverExample.flagsetParse driverArgsExample = .ok context ∧
        driverExample.getDB context = .ok db ∧
        ∃ calls : List ApplyCall, w.db.applied = db.applied ++ calls ∧
          ∀ c ∈ calls, GetVariableKeyFrom c.key = c.key ∧
            ∃ option ∈ (driverExample.flagsetParse driverArgsExample).optionsToWatchFlag,
              GetVariableKeyFrom option = c.key :=
  ⟨⟨_, rfl, by decide⟩,
    _, rfl, by decide, writes_confined_to_watch_set driverExample driverArgsExample _ rfl⟩

/-! ## Lemmas on the section list -/

theorem splitOnP_go_sep (p : Char → Bool) : ∀ (l acc part : List Char),
    part ∈ List.splitOnP.go p l acc → ∀ x ∈ part, x ∈ acc ∨ p x = false := by
  intro l
  induction l with
  | nil =>
    intro acc part h x hx
    simp only [List.splitOnP.go, List.mem_singleton] at h
    subst h
    exact Or.inl (List.mem_reverse.mp hx)
  | cons a t ih =>
    intro acc part h x hx
    simp only [List.splitOnP.go] at h
    by_cases hp : p a = true
    · simp only [hp, if_true, List.mem_cons] at h
      rcases h with h | h
      · subst h
        exact Or.inl (List.mem_reverse.mp hx)
      · rcases ih [] part h x hx with h1 | h1
        · simp at h1
        · exact Or.inr h1
    · simp only [hp, if_false, Bool.false_eq_true] at h
      rcases ih (a :: acc) part h x hx with h1 | h1
      · rcases List.mem_cons.mp h1 with h2 | h2
        · exact Or.inr (by rw [h2]; simpa using hp)
        · exact Or.inl h2
      · exact Or.inr h1

/-- No piece of a split text contains the separator. -/
theorem splitOn_sep_not_mem (c : Char) (l part : List Char) (h : part ∈ l.splitOn c) :
    c ∉ part := by
  intro hc
  rcases splitOnP_go_sep (fun y => y == c) l [] part h c hc with h1 | h1
  · simp at h1
  · simp at h1

theorem isHeaderLine_eq (line : String) :
    isHeaderLine line =
      (decide (line.data.head? = some '[') && decide (line.data.getLast? = some ']')) := by
  have e1 : ("[" : String) = ⟨['[']⟩ := rfl
  have e2 : ("]" : String) = ⟨[']']⟩ := rfl
  have hA : strings.HasPrefix line "[" = decide (line.data.head? = some '[') := by
    rw [e1]; exact hasPrefix_single line.data '['
  have hB : strings.HasSuffix line "]" = decide (line.data.getLast? = some ']') := by
    rw [e2]; exact hasSuffix_single line.data ']'
  unfold isHeaderLine
  rw [hA, hB]

/-- A section header is a line `clean` keeps. -/
theorem keepLine_of_isHeaderLine (line : String) (h : isHeaderLine line = true) :
    keepLine line = true := by
  rw [isHeaderLine_eq] at h
  simp only [Bool.and_eq_true, decide_eq_true_eq] at h
  obtain ⟨h1, h2⟩ := h
  have hne : "!include".data.isPrefixOf line.data = false := by
    cases hd : line.data with
    | nil => rw [hd] at h1; cases h1
    | cons x xs =>
      rw [hd] at h1
      simp only [List.head?_cons, Option.some.injEq] at h1
      subst h1
      rfl
  unfold keepLine
  simp [h1, h2, hne]

theorem filter_header_of_kept (lines : List String) :
    (lines.filter keepLine).filter isHeaderLine = lines.filter isHeaderLine := by
  rw [List.filter_filter]
  apply List.filter_congr
  intro x _
  cases hx : isHeaderLine x with
  | false => rfl
  | true => simp [keepLine_of_isHeaderLine x hx]

/-- The section headers of the cleaned text are those of the text. -/
theorem headerLines_clean (text : String) :
    headerLines (clean text) = headerLines text := by
  unfold headerLines
  rw [clean_eq_cleanSpec]
  unfold cleanSpec
  simp only []
  by_cases hk : ((text.data.splitOn '\n').map String.mk).filter keepLine = []
  · have hR : ((text.data.splitOn '\n').map String.mk).filter isHeaderLine = [] := by
      rw [← filter_header_of_kept, hk]
      rfl
    rw [hR, hk]
    decide
  · rw [List.splitOn_intercalate]
    · rw [List.map_map]
      have : (String.mk ∘ String.data) = id := by funext x; rfl
      rw [this, List.map_id, filter_header_of_kept]
    · intro l hl
      obtain ⟨line, hline, rfl⟩ := List.mem_map.mp hl
      obtain ⟨part, hpart, rfl⟩ := List.mem_map.mp (List.mem_filter.mp hline).1
      exact splitOn_sep_not_mem '\n' text.data part hpart
    · intro he
      exact hk (List.map_eq_nil_iff.mp he)

theorem iniLine_sectionList (f f2 : IniFile) (current current2 line : String)
    (h : iniLine f current line = .ok (f2, current2)) :
    f2.sectionList =
      if isHeaderLine line then
        (if headerName line ∈ f.sectionList then f.sectionList
          else f.sectionList ++ [headerName line])
      else f.sectionList := by
  unfold iniLine at h
  by_cases hh : isHeaderLine line = true
  · rw [if_pos hh] at h
    rw [if_pos hh]
    split at h
    · cases h
    · split at h
      · rename_i hm
        simp only [Except.ok.injEq, Prod.mk.injEq] at h
        rw [if_pos hm, ← h.1]
      · rename_i hm
        simp only [Except.ok.injEq, Prod.mk.injEq] at h
        rw [if_neg hm, ← h.1]
  · rw [if_neg hh] at h
    rw [if_neg hh]
    split at h
    · simp only [Except.ok.injEq, Prod.mk.injEq] at h
      rw [← h.1]
    · split at h
      · simp only [Except.ok.injEq, Prod.mk.injEq] at h
        rw [← h.1]
      · split at h
        · simp only [] at h
          split at h
          · cases h
          · simp only [Except.ok.injEq, Prod.mk.injEq] at h
            rw [← h.1]
        · cases h

theorem iniLines_sectionList : ∀ (lines : List String) (f f2 : IniFile) (current : String),
    iniLines lines f current = .ok f2 →
      f2.sectionList = ((lines.filter isHeaderLine).map headerName).foldl
        (fun acc name => if name ∈ acc then acc else acc ++ [name]) f.sectionList := by
  intro lines
  induction lines with
  | nil =>
    intro f f2 current h
    simp only [iniLines, Except.ok.injEq] at h
    rw [← h]
    rfl
  | cons line rest ih =>
    intro f f2 current h
    unfold iniLines at h
    cases hl : iniLine f current line with
    | error err => rw [hl] at h; cases h
    | ok r =>
      obtain ⟨f1, current1⟩ := r
      rw [hl] at h
      simp only [] at h
      rw [ih f1 f2 current1 h, iniLine_sectionList f f1 current current1 line hl]
      by_cases hh : isHeaderLine line = true
      · simp [List.filter, hh]
      · simp only [Bool.not_eq_true] at hh
        simp [List.filter, hh]

theorem addNew_fold : ∀ (names acc : List String),
    names.foldl (fun acc name => if name ∈ acc then acc else acc ++ [name]) acc =
      acc ++ (firstOccurrences names).filter (fun y => y ∉ acc) := by
  intro names
  induction names with
  | nil => intro acc; simp [firstOccurrences]
  | cons x xs ih =>
    intro acc
    rw [List.foldl_cons, ih]
    by_cases hx : x ∈ acc
    · rw [if_pos hx]
      congr 1
      simp only [firstOccurrences, List.filter_cons, hx, not_true_eq_false, decide_False,
        Bool.false_eq_true, if_false, List.filter_filter]
      apply List.filter_congr
      intro y _
      by_cases hy : y ∈ acc
      · simp [hy]
      · have : y ≠ x := fun e => hy (e ▸ hx)
        simp [hy, this]
    · rw [if_neg hx, List.append_assoc]
      congr 1
      simp only [firstOccurrences, List.filter_cons, hx, not_false_eq_true, decide_True,
        if_true, List.filter_filter, List.singleton_append]
      congr 1
      apply List.filter_congr
      intro y _
      by_cases hy : y ∈ acc <;> by_cases hyx : y = x <;> simp [hy, hyx]

/-! ## The property of `NewMySQLConfig` -/

/-- C24. Loaded sections keep document order behind an implicit default section: for every
configuration text that parses, the `sectionTitles` of `NewMySQLConfig` is `DEFAULT`
followed by the section header names of the text in the order in which they first
appear. -/
theorem NewMySQLConfig_sectionTitles (osReadFile : String → Except String String)
    (config : ConfigSource) (text : String) (c : MySQLConfig)
    (hr : readFile osReadFile config = .ok text)
    (h : NewMySQLConfig osReadFile config = .ok c) :
    c.sectionTitles = firstOccurrences ("DEFAULT" :: headerNames text) := by
  unfold NewMySQLConfig at h
  rw [hr] at h
  simp only [] at h
  cases hl : iniLoad (clean text) with
  | error err => rw [hl] at h; cases h
  | ok cfg =>
    rw [hl] at h
    simp only [Except.ok.injEq] at h
    rw [← h]
    simp only []
    unfold iniLoad at hl
    have e : ("\n" : String) = ⟨['\n']⟩ := rfl
    rw [iniLines_sectionList _ _ _ _ hl, e, Split_single]
    have hc := headerLines_clean text
    unfold headerLines at hc
    rw [hc, addNew_fold]
    simp only [firstOccurrences, headerNames, headerLines, List.singleton_append]
    congr 1
    apply List.filter_congr
    intro y _
    simp

/-- The text of the test-suite, with `[section1]` then `[section2]`, loads and gives
`DEFAULT`, `section1`, `section2`. -/
theorem NewMySQLConfig_sectionTitles_witness :
    ∃ c, NewMySQLConfig (fun _ => .error "no such file") (.bytes configTextExample) =
        .ok c ∧
      c.sectionTitles = firstOccurrences ("DEFAULT" :: headerNames configTextExample) ∧
      firstOccurrences ("DEFAULT" :: headerNames configTextExample) =
        ["DEFAULT", "section1", "section2"] :=
  ⟨_, rfl, NewMySQLConfig_sectionTitles (fun _ => .error "no such file")
    (.bytes configTextExample) configTextExample _ rfl rfl, by decide⟩

end MysqlConfDiff
